import Mathlib

/-!
# Coinkeeper: statement import pipeline (`src/src/App.jsx`)

A shallow embedding of `parseKaspiPDF` (lines 767-866) and `handleBulkImport`
(lines 1133-1192), followed by theorems about them.

Conventions of the embedding.

* A JavaScript string is a `List Char` (`Str`).
* A JavaScript number is a `JSNum`: `NaN`, the two infinities, or a finite
  double given by its exact rational value.  `parseFloat` reads a decimal
  literal and rounds it to the nearest double (`toNumber`: ties to even,
  infinity on overflow, gradual underflow).
* A character outside the Basic Multilingual Plane is one element of a `Str`
  (two code units in JavaScript); no operation of the program separates the two
  halves of a pair.
* Built-ins of the host that are not part of the repository and whose result
  depends on the host (`Number::toString`, `Date` parsing, the store client)
  are parameters of the functions that use them.
-/

namespace Coinkeeper

/-! ## Strings -/

/-- JavaScript string, as a list of characters. -/
abbrev Str := List Char

/-- ECMAScript `WhiteSpace` and `LineTerminator` code points: the characters
matched by `\s` in a regular expression and removed by `String.prototype.trim`. -/
def isWhiteSpace (c : Char) : Bool :=
  let n := c.toNat
  n == 0x20 || (0x09 ≤ n && n ≤ 0x0D) || n == 0xA0 || n == 0x1680 ||
  (0x2000 ≤ n && n ≤ 0x200A) || n == 0x2028 || n == 0x2029 || n == 0x202F ||
  n == 0x205F || n == 0x3000 || n == 0xFEFF

/-- `String.prototype.trimStart`. -/
def trimStart (s : Str) : Str := s.dropWhile isWhiteSpace

/-- `String.prototype.trimEnd`. -/
def trimEnd (s : Str) : Str := (s.reverse.dropWhile isWhiteSpace).reverse

/-- `String.prototype.trim`. -/
def trim (s : Str) : Str := trimEnd (trimStart s)

/-! ## Numbers -/

/-- JavaScript number: `NaN`, `Infinity` / `-Infinity` (`inf false` / `inf true`),
or a finite double, given by its exact value.  The two zeros are not
distinguished: no operation used by the program tells them apart. -/
inductive JSNum where
  | nan : JSNum
  | inf (neg : Bool) : JSNum
  | fin (q : ℚ) : JSNum
  deriving DecidableEq

/-- Number of binary digits of `n` (zero for `0`); the first argument bounds the
number of halvings. -/
def bitLengthAux : Nat → Nat → Nat
  | 0, _ => 0
  | fuel + 1, n => if n = 0 then 0 else bitLengthAux fuel (n / 2) + 1

/-- Number of binary digits of `n`: `2 ^ (bitLength n - 1) ≤ n < 2 ^ bitLength n`
for `n > 0`. -/
def bitLength (n : Nat) : Nat := bitLengthAux n n

/-- The integer nearest to `n / d`, the even one of the two when `n / d` is
half-way between them. -/
def roundHalfEven (n d : Nat) : Nat :=
  if 2 * (n % d) < d then n / d
  else if d < 2 * (n % d) then n / d + 1
  else if n / d % 2 = 0 then n / d else n / d + 1

/-- The exponent `e` of the doubles `m * 2 ^ e` around `n / d > 0`: the one with
`2 ^ 52 ≤ (n / d) / 2 ^ e < 2 ^ 53`, and `-1074` (the denormalised doubles) when
that one is smaller. -/
def ulpExponent (n d : Nat) : Int :=
  let e1 : Int := (bitLength n : Int) - (bitLength d : Int) - 53
  let e0 : Int :=
    if 2 ^ 53 * (d * 2 ^ e1.toNat) ≤ n * 2 ^ (-e1).toNat then e1 + 1 else e1
  max e0 (-1074)

/-- The Number value for a real `q` (ECMAScript 6.1.6.1): the double nearest to
`q`, the one with even significand when two are equally near, and an infinity
when that rounding reaches `2 ^ 1024`. -/
def toNumber (q : ℚ) : JSNum :=
  if q = 0 then .fin 0 else
  let e := ulpExponent q.num.natAbs q.den
  let m := roundHalfEven (q.num.natAbs * 2 ^ (-e).toNat) (q.den * 2 ^ e.toNat)
  if 971 < e ∨ (e = 971 ∧ m = 2 ^ 53) then .inf (decide (q < 0))
  else .fin (mkRat ((if q < 0 then -(m : Int) else (m : Int)) * 2 ^ e.toNat) (2 ^ (-e).toNat))

/-! ## Built-ins used by the parser -/

/-- The value `\d` matches: an ASCII digit. -/
def isDigit (c : Char) : Bool := 0x30 ≤ c.toNat && c.toNat ≤ 0x39

/-- ECMAScript `LineTerminator`: what `.` does not match. -/
def isLineTerminator (c : Char) : Bool :=
  c.toNat == 0x0A || c.toNat == 0x0D || c.toNat == 0x2028 || c.toNat == 0x2029

/-- `s.replace(/\s+/g, ' ')`: every maximal run of white space becomes one space.
`inRun` tells that the previous character was white space. -/
def collapseWhiteSpace : Bool → Str → Str
  | _, [] => []
  | inRun, c :: t =>
    if isWhiteSpace c then
      if inRun then collapseWhiteSpace true t else ' ' :: collapseWhiteSpace true t
    else c :: collapseWhiteSpace false t

/-- `s.includes(pat)`. -/
def includes (s pat : Str) : Bool := s.tails.any fun t => pat.isPrefixOf t

/-- `s.lastIndexOf(c)` for a one-character `c`, scanning from index `i`; `none` is `-1`. -/
def lastIndexOfFrom (c : Char) : Nat → Str → Option Nat
  | _, [] => none
  | i, x :: t =>
    match lastIndexOfFrom c (i + 1) t with
    | some j => some j
    | none => if x = c then some i else none

/-- `s.lastIndexOf(c)`. -/
def lastIndexOf (s : Str) (c : Char) : Option Nat := lastIndexOfFrom c 0 s

/-- `s.replace(a, b)` with a one-character string pattern: the first occurrence only. -/
def replaceFirst (a b : Char) : Str → Str
  | [] => []
  | x :: t => if x = a then b :: t else x :: replaceFirst a b t

/-- `s.split(sep)` with a one-character separator. -/
def split (sep : Char) : Str → List Str
  | [] => [[]]
  | x :: t =>
    if x = sep then [] :: split sep t
    else
      match split sep t with
      | [] => [[x]]
      | seg :: segs => (x :: seg) :: segs

/-- Value of a run of ASCII digits read in base ten. -/
def digitsValue (ds : Str) : Nat := ds.foldl (fun acc c => 10 * acc + (c.toNat - 0x30)) 0

/-- The number `m * 10 ^ e`, exactly. -/
def scale10 (m e : Int) : ℚ := mkRat (m * 10 ^ e.toNat) (10 ^ (-e).toNat)

/-- The `ExponentPart` of a decimal literal at the head of `s`, when there is one
(`e` or `E`, an optional sign and at least one digit); zero otherwise. -/
def exponentPart (s : Str) : Int :=
  match s with
  | [] => 0
  | c :: t =>
    if c = 'e' ∨ c = 'E' then
      match t with
      | [] => 0
      | d :: u =>
        if d = '-' then -(digitsValue (u.takeWhile isDigit) : Int)
        else if d = '+' then digitsValue (u.takeWhile isDigit)
        else digitsValue ((d :: u).takeWhile isDigit)
    else 0

/-- The digits after a decimal point at the head of `s`, and the text after them. -/
def fractionPart (s : Str) : Str × Str :=
  match s with
  | [] => ([], [])
  | c :: t => if c = '.' then (t.takeWhile isDigit, t.dropWhile isDigit) else ([], c :: t)

/-- The unsigned part of `parseFloat`: `Infinity`, or digits with an optional
fraction and exponent, read as a decimal and rounded to a double; `NaN` when
neither a digit nor a point followed by a digit starts the text. -/
def parseUnsigned (neg : Bool) (s : Str) : JSNum :=
  if "Infinity".toList.isPrefixOf s then .inf neg else
  let intDigits := s.takeWhile isDigit
  let fracDigits := (fractionPart (s.dropWhile isDigit)).1
  let afterFrac := (fractionPart (s.dropWhile isDigit)).2
  if intDigits.isEmpty && fracDigits.isEmpty then .nan else
  let m : Int := digitsValue (intDigits ++ fracDigits)
  toNumber (scale10 (if neg then -m else m) (exponentPart afterFrac - fracDigits.length))

/-- The global `parseFloat`: leading white space is skipped, then the longest
leading `StrDecimalLiteral` is read; `NaN` when there is none. -/
def parseFloat (s : Str) : JSNum :=
  match trimStart s with
  | [] => .nan
  | c :: t =>
    if c = '-' then parseUnsigned true t
    else if c = '+' then parseUnsigned false t
    else parseUnsigned false (c :: t)

/-- The global `isNaN` on a number. -/
def isNaN : JSNum → Bool
  | .nan => true
  | _ => false

/-- The comparison `x > 0`. -/
def JSNum.gtZero : JSNum → Bool
  | .nan => false
  | .inf neg => !neg
  | .fin q => decide (0 < q)

/-- `Math.abs`. -/
def JSNum.abs : JSNum → JSNum
  | .nan => .nan
  | .inf _ => .inf false
  | .fin q => .fin (if q < 0 then -q else q)

/-! ## Data model -/

/-- The `type` field of a transaction: `'income'` or `'expense'`. -/
inductive TxnType where
  | income
  | expense
  deriving DecidableEq, Repr

/-- The object pushed by `parseKaspiPDF` (lines 840-846) and read by
`handleBulkImport`.  Rows returned by the store's `select` carry `date`, `amount`,
`description` and `type`; their `category` is never read. -/
structure Transaction where
  date : Str
  description : Str
  amount : JSNum
  type : TxnType
  category : Str
  deriving DecidableEq

/-! ## The statement parser (`parseKaspiPDF`, lines 795-854) -/

/-- Upper-case form of one character.  Exact for every character whose upper-case
form contains an ASCII letter or a Cyrillic capital of U+0400..U+042F (the ASCII
and Cyrillic small letters and the special casings listed below); any other
character is returned as is.  The forms left out contain no letter of a rule
keyword, so no `includes` test of the classifier depends on them. -/
def upperChar (c : Char) : Str :=
  let n := c.toNat
  if 0x61 ≤ n ∧ n ≤ 0x7A then [Char.ofNat (n - 0x20)]
  else if 0x430 ≤ n ∧ n ≤ 0x44F then [Char.ofNat (n - 0x20)]
  else if 0x450 ≤ n ∧ n ≤ 0x45F then [Char.ofNat (n - 0x50)]
  else if n = 0xDF then ['S', 'S']
  else if n = 0x131 then ['I']
  else if n = 0x149 then [Char.ofNat 0x2BC, 'N']
  else if n = 0x17F then ['S']
  else if n = 0x1F0 then ['J', Char.ofNat 0x30C]
  else if n = 0x1C80 then [Char.ofNat 0x412]
  else if n = 0x1C81 then [Char.ofNat 0x414]
  else if n = 0x1C82 then [Char.ofNat 0x41E]
  else if n = 0x1C83 then [Char.ofNat 0x421]
  else if n = 0x1C84 ∨ n = 0x1C85 then [Char.ofNat 0x422]
  else if n = 0x1C86 then [Char.ofNat 0x42A]
  else if n = 0x1E96 then ['H', Char.ofNat 0x331]
  else if n = 0x1E97 then ['T', Char.ofNat 0x308]
  else if n = 0x1E98 then ['W', Char.ofNat 0x30A]
  else if n = 0x1E99 then ['Y', Char.ofNat 0x30A]
  else if n = 0x1E9A then ['A', Char.ofNat 0x2BE]
  else if n = 0xFB00 then ['F', 'F']
  else if n = 0xFB01 then ['F', 'I']
  else if n = 0xFB02 then ['F', 'L']
  else if n = 0xFB03 then ['F', 'F', 'I']
  else if n = 0xFB04 then ['F', 'F', 'L']
  else if n = 0xFB05 ∨ n = 0xFB06 then ['S', 'T']
  else [c]

/-- `String.prototype.toUpperCase`. -/
def toUpperCase (s : Str) : Str := (s.map upperChar).flatten

/-- One item of a regular expression whose quantifiers apply to character
classes: a class, `x?`, `x*?` or `x+`. -/
inductive Node where
  | one (p : Char → Bool)
  | opt (p : Char → Bool)
  | lazyStar (p : Char → Bool)
  | plus (p : Char → Bool)

/-- Backtracking for `x*?` followed by the continuation `k`: the shortest run first. -/
def matchLazy {R : Type} (p : Char → Bool) (k : Str → Option R) : Str → Option (Str × R)
  | [] => (k []).map fun r => ([], r)
  | c :: t =>
    match k (c :: t) with
    | some r => some ([], r)
    | none => if p c then (matchLazy p k t).map fun x => (c :: x.1, x.2) else none

/-- Backtracking for `x*` followed by the continuation `k`: the longest run first. -/
def matchGreedy {R : Type} (p : Char → Bool) (k : Str → Option R) : Str → Option (Str × R)
  | [] => (k []).map fun r => ([], r)
  | c :: t =>
    if p c then
      match matchGreedy p k t with
      | some x => some (c :: x.1, x.2)
      | none => (k (c :: t)).map fun r => ([], r)
    else (k (c :: t)).map fun r => ([], r)

/-- Backtracking match of a sequence of items at the head of the input: the text
consumed by each item, in order, and the input left after the match. -/
def matchNodes : List Node → Str → Option (List Str × Str)
  | [], s => some ([], s)
  | .one p :: ns, s =>
    match s with
    | c :: t => if p c then (matchNodes ns t).map fun r => ([c] :: r.1, r.2) else none
    | [] => none
  | .opt p :: ns, s =>
    match s with
    | c :: t =>
      if p c then
        match matchNodes ns t with
        | some r => some ([c] :: r.1, r.2)
        | none => (matchNodes ns (c :: t)).map fun r => ([] :: r.1, r.2)
      else (matchNodes ns (c :: t)).map fun r => ([] :: r.1, r.2)
    | [] => (matchNodes ns []).map fun r => ([] :: r.1, r.2)
  | .lazyStar p :: ns, s =>
    (matchLazy p (matchNodes ns) s).map fun x => (x.1 :: x.2.1, x.2.2)
  | .plus p :: ns, s =>
    match s with
    | c :: t =>
      if p c then (matchGreedy p (matchNodes ns) t).map fun x => ((c :: x.1) :: x.2.1, x.2.2)
      else none
    | [] => none

/-- The class `[+-−]`: a range from `+` (U+002B) to `−` (U+2212). -/
def isSignClass (c : Char) : Bool := 0x2B ≤ c.toNat && c.toNat ≤ 0x2212

/-- The class `[\d\s]`. -/
def isDigitOrSpace (c : Char) : Bool := isDigit c || isWhiteSpace c

/-- The class `[₸T]`. -/
def isCurrencyMark (c : Char) : Bool := c == '₸' || c == 'T'

/-- The amount group and the end of the pattern of line 798:
`([+-−]?\s?[\d\s]+,\d{2})\s?[₸T]`. -/
def amountNodes : List Node :=
  [ .opt isSignClass, .opt isWhiteSpace, .plus isDigitOrSpace, .one (· == ','),
    .one isDigit, .one isDigit,
    .opt isWhiteSpace,
    .one isCurrencyMark ]

/-- The pattern of line 798 after its first group:
`\s(\d{2}\.\d{2}\.\d{2})\s([+-−]?\s?[\d\s]+,\d{2})\s?[₸T]`. -/
def dateAndAmountNodes : List Node :=
  .one isWhiteSpace ::
  .one isDigit :: .one isDigit :: .one (· == '.') ::
  .one isDigit :: .one isDigit :: .one (· == '.') ::
  .one isDigit :: .one isDigit ::
  .one isWhiteSpace :: amountNodes

/-- Line 798:
`/(.*?)\s(\d{2}\.\d{2}\.\d{2})\s([+-−]?\s?[\d\s]+,\d{2})\s?[₸T]/g`. -/
def transactionRegex : List Node :=
  .lazyStar (fun c => !isLineTerminator c) :: dateAndAmountNodes

/-- The array returned by one successful `exec`: the three groups and the number
of characters of `match[0]`. -/
structure RegexMatch where
  group1 : Str
  group2 : Str
  group3 : Str
  length : Nat
  deriving DecidableEq

/-- A match of `transactionRegex` starting exactly at the head of `s`. -/
def matchAt (s : Str) : Option RegexMatch :=
  match matchNodes transactionRegex s with
  | some ([g1, _, d1, d2, p1, d3, d4, p2, d5, d6, _, a1, a2, a3, a4, a5, a6, _, _], rest) =>
    some { group1 := g1
           group2 := d1 ++ d2 ++ p1 ++ d3 ++ d4 ++ p2 ++ d5 ++ d6
           group3 := a1 ++ a2 ++ a3 ++ a4 ++ a5 ++ a6
           length := s.length - rest.length }
  | _ => none

/-- Lines 827-835: the category chosen for a cleaned description and a type. -/
def categorize (cleanDescription : Str) (type : TxnType) : Str :=
  let category := if type = .income then "Пополнение".toList else "Прочее".toList
  let descUpper := toUpperCase cleanDescription
  if includes descUpper "MAGNUM".toList then "Продукты".toList
  else if includes descUpper "ONAY".toList || includes descUpper "TAXI".toList ||
      includes descUpper "UBER".toList || includes descUpper "YANDEX".toList then
    "Транспорт".toList
  else if includes descUpper "CAFE".toList || includes descUpper "DONER".toList ||
      includes descUpper "RESTAURANT".toList || includes descUpper "KFC".toList then
    "Еда".toList
  else if includes descUpper "PHARMACY".toList || includes descUpper "APTEKA".toList then
    "Здоровье".toList
  else if includes descUpper "PEREVOD".toList || includes descUpper "ПЕРЕВОД".toList then
    "Переводы".toList
  else if type = .expense then "Покупки".toList
  else category

/-- Lines 816-819: the amount capture without white space, its first `,` turned
into `.` and its first `−` (U+2212) into `-`. -/
def normalizedAmountStr (amountStr : Str) : Str :=
  replaceFirst '−' '-' (replaceFirst ',' '.' (amountStr.filter fun c => !isWhiteSpace c))

/-- Lines 837-838: `[day, month, year] = dateStr.split('.')` and the template
literal; a missing element prints as `undefined`. -/
def formattedDate (dateStr : Str) : Str :=
  let parts := split '.' dateStr
  let day := parts.getD 0 "undefined".toList
  let month := parts.getD 1 "undefined".toList
  let year := parts.getD 2 "undefined".toList
  "20".toList ++ year ++ "-".toList ++ month ++ "-".toList ++ day

/-- Lines 810-814: the text after the last `₸` of the raw description, trimmed;
the raw description itself when it has no `₸`. -/
def cleanDescription (rawDescription : Str) : Str :=
  match lastIndexOf rawDescription '₸' with
  | some lastTengeIndex => trim (rawDescription.drop (lastTengeIndex + 1))
  | none => rawDescription

/-- Lines 804-846, the body of the `while` loop for one match: `none` when the
body ends in `continue`, otherwise the object pushed to `transactions`. -/
def processMatch (m : RegexMatch) : Option Transaction :=
  let rawDescription := trim m.group1
  let dateStr := m.group2
  let amountStr := m.group3
  if includes rawDescription "Остаток".toList || includes rawDescription "Всего".toList then none
  else
    let amount := parseFloat (normalizedAmountStr amountStr)
    if isNaN amount then none
    else
      let type := if amount.gtZero then TxnType.income else TxnType.expense
      let absAmount := amount.abs
      some { date := formattedDate dateStr
             description :=
               if (cleanDescription rawDescription).isEmpty then "Транзакция Kaspi".toList
               else cleanDescription rawDescription
             amount := absAmount
             type := type
             category := categorize (cleanDescription rawDescription) type }

/-- Lines 803-847: the `while ((match = transactionRegex.exec(cleanText)) !== null)`
loop.  The first argument is the text from the current index on; `skip` is the
number of characters still to pass before `lastIndex` is reached.  From
`lastIndex` on, `exec` tries each start index in turn; a match moves `lastIndex`
to its end. -/
def matchLoop : Str → Nat → List Transaction
  | [], _ => []
  | _ :: t, skip + 1 => matchLoop t skip
  | c :: t, 0 =>
    match matchAt (c :: t) with
    | some m => (processMatch m).toList ++ matchLoop t (m.length - 1)
    | none => matchLoop t 0

/-- Line 795: `fullText.replace(/\s+/g, ' ').trim()`. -/
def cleanText (fullText : Str) : Str := trim (collapseWhiteSpace false fullText)

/-- The array `transactions` after the loop, for the concatenated page text. -/
def transactions (fullText : Str) : List Transaction := matchLoop (cleanText fullText) 0

/-- Lines 849-854: the promise of `parseKaspiPDF` once the text of the pages is
known: rejected when `transactions` is empty, resolved with it otherwise. -/
def parseKaspiPDF (fullText : Str) : Except Str (List Transaction) :=
  if (transactions fullText).length = 0 then
    .error "Could not recognize transactions. PDF format might have changed.".toList
  else .ok (transactions fullText)

/-! ## Dedup reconciler (`handleBulkImport`, lines 1152-1166) -/

/-- The object `dbCounts`: own properties in insertion order.  Every key the
program uses contains `'|'`, so no property inherited from `Object.prototype`
is ever read. -/
abbrev Counts := List (Str × Nat)

/-- Read `dbCounts[key]`: `none` is `undefined`. -/
def Counts.get (m : Counts) (key : Str) : Option Nat :=
  match m with
  | [] => none
  | (k, v) :: rest => if k = key then some v else Counts.get rest key

/-- Assign `dbCounts[key] = v`. -/
def Counts.set (m : Counts) (key : Str) (v : Nat) : Counts :=
  match m with
  | [] => [(key, v)]
  | (k, w) :: rest => if k = key then (k, v) :: rest else (k, w) :: Counts.set rest key v

/-- The template literal of lines 1154 and 1160:
`date|Number(amount)|description.trim()`.  `numStr` is `Number::toString`. -/
def key (numStr : JSNum → Str) (t : Transaction) : Str :=
  t.date ++ '|' :: (numStr t.amount ++ '|' :: trim t.description)

/-- Lines 1152-1156: `existingTransactions.forEach` filling `dbCounts`. -/
def dbCounts (numStr : JSNum → Str) (existingTransactions : List Transaction) : Counts :=
  existingTransactions.foldl
    (fun m t => m.set (key numStr t) ((m.get (key numStr t)).getD 0 + 1)) []

/-- Lines 1158-1166: `newTransactions.forEach`, threading `dbCounts` and returning
the records pushed to `transactionsToAdd`, in push order. -/
def addLoop (numStr : JSNum → Str) : Counts → List Transaction → List Transaction
  | _, [] => []
  | m, txn :: rest =>
    match m.get (key numStr txn) with
    | some n =>
      if n > 0 then addLoop numStr (m.set (key numStr txn) (n - 1)) rest
      else txn :: addLoop numStr m rest
    | none => txn :: addLoop numStr m rest

/-- The array `transactionsToAdd` computed from the store's rows and the batch. -/
def transactionsToAdd (numStr : JSNum → Str)
    (existingTransactions newTransactions : List Transaction) : List Transaction :=
  addLoop numStr (dbCounts numStr existingTransactions) newTransactions

/-! ## The import orchestrator (`handleBulkImport`, lines 1133-1192) -/

/-- The object built by `transactionsToAdd.map` (lines 1173-1180). -/
structure Row where
  user_id : Str
  type : TxnType
  amount : JSNum
  category : Str
  date : Str
  description : Str
  deriving DecidableEq

/-- Error object returned by the store client in the `error` field. -/
abbrev StoreError := Str

/-- The store client, as far as `handleBulkImport` uses it.  `select uid lo hi` is
the awaited chain `.from('transactions').select(..).eq('user_id', uid)
.gte('date', lo).lte('date', hi)` (its `data`, or its `error`); `insert rows` is
the awaited `.insert(rows)` (`none` when `error` is null). -/
structure Supabase where
  select : Str → Str → Str → Except StoreError (List Transaction)
  insert : List Row → Option StoreError

/-- What `handleBulkImport` does to the outside world, in order. -/
inductive Effect where
  | select (userId minDate maxDate : Str)
  | consoleError (e : StoreError)
  | alertNoNew
  | insert (rows : List Row)
  | fetchTransactions
  | alertAdded (count : Nat)
  deriving DecidableEq

/-- How a call ends: every `return` of the function resolves the promise; an
exception thrown inside it rejects the promise. -/
inductive Completion where
  | resolved
  | rejected (e : StoreError)
  deriving DecidableEq

/-- The comparator `(a, b) => new Date(a.date) - new Date(b.date)` as used by
`sort`: true when `a` may stay before `b` (result not positive; `NaN` counts as
`+0`).  `timeValue` is the time value of `new Date(s)`, `none` for an invalid date. -/
def dateNotAfter (timeValue : Str → Option Int) (a b : Transaction) : Bool :=
  match timeValue a.date, timeValue b.date with
  | some x, some y => decide (x - y ≤ 0)
  | _, _ => true

/-- Insertion of one element in a stable sort. -/
def insertSorted (le : Transaction → Transaction → Bool) (a : Transaction) :
    List Transaction → List Transaction
  | [] => [a]
  | b :: l => if le a b then a :: b :: l else b :: insertSorted le a l

/-- Line 1136: `[...newTransactions].sort(..)`, a stable sort.  When every date
parses, the comparator is a consistent order and every stable sort gives this
list; with a date that does not parse the order is left to the engine by
ECMAScript, and this list is one of the possible outcomes. -/
def sortedDates (timeValue : Str → Option Int) (newTransactions : List Transaction) :
    List Transaction :=
  newTransactions.foldr (insertSorted (dateNotAfter timeValue)) []

/-- Lines 1173-1180: the payload of the bulk insert. -/
def transactionsData (userId : Str) (toAdd : List Transaction) : List Row :=
  toAdd.map fun txn =>
    { user_id := userId, type := txn.type, amount := txn.amount,
      category := txn.category, date := txn.date, description := txn.description }

/-- Lines 1133-1192.  Returns how the call ends and the effects it performed. -/
def handleBulkImport (numStr : JSNum → Str) (timeValue : Str → Option Int)
    (supabase : Supabase) (userId : Str) (newTransactions : List Transaction) :
    Completion × List Effect :=
  if newTransactions.length = 0 then (.resolved, []) else
  let sorted := sortedDates timeValue newTransactions
  match sorted.head?, sorted.getLast? with
  | some first, some last =>
    let minDate := first.date
    let maxDate := last.date
    match supabase.select userId minDate maxDate with
    | .error e => (.resolved, [.select userId minDate maxDate, .consoleError e])
    | .ok existingTransactions =>
      let toAdd := transactionsToAdd numStr existingTransactions newTransactions
      if toAdd.length = 0 then
        (.resolved, [.select userId minDate maxDate, .alertNoNew])
      else
        let rows := transactionsData userId toAdd
        match supabase.insert rows with
        | none =>
          (.resolved, [.select userId minDate maxDate, .insert rows, .fetchTransactions,
            .alertAdded toAdd.length])
        | some insertError =>
          (.resolved, [.select userId minDate maxDate, .insert rows,
            .consoleError insertError])
  | _, _ => (.rejected "TypeError".toList, [])

/-! ## The import dialog (`handleImportClick`, lines 867-886) -/

/-- What `handleImportClick` does, in order.  `onImport` records the batch handed
to the `onImport` prop and the effects of that call. -/
inductive ModalEffect where
  | setError (message : Option Str)
  | setIsProcessing (value : Bool)
  | onImport (transactions : List Transaction) (effects : List Effect)
  | onClose
  deriving DecidableEq

/-- The expression `err.message || 'Error importing file'` of line 882. -/
def importErrorMessage (message : Str) : Str :=
  if message.isEmpty then "Error importing file".toList else message

/-- Lines 867-886.  `file` is the selected file, given by the text of its pages
(`none` when no file is selected); `onImport` is the prop, given by how a call of
it ends and what it does.  A failure of the file reader or of the text extraction
is not modelled. -/
def handleImportClick (file : Option Str)
    (onImport : List Transaction → Completion × List Effect) : List ModalEffect :=
  match file with
  | none => [.setError (some "Please select a PDF file".toList)]
  | some fullText =>
    [.setIsProcessing true, .setError none] ++
    (match parseKaspiPDF fullText with
      | .error message => [.setError (some (importErrorMessage message))]
      | .ok transactions =>
        match onImport transactions with
        | (.resolved, effects) => [.onImport transactions effects, .onClose]
        | (.rejected message, effects) =>
          [.onImport transactions effects, .setError (some (importErrorMessage message))]) ++
    [.setIsProcessing false]

/-! ## Vocabulary of the statements -/

/-- The count `dbCounts[key]` with `undefined` read as zero, as both reads of the
object do (`dbCounts[key] || 0` and `dbCounts[key] && dbCounts[key] > 0`). -/
def Counts.count (m : Counts) (k : Str) : Nat := (m.get k).getD 0

/-- The composite identity of a record: date, numeric amount, trimmed description. -/
def identity (t : Transaction) : Str × JSNum × Str := (t.date, t.amount, trim t.description)

/-- Number of records of `l` whose key is `k`. -/
def keyCount (numStr : JSNum → Str) (l : List Transaction) (k : Str) : Nat :=
  (l.map (key numStr)).count k

/-- The batch positions the reconciler keeps, with their records: position `i` is
kept when at least as many earlier batch records carry its key as existing
records do. -/
def keptPositions (numStr : JSNum → Str) (existing batch : List Transaction) :
    List (Nat × Transaction) :=
  batch.enum.filter fun p =>
    decide (keyCount numStr existing (key numStr p.2) ≤
      keyCount numStr (batch.take p.1) (key numStr p.2))

/-- How `Number::toString` prints the whole amounts of the examples: the decimal
digits of the integer part. -/
def renderWhole : JSNum → Str
  | .nan => "NaN".toList
  | .inf neg => if neg then "-Infinity".toList else "Infinity".toList
  | .fin q => Nat.toDigits 10 q.num.natAbs

/-- Example record `{2024-01-05, 100, "Cafe"}`. -/
def cafe : Transaction :=
  { date := "2024-01-05".toList, description := "Cafe".toList, amount := .fin 100,
    type := .expense, category := "Еда".toList }

/-- Example record `{2024-01-06, 250, "Taxi | night"}`, with the separator in its
description. -/
def taxi : Transaction :=
  { date := "2024-01-06".toList, description := " Taxi | night".toList, amount := .fin 250,
    type := .expense, category := "Транспорт".toList }

/-- Example store: every range query returns the two example records, every
insert fails. -/
def exampleStore : Supabase :=
  { select := fun _ _ _ => .ok [cafe, taxi]
    insert := fun _ => some "insert failed".toList }

/-- The comparison `x >= 0`. -/
def JSNum.geZero : JSNum → Bool
  | .nan => false
  | .inf neg => !neg
  | .fin q => decide (0 ≤ q)

/-- The decimal number written by an amount capture `sign body , c1 c2`: the digits
of `body` followed by `c1 c2` as the two decimals, negated after `-` or `−`. -/
def signedValue (sign body : Str) (c1 c2 : Char) : ℚ :=
  (if sign = ['-'] ∨ sign = ['−'] then -1 else 1) *
    (digitsValue (body.filter isDigit ++ [c1, c2]) : ℚ) / 100

/-- The shape `dd.dd.dd` at the head of a text. -/
def startsWithDate : Str → Bool
  | a :: b :: p :: c :: d :: q :: e :: f :: _ =>
    isDigit a && isDigit b && p == '.' && isDigit c && isDigit d && q == '.' &&
      isDigit e && isDigit f
  | _ => false

/-- The text has a substring of the shape `dd.dd.dd`. -/
def containsDate (s : Str) : Bool := s.tails.any startsWithDate

/-- One record of the target layout: a description, the six digits of the date
`DD.MM.YY`, the sign of the amount, the text between the sign and the comma, and
the two decimals. -/
structure Line where
  description : Str
  d1 : Char
  d2 : Char
  m1 : Char
  m2 : Char
  y1 : Char
  y2 : Char
  negative : Bool
  body : Str
  c1 : Char
  c2 : Char
  deriving DecidableEq

/-- The date text `DD.MM.YY` of a record. -/
def Line.dateText (l : Line) : Str := [l.d1, l.d2, '.', l.m1, l.m2, '.', l.y1, l.y2]

/-- The amount text of a record: sign, digit groups, comma, two decimals. -/
def Line.amountText (l : Line) : Str :=
  (if l.negative then '-' else '+') :: (l.body ++ [',', l.c1, l.c2])

/-- The text of a record: `desc date amount ₸`, single spaces. -/
def Line.text (l : Line) : Str :=
  l.description ++ ' ' :: (l.dateText ++ ' ' :: (l.amountText ++ [' ', '₸']))

/-- The text of a record after its description, followed by `rest`. -/
def Line.afterDescription (l : Line) (rest : Str) : Str :=
  ' ' :: l.d1 :: l.d2 :: '.' :: l.m1 :: l.m2 :: '.' :: l.y1 :: l.y2 :: ' ' ::
    (if l.negative then '-' else '+') ::
    (l.body ++ ',' :: l.c1 :: l.c2 :: ' ' :: '₸' :: rest)

/-- The statement text: the records' texts separated by single spaces. -/
def statementText (lines : List Line) : Str := [' '].intercalate (lines.map Line.text)

/-- The conditions on a record of the target layout. -/
structure Line.WellFormed (l : Line) : Prop where
  desc_nonempty : l.description ≠ []
  desc_trimmed : trim l.description = l.description
  desc_single_spaced : collapseWhiteSpace false l.description = l.description
  desc_no_mark : '₸' ∉ l.description
  desc_no_balance : includes l.description "Остаток".toList = false
  desc_no_total : includes l.description "Всего".toList = false
  desc_no_date : containsDate l.description = false
  date_digits : isDigit l.d1 = true ∧ isDigit l.d2 = true ∧ isDigit l.m1 = true ∧
    isDigit l.m2 = true ∧ isDigit l.y1 = true ∧ isDigit l.y2 = true
  body_chars : ∀ c ∈ l.body, isDigit c = true ∨ c = ' '
  body_single_spaced : collapseWhiteSpace false l.body = l.body
  body_ends_with_digit : ∃ c, l.body.getLast? = some c ∧ isDigit c = true
  decimals_digits : isDigit l.c1 = true ∧ isDigit l.c2 = true
  value_nonzero : digitsValue (l.body.filter isDigit ++ [l.c1, l.c2]) ≠ 0

/-- The amount written in a record, without its sign: the digits of `body`
followed by `c1 c2` as the two decimals. -/
def Line.writtenAmount (l : Line) : ℚ :=
  (digitsValue (l.body.filter isDigit ++ [l.c1, l.c2]) : ℚ) / 100

/-- The transaction a record of the target layout stands for: its amount is the
double nearest to the written amount. -/
def Line.transaction (l : Line) : Transaction :=
  { date := ['2', '0', l.y1, l.y2, '-', l.m1, l.m2, '-', l.d1, l.d2]
    description := l.description
    amount := toNumber l.writtenAmount
    type := if l.negative then .expense else .income
    category := categorize l.description (if l.negative then .expense else .income) }

/-- Example record `Shop 05.01.24 -1 500,00 ₸`. -/
def shopLine : Line :=
  { description := "Shop".toList, d1 := '0', d2 := '5', m1 := '0', m2 := '1', y1 := '2',
    y2 := '4', negative := true, body := "1 500".toList, c1 := '0', c2 := '0' }

/-- Example record `Magnum City 06.01.24 + 2 000,50 ₸`. -/
def magnumLine : Line :=
  { description := "Magnum City".toList, d1 := '0', d2 := '6', m1 := '0', m2 := '1',
    y1 := '2', y2 := '4', negative := false, body := " 2 000".toList, c1 := '5', c2 := '0' }

/-- Example record `Shop 05.01.24 +9 007 199 254 740 993,00 ₸`, whose amount
`2 ^ 53 + 1` is not a double. -/
def largeLine : Line :=
  { description := "Shop".toList, d1 := '0', d2 := '5', m1 := '0', m2 := '1', y1 := '2',
    y2 := '4', negative := false, body := "9 007 199 254 740 993".toList, c1 := '0',
    c2 := '0' }

/-- A non-empty text without white space at either end whose white space is
single spaces. -/
def Tidy (s : Str) : Prop :=
  (∃ c t, s = c :: t ∧ isWhiteSpace c = false) ∧
  (∃ c, s.getLast? = some c ∧ isWhiteSpace c = false) ∧
  collapseWhiteSpace false s = s

/-- Gregorian leap year. -/
def isLeapYear (y : Nat) : Bool := (y % 4 == 0 && y % 100 != 0) || y % 400 == 0

/-- Number of days of month `m` (1 to 12) in year `y`. -/
def daysInMonth (y m : Nat) : Nat :=
  if m = 2 then (if isLeapYear y then 29 else 28)
  else if m = 4 ∨ m = 6 ∨ m = 9 ∨ m = 11 then 30
  else 31

/-- A calendar day in ISO 8601 form `YYYY-MM-DD`: four digits, two digits in
01..12 and two digits naming a day of that month of that year. -/
def isCalendarDate (s : Str) : Bool :=
  match s with
  | [a, b, c, d, h1, m1, m2, h2, d1, d2] =>
    isDigit a && isDigit b && isDigit c && isDigit d && h1 == '-' &&
    isDigit m1 && isDigit m2 && h2 == '-' && isDigit d1 && isDigit d2 &&
    decide (1 ≤ digitsValue [m1, m2]) && decide (digitsValue [m1, m2] ≤ 12) &&
    decide (1 ≤ digitsValue [d1, d2]) &&
    decide (digitsValue [d1, d2] ≤ daysInMonth (digitsValue [a, b, c, d]) (digitsValue [m1, m2]))
  | _ => false

/-- The fixed placeholder description. -/
def placeholderDescription : Str := "Транзакция Kaspi".toList

/-- The classifier as an ordered list of rules: the keywords of a rule and its
category. -/
def categoryRules : List (List Str × Str) :=
  [ (["MAGNUM".toList], "Продукты".toList),
    (["ONAY".toList, "TAXI".toList, "UBER".toList, "YANDEX".toList], "Транспорт".toList),
    (["CAFE".toList, "DONER".toList, "RESTAURANT".toList, "KFC".toList], "Еда".toList),
    (["PHARMACY".toList, "APTEKA".toList], "Здоровье".toList),
    (["PEREVOD".toList, "ПЕРЕВОД".toList], "Переводы".toList) ]

/-- The category of the first rule one of whose keywords is a substring of the
upper-cased description, when there is one. -/
def firstMatchingRule (descUpper : Str) : Option Str :=
  (categoryRules.find? fun rule => rule.1.any fun keyword => includes descUpper keyword).map
    Prod.snd

/-- The default category of a type. -/
def fallbackCategory (type : TxnType) : Str :=
  if type = .income then "Пополнение".toList else "Покупки".toList

/-- The classifier as the specification words it: first matching rule, else the
default of the type. -/
def categorizeByRules (cleanDescription : Str) (type : TxnType) : Str :=
  (firstMatchingRule (toUpperCase cleanDescription)).getD (fallbackCategory type)

/-- The seven category labels. -/
def categoryLabels : List Str :=
  [ "Продукты".toList, "Транспорт".toList, "Еда".toList, "Здоровье".toList,
    "Переводы".toList, "Пополнение".toList, "Покупки".toList ]

/-- Example store whose range query fails. -/
def failingQueryStore : Supabase :=
  { select := fun _ _ _ => .error "network down".toList
    insert := fun _ => none }

/-- Example store whose range query returns no row and whose insert fails. -/
def failingInsertStore : Supabase :=
  { select := fun _ _ _ => .ok []
    insert := fun _ => some "insert failed".toList }

/-- Two records that agree on date, amount and description, so that they can
differ only in `type` and `category`. -/
def sameIdentityFields (a b : Transaction) : Prop :=
  a.date = b.date ∧ a.amount = b.amount ∧ a.description = b.description

instance sameIdentityFieldsDecidable (a b : Transaction) :
    Decidable (sameIdentityFields a b) := by
  unfold sameIdentityFields; infer_instance

/-- The record `cafe` entered as income under another category. -/
def cafeIncome : Transaction :=
  { cafe with type := .income, category := "Доход".toList }

/-- Whether an effect is a call of `.insert`. -/
def Effect.isInsert : Effect → Bool
  | .insert _ => true
  | _ => false

/-- Whether an effect is a range query of the store. -/
def Effect.isSelect : Effect → Bool
  | .select _ _ _ => true
  | _ => false

/-- A store whose range query returns no rows and whose insert succeeds. -/
def emptyStore : Supabase :=
  { select := fun _ _ _ => .ok [], insert := fun _ => none }

/-- The calendar day named by an ISO date `YYYY-MM-DD`, as the number `YYYYMMDD`:
on calendar days its order is the chronological order, the one in which the store
compares the `date` column. -/
def dateOrdinal (s : Str) : Nat := digitsValue (s.filter isDigit)

/-- What `new Date(s)` is known to do on calendar days in ISO form: it yields a
time value, and time values are ordered as the days are. -/
def ParsesCalendarDays (timeValue : Str → Option Int) : Prop :=
  ∀ d d2 : Str, isCalendarDate d = true → isCalendarDate d2 = true →
    ∃ x y : Int, timeValue d = some x ∧ timeValue d2 = some y ∧
      (x ≤ y ↔ dateOrdinal d ≤ dateOrdinal d2)

/-- A stand-in for `Date` on the examples: the day number itself as time value. -/
def ordinalTimeValue (s : Str) : Option Int := some (dateOrdinal s)

/-- Whether `l` is the small form of the capital letter `u`, for the ASCII Latin
letters `A`..`Z` and the Russian Cyrillic letters `А`..`Я` and `Ё`. -/
def isSmallOf (l u : Char) : Bool :=
  (decide (0x41 ≤ u.toNat) && decide (u.toNat ≤ 0x5A) && l.toNat == u.toNat + 0x20) ||
  (decide (0x410 ≤ u.toNat) && decide (u.toNat ≤ 0x42F) && l.toNat == u.toNat + 0x20) ||
  (u.toNat == 0x401 && l.toNat == 0x451)

/-- Two characters that are equal, or are the two cases of one ASCII Latin or
Russian Cyrillic letter. -/
def sameLetter (c d : Char) : Bool := c == d || isSmallOf c d || isSmallOf d c

/-- Two descriptions that differ only in the case of ASCII Latin or Russian
Cyrillic letters. -/
def DifferOnlyInCase (s t : Str) : Prop := List.Forall₂ (fun c d => sameLetter c d = true) s t

instance differOnlyInCaseDecidable (s t : Str) : Decidable (DifferOnlyInCase s t) := by
  unfold DifferOnlyInCase; infer_instance

/-- The least number of characters an item of a pattern consumes. -/
def Node.minLength : Node → Nat
  | .one _ => 1
  | .opt _ => 0
  | .lazyStar _ => 0
  | .plus _ => 1

/-- The least number of characters a sequence of items consumes. -/
def minTotal (ns : List Node) : Nat := (ns.map Node.minLength).sum

/-- The text has a substring of the shape `dd.dd.dd` right after a white-space
character. -/
def dateAfterSpace (s : Str) : Bool :=
  s.tails.any fun u =>
    match u with
    | w :: v => isWhiteSpace w && startsWithDate v
    | [] => false

/-! ## Reconciler: auxiliary facts -/

theorem Counts.get_set (m : Counts) (k k' : Str) (v : Nat) :
    (m.set k v).get k' = if k = k' then some v else m.get k' := by
  induction m with
  | nil => simp [Counts.set, Counts.get]
  | cons p rest ih =>
    obtain ⟨a, w⟩ := p
    by_cases h : a = k
    · subst h
      by_cases h' : a = k' <;> simp [Counts.set, Counts.get, h']
    · by_cases h' : a = k'
      · subst h'
        have : ¬ k = a := fun e => h e.symm
        simp [Counts.set, Counts.get, h, this]
      · simp [Counts.set, Counts.get, h, h', ih]

theorem Counts.count_set (m : Counts) (k k' : Str) (v : Nat) :
    (m.set k v).count k' = if k = k' then v else m.count k' := by
  unfold Counts.count
  rw [Counts.get_set]
  split <;> simp

theorem addLoop_cons (numStr : JSNum → Str) (m : Counts) (txn : Transaction)
    (rest : List Transaction) :
    addLoop numStr m (txn :: rest) =
      if 0 < m.count (key numStr txn) then
        addLoop numStr (m.set (key numStr txn) (m.count (key numStr txn) - 1)) rest
      else txn :: addLoop numStr m rest := by
  unfold Counts.count
  rw [addLoop]
  cases h : m.get (key numStr txn) with
  | none => simp
  | some n => simp

theorem addLoop_congr (numStr : JSNum → Str) (batch : List Transaction) :
    ∀ m m' : Counts, (∀ k, m.count k = m'.count k) →
      addLoop numStr m batch = addLoop numStr m' batch := by
  induction batch with
  | nil => intro m m' _; simp [addLoop]
  | cons t rest ih =>
    intro m m' h
    rw [addLoop_cons, addLoop_cons, h (key numStr t)]
    split
    · apply ih
      intro k
      rw [Counts.count_set, Counts.count_set, h k]
    · rw [ih m m' h]

theorem count_dbCounts_foldl (numStr : JSNum → Str) (existing : List Transaction) :
    ∀ (m : Counts) (k : Str),
      (existing.foldl
        (fun m t => m.set (key numStr t) ((m.get (key numStr t)).getD 0 + 1)) m).count k =
        m.count k + keyCount numStr existing k := by
  induction existing with
  | nil => intro m k; simp [keyCount]
  | cons t rest ih =>
    intro m k
    rw [List.foldl_cons, ih]
    have hc : (m.get (key numStr t)).getD 0 = m.count (key numStr t) := rfl
    rw [hc, Counts.count_set]
    simp only [keyCount, List.map_cons, List.count_cons]
    by_cases hk : key numStr t = k
    · subst hk; simp; omega
    · simp [hk]

theorem count_dbCounts (numStr : JSNum → Str) (existing : List Transaction) (k : Str) :
    (dbCounts numStr existing).count k = keyCount numStr existing k := by
  unfold dbCounts
  rw [count_dbCounts_foldl]
  simp [Counts.count, Counts.get]

theorem keyCount_addLoop (numStr : JSNum → Str) (batch : List Transaction) :
    ∀ (m : Counts) (k : Str),
      keyCount numStr (addLoop numStr m batch) k = keyCount numStr batch k - m.count k := by
  induction batch with
  | nil => intro m k; simp [addLoop, keyCount]
  | cons t rest ih =>
    intro m k
    rw [addLoop_cons]
    split
    · rename_i hpos
      rw [ih, Counts.count_set]
      simp only [keyCount, List.map_cons, List.count_cons]
      by_cases hk : key numStr t = k
      · subst hk; simp; omega
      · simp [hk]
    · rename_i hzero
      have hz : m.count (key numStr t) = 0 := by omega
      have := ih m k
      simp only [keyCount, List.map_cons, List.count_cons] at this ⊢
      by_cases hk : key numStr t = k
      · subst hk; simp [hz] at this ⊢; omega
      · simp [hk]; omega

theorem addLoop_eq_nil (numStr : JSNum → Str) (batch : List Transaction) :
    ∀ m : Counts, (∀ k, keyCount numStr batch k ≤ m.count k) → addLoop numStr m batch = [] := by
  induction batch with
  | nil => intro m _; simp [addLoop]
  | cons t rest ih =>
    intro m h
    rw [addLoop_cons]
    have h0 := h (key numStr t)
    simp only [keyCount, List.map_cons, List.count_cons_self] at h0
    have hpos : 0 < m.count (key numStr t) := by omega
    rw [if_pos hpos]
    apply ih
    intro k
    rw [Counts.count_set]
    have hk := h k
    simp only [keyCount, List.map_cons, List.count_cons] at hk ⊢
    by_cases e : key numStr t = k
    · subst e; simp at hk ⊢; omega
    · simp [e] at hk ⊢; omega

theorem addLoop_sublist (numStr : JSNum → Str) (batch : List Transaction) :
    ∀ m : Counts, (addLoop numStr m batch).Sublist batch := by
  induction batch with
  | nil => intro m; simp [addLoop]
  | cons t rest ih =>
    intro m
    rw [addLoop_cons]
    split
    · exact (ih _).trans (List.sublist_cons_self t rest)
    · exact (ih m).cons₂ t

theorem append_sep_inj (c : Char) : ∀ (a b x y : Str), c ∉ a → c ∉ b →
    a ++ c :: x = b ++ c :: y → a = b ∧ x = y := by
  intro a
  induction a with
  | nil =>
    intro b x y _ hb h
    cases b with
    | nil => simpa using h
    | cons d b =>
      simp only [List.nil_append, List.cons_append, List.cons.injEq] at h
      exact absurd (h.1 ▸ List.mem_cons_self _ _) hb
  | cons e a ih =>
    intro b x y ha hb h
    cases b with
    | nil =>
      simp only [List.nil_append, List.cons_append, List.cons.injEq] at h
      exact absurd (h.1 ▸ List.mem_cons_self _ _) ha
    | cons d b =>
      simp only [List.cons_append, List.cons.injEq] at h
      have ha' : c ∉ a := fun hm => ha (List.mem_cons_of_mem _ hm)
      have hb' : c ∉ b := fun hm => hb (List.mem_cons_of_mem _ hm)
      obtain ⟨h1, h2⟩ := ih b x y ha' hb' h.2
      exact ⟨by rw [h.1, h1], h2⟩

theorem key_inj (numStr : JSNum → Str) (t u : Transaction)
    (ht : '|' ∉ t.date) (hu : '|' ∉ u.date)
    (hnt : '|' ∉ numStr t.amount) (hnu : '|' ∉ numStr u.amount)
    (h : key numStr t = key numStr u) :
    t.date = u.date ∧ numStr t.amount = numStr u.amount ∧
      trim t.description = trim u.description := by
  unfold key at h
  obtain ⟨h1, h2⟩ := append_sep_inj '|' _ _ _ _ ht hu h
  obtain ⟨h3, h4⟩ := append_sep_inj '|' _ _ _ _ hnt hnu h2
  exact ⟨h1, h3, h4⟩

theorem key_eq_iff_identity_eq (numStr : JSNum → Str) (t u : Transaction)
    (ht : '|' ∉ t.date) (hu : '|' ∉ u.date)
    (hnt : '|' ∉ numStr t.amount) (hnu : '|' ∉ numStr u.amount)
    (hinj : numStr t.amount = numStr u.amount → t.amount = u.amount) :
    key numStr t = key numStr u ↔ identity t = identity u := by
  constructor
  · intro h
    obtain ⟨h1, h2, h3⟩ := key_inj numStr t u ht hu hnt hnu h
    simp [identity, h1, hinj h2, h3]
  · intro h
    simp only [identity, Prod.mk.injEq] at h
    simp [key, h.1, h.2.1, h.2.2]

/-- Among records whose dates and rendered amounts are free of the separator and
whose amounts are rendered injectively, counting by identity and counting by key
agree. -/
theorem identity_count_eq_keyCount (numStr : JSNum → Str) (l : List Transaction)
    (t : Transaction) (ht : '|' ∉ t.date) (hnt : '|' ∉ numStr t.amount)
    (hl : ∀ u ∈ l, '|' ∉ u.date ∧ '|' ∉ numStr u.amount ∧
      (numStr u.amount = numStr t.amount → u.amount = t.amount)) :
    (l.map identity).count (identity t) = keyCount numStr l (key numStr t) := by
  unfold keyCount
  rw [List.count_eq_countP, List.count_eq_countP, List.countP_map, List.countP_map]
  apply List.countP_congr
  intro u hu
  obtain ⟨h1, h2, h3⟩ := hl u hu
  simp only [Function.comp, beq_iff_eq]
  exact (key_eq_iff_identity_eq numStr u t h1 ht h2 hnt h3).symm

theorem mem_addLoop_of_count_zero (numStr : JSNum → Str) (r : Transaction)
    (batch : List Transaction) :
    ∀ m : Counts, r ∈ batch → m.count (key numStr r) = 0 → r ∈ addLoop numStr m batch := by
  induction batch with
  | nil => intro m h; simp at h
  | cons t rest ih =>
    intro m hr hz
    rw [addLoop_cons]
    split
    · rename_i hpos
      have hne : key numStr t ≠ key numStr r := by
        intro e; rw [e] at hpos; omega
      have hrt : r ≠ t := by
        intro e; exact hne (by rw [e])
      have hr' : r ∈ rest := by
        rcases List.mem_cons.1 hr with h | h
        · exact absurd h hrt
        · exact h
      apply ih _ hr'
      rw [Counts.count_set, if_neg hne]
      exact hz
    · rcases List.mem_cons.1 hr with h | h
      · rw [h]; exact List.mem_cons_self _ _
      · exact List.mem_cons_of_mem _ (ih m h hz)

theorem addLoop_eq_kept (numStr : JSNum → Str) (batch : List Transaction) :
    ∀ m : Counts, addLoop numStr m batch =
      (batch.enum.filter fun p =>
        decide (m.count (key numStr p.2) ≤
          keyCount numStr (batch.take p.1) (key numStr p.2))).map Prod.snd := by
  induction batch with
  | nil => intro m; simp [addLoop]
  | cons t rest ih =>
    intro m
    rw [addLoop_cons, List.enum_cons', List.filter_cons, List.filter_map]
    have h0 : keyCount numStr ((t :: rest).take 0) (key numStr t) = 0 := by simp [keyCount]
    by_cases hpos : 0 < m.count (key numStr t)
    · rw [if_pos hpos, ih]
      have hd : decide (m.count (key numStr (0, t).2) ≤
          keyCount numStr ((t :: rest).take (0, t).1) (key numStr (0, t).2)) = false := by
        simp only [h0]; simp; omega
      rw [hd]
      simp only [Bool.false_eq_true, if_false, List.map_map]
      have hfun : (Prod.snd ∘ Prod.map (fun x => x + 1) id : Nat × Transaction → Transaction) =
          Prod.snd := by
        funext p; rfl
      rw [hfun]
      congr 1
      apply List.filter_congr
      intro p _
      simp only [Function.comp, Prod.map, id, List.take_succ_cons, Counts.count_set, keyCount,
        List.map_cons, List.count_cons]
      by_cases e : key numStr t = key numStr p.2
      · simp only [e, if_true, beq_self_eq_true]
        rw [e] at hpos
        apply decide_eq_decide.2
        omega
      · have e' : (key numStr t == key numStr p.2) = false := by simpa using e
        simp [e, e']
    · rw [if_neg hpos, ih]
      have hz : m.count (key numStr t) = 0 := by omega
      have hd : decide (m.count (key numStr (0, t).2) ≤
          keyCount numStr ((t :: rest).take (0, t).1) (key numStr (0, t).2)) = true := by
        simp [hz]
      rw [hd]
      simp only [if_true, List.map_cons, List.map_map]
      have hfun : (Prod.snd ∘ Prod.map (fun x => x + 1) id : Nat × Transaction → Transaction) =
          Prod.snd := by
        funext p; rfl
      rw [hfun]
      congr 2
      apply List.filter_congr
      intro p _
      simp only [Function.comp, Prod.map, id, List.take_succ_cons, keyCount,
        List.map_cons, List.count_cons]
      by_cases e : key numStr t = key numStr p.2
      · simp only [e, beq_self_eq_true, if_true]
        rw [e] at hz
        apply decide_eq_decide.2
        omega
      · have e' : (key numStr t == key numStr p.2) = false := by simpa using e
        simp [e']

theorem insertSorted_ne_nil (le : Transaction → Transaction → Bool) (a : Transaction)
    (l : List Transaction) : insertSorted le a l ≠ [] := by
  cases l with
  | nil => simp [insertSorted]
  | cons b l => unfold insertSorted; split <;> simp

theorem sortedDates_ne_nil (timeValue : Str → Option Int) (l : List Transaction)
    (h : l ≠ []) : sortedDates timeValue l ≠ [] := by
  cases l with
  | nil => exact absurd rfl h
  | cons a l => unfold sortedDates; rw [List.foldr_cons]; exact insertSorted_ne_nil _ _ _

/-! ## Reconciler: the claims -/

/-- C1. Multiset count of the reconciler: for every key, the number of records of
`transactionsToAdd` with that key is the number of batch records with it minus the
number of existing records with it, truncated at zero; and for records whose dates
and rendered amounts do not contain the separator and whose amounts are rendered
injectively, the same holds for every composite identity `k` (date, numeric
amount, trimmed description), however often it occurs. -/
theorem transactionsToAdd_identity_count (numStr : JSNum → Str)
    (existing batch : List Transaction) :
    (∀ k : Str, keyCount numStr (transactionsToAdd numStr existing batch) k =
      keyCount numStr batch k - keyCount numStr existing k) ∧
    ((∀ t ∈ batch ++ existing, '|' ∉ t.date ∧ '|' ∉ numStr t.amount) →
      (∀ t ∈ batch ++ existing, ∀ u ∈ batch ++ existing,
        numStr t.amount = numStr u.amount → t.amount = u.amount) →
      ∀ k : Str × JSNum × Str,
        ((transactionsToAdd numStr existing batch).map identity).count k =
          (batch.map identity).count k - (existing.map identity).count k) := by
  have hkey : ∀ k : Str, keyCount numStr (transactionsToAdd numStr existing batch) k =
      keyCount numStr batch k - keyCount numStr existing k := by
    intro k
    unfold transactionsToAdd
    rw [keyCount_addLoop, count_dbCounts]
  refine ⟨hkey, ?_⟩
  intro hsep hinj k
  have hsub : ∀ u ∈ transactionsToAdd numStr existing batch, u ∈ batch := fun u hu =>
    (addLoop_sublist numStr batch _).subset hu
  by_cases hk : ∃ t ∈ batch ++ existing, identity t = k
  · obtain ⟨t, ht, rfl⟩ := hk
    have hl : ∀ l : List Transaction, (∀ u ∈ l, u ∈ batch ++ existing) →
        (l.map identity).count (identity t) = keyCount numStr l (key numStr t) := by
      intro l hmem
      apply identity_count_eq_keyCount numStr l t (hsep t ht).1 (hsep t ht).2
      intro u hu
      exact ⟨(hsep u (hmem u hu)).1, (hsep u (hmem u hu)).2, hinj u (hmem u hu) t ht⟩
    rw [hl _ (fun u hu => List.mem_append_left _ (hsub u hu)),
      hl _ (fun u hu => List.mem_append_left _ hu),
      hl _ (fun u hu => List.mem_append_right _ hu)]
    exact hkey _
  · have hz : ∀ l : List Transaction, (∀ u ∈ l, u ∈ batch ++ existing) →
        (l.map identity).count k = 0 := by
      intro l hmem
      rw [List.count_eq_zero]
      intro hin
      obtain ⟨u, hu, hue⟩ := List.mem_map.1 hin
      exact hk ⟨u, hmem u hu, hue⟩
    rw [hz _ (fun u hu => List.mem_append_left _ (hsub u hu)),
      hz _ (fun u hu => List.mem_append_left _ hu)]
    simp

/-- C2. Idempotent re-import: against an empty store the whole batch is kept, and
once the kept records are added to the store, in any order, reconciling the same
batch again keeps nothing. -/
theorem transactionsToAdd_idempotent (numStr : JSNum → Str) (batch : List Transaction) :
    transactionsToAdd numStr [] batch = batch ∧
    ∀ existing stored : List Transaction,
      stored.Perm (existing ++ transactionsToAdd numStr existing batch) →
      transactionsToAdd numStr stored batch = [] := by
  constructor
  · unfold transactionsToAdd dbCounts
    simp only [List.foldl_nil]
    induction batch with
    | nil => simp [addLoop]
    | cons t rest ih => rw [addLoop_cons]; simp [Counts.count, Counts.get, ih]
  · intro existing stored hperm
    unfold transactionsToAdd
    apply addLoop_eq_nil
    intro k
    rw [count_dbCounts]
    have h1 : keyCount numStr stored k =
        keyCount numStr (existing ++ transactionsToAdd numStr existing batch) k := by
      unfold keyCount
      rw [List.count_eq_countP, List.count_eq_countP]
      exact (hperm.map _).countP_eq _
    have h2 : keyCount numStr (transactionsToAdd numStr existing batch) k =
        keyCount numStr batch k - keyCount numStr existing k := by
      unfold transactionsToAdd
      rw [keyCount_addLoop, count_dbCounts]
    rw [h1]
    simp only [keyCount, List.map_append, List.count_append] at h2 ⊢
    omega

/-- C3. Order independence on the existing side: two lists of existing records
that are permutations of each other give the same `transactionsToAdd`. -/
theorem transactionsToAdd_perm (numStr : JSNum → Str)
    (existing existing' batch : List Transaction) (h : existing.Perm existing') :
    transactionsToAdd numStr existing batch = transactionsToAdd numStr existing' batch := by
  unfold transactionsToAdd
  apply addLoop_congr
  intro k
  rw [count_dbCounts, count_dbCounts]
  unfold keyCount
  rw [List.count_eq_countP, List.count_eq_countP]
  exact (h.map _).countP_eq _

/-- C5. Order preservation: `transactionsToAdd` is a sublist of the batch. -/
theorem transactionsToAdd_sublist (numStr : JSNum → Str)
    (existing batch : List Transaction) :
    (transactionsToAdd numStr existing batch).Sublist batch :=
  addLoop_sublist numStr batch _

theorem transactionsToAdd_identity_count_witness :
    (∀ t ∈ [cafe, taxi, cafe, cafe] ++ [cafe],
      '|' ∉ t.date ∧ '|' ∉ renderWhole t.amount) ∧
    (∀ t ∈ [cafe, taxi, cafe, cafe] ++ [cafe], ∀ u ∈ [cafe, taxi, cafe, cafe] ++ [cafe],
      renderWhole t.amount = renderWhole u.amount → t.amount = u.amount) ∧
    ((transactionsToAdd renderWhole [cafe] [cafe, taxi, cafe, cafe]).map identity).count
        (identity cafe) =
      ([cafe, taxi, cafe, cafe].map identity).count (identity cafe) -
        ([cafe].map identity).count (identity cafe) :=
  ⟨by decide, by decide,
    (transactionsToAdd_identity_count renderWhole [cafe] [cafe, taxi, cafe, cafe]).2
      (by decide) (by decide) (identity cafe)⟩

theorem transactionsToAdd_idempotent_witness :
    [taxi, cafe, cafe].Perm ([cafe] ++ transactionsToAdd renderWhole [cafe] [cafe, taxi, cafe]) ∧
    transactionsToAdd renderWhole [taxi, cafe, cafe] [cafe, taxi, cafe] = [] :=
  ⟨by decide,
    (transactionsToAdd_idempotent renderWhole [cafe, taxi, cafe]).2 [cafe] [taxi, cafe, cafe]
      (by decide)⟩

theorem transactionsToAdd_perm_witness :
    [cafe, taxi].Perm [taxi, cafe] ∧
    transactionsToAdd renderWhole [cafe, taxi] [cafe, cafe, taxi] =
      transactionsToAdd renderWhole [taxi, cafe] [cafe, cafe, taxi] :=
  ⟨by decide,
    transactionsToAdd_perm renderWhole [cafe, taxi] [taxi, cafe] [cafe, cafe, taxi] (by decide)⟩

/-- C4. Which occurrences are dropped: the record at batch position `i` is kept
exactly when the number of earlier batch records with its key is at least the
number of existing records with that key, so of the `m` batch occurrences of a key
that occurs `n` times in the store the first `min n m` are dropped and the others
kept.  With one stored `{2024-01-05, 100, "Cafe"}` and a batch of two, the record
kept is the one at position 1. -/
theorem transactionsToAdd_drops_first_occurrences (numStr : JSNum → Str) :
    (∀ existing batch : List Transaction,
      transactionsToAdd numStr existing batch =
        (keptPositions numStr existing batch).map Prod.snd) ∧
    keptPositions numStr [cafe] [cafe, cafe] = [(1, cafe)] ∧
    transactionsToAdd numStr [cafe] [cafe, cafe] = [cafe] := by
  have hgen : ∀ existing batch : List Transaction,
      transactionsToAdd numStr existing batch =
        (keptPositions numStr existing batch).map Prod.snd := by
    intro existing batch
    unfold transactionsToAdd keptPositions
    rw [addLoop_eq_kept]
    simp only [count_dbCounts]
  have hpos : keptPositions numStr [cafe] [cafe, cafe] = [(1, cafe)] := by
    simp [keptPositions, keyCount, List.enum, List.enumFrom]
  refine ⟨hgen, hpos, ?_⟩
  rw [hgen, hpos]
  rfl

/-- C6. Records that differ are new: among records whose dates and rendered
amounts do not contain the separator and whose equal renderings mean equal
amounts, two records with different (date, amount, trimmed description) never have
the same key, whatever their descriptions contain; hence a batch record `r` is in
`transactionsToAdd` when no existing record has the same date, the same amount and
the same trimmed description. -/
theorem differing_record_is_added (numStr : JSNum → Str) :
    (∀ t u : Transaction, '|' ∉ t.date → '|' ∉ u.date →
      '|' ∉ numStr t.amount → '|' ∉ numStr u.amount →
      (numStr t.amount = numStr u.amount → t.amount = u.amount) →
      identity t ≠ identity u → key numStr t ≠ key numStr u) ∧
    (∀ (existing batch : List Transaction) (r : Transaction), r ∈ batch →
      '|' ∉ r.date → '|' ∉ numStr r.amount →
      (∀ e ∈ existing, '|' ∉ e.date ∧ '|' ∉ numStr e.amount ∧
        (numStr e.amount = numStr r.amount → e.amount = r.amount)) →
      (∀ e ∈ existing,
        ¬(e.date = r.date ∧ e.amount = r.amount ∧
          trim e.description = trim r.description)) →
      r ∈ transactionsToAdd numStr existing batch) := by
  constructor
  · intro t u ht hu hnt hnu hinj hne hkey
    exact hne ((key_eq_iff_identity_eq numStr t u ht hu hnt hnu hinj).1 hkey)
  · intro existing batch r hr hrd hrn hex hno
    unfold transactionsToAdd
    apply mem_addLoop_of_count_zero numStr r batch _ hr
    rw [count_dbCounts]
    unfold keyCount
    rw [List.count_eq_zero]
    intro hin
    obtain ⟨e, he, hke⟩ := List.mem_map.1 hin
    obtain ⟨h1, h2, h3⟩ := hex e he
    have hid := (key_eq_iff_identity_eq numStr e r h1 hrd h2 hrn h3).1 hke
    simp only [identity, Prod.mk.injEq] at hid
    exact hno e he hid

theorem differing_record_is_added_witness :
    taxi ∈ [cafe, taxi] ∧ '|' ∉ taxi.date ∧ '|' ∉ renderWhole taxi.amount ∧
    (∀ e ∈ [cafe], '|' ∉ e.date ∧ '|' ∉ renderWhole e.amount ∧
      (renderWhole e.amount = renderWhole taxi.amount → e.amount = taxi.amount)) ∧
    (∀ e ∈ [cafe], ¬(e.date = taxi.date ∧ e.amount = taxi.amount ∧
      trim e.description = trim taxi.description)) ∧
    taxi ∈ transactionsToAdd renderWhole [cafe] [cafe, taxi] :=
  ⟨by decide, by decide, by decide, by decide, by decide,
    (differing_record_is_added renderWhole).2 [cafe] [cafe, taxi] taxi
      (by decide) (by decide) (by decide) (by decide) (by decide)⟩

/-- C7. Empty-result success: for a non-empty batch, when the range query succeeds
and every key occurs in the returned rows at least as often as in the batch,
`transactionsToAdd` is empty and the call resolves after exactly two effects, the
range query and the 'no new transactions' alert: no insert, no error logged. -/
theorem handleBulkImport_all_present (numStr : JSNum → Str) (timeValue : Str → Option Int)
    (supabase : Supabase) (userId : Str) (batch : List Transaction) (hne : batch ≠ [])
    (hstore : ∀ lo hi, ∃ existing, supabase.select userId lo hi = .ok existing ∧
      ∀ k, keyCount numStr batch k ≤ keyCount numStr existing k) :
    ∃ lo hi existing, supabase.select userId lo hi = .ok existing ∧
      transactionsToAdd numStr existing batch = [] ∧
      handleBulkImport numStr timeValue supabase userId batch =
        (.resolved, [.select userId lo hi, .alertNoNew]) := by
  have hlen : ¬ batch.length = 0 := by
    intro h; exact hne (List.length_eq_zero.1 h)
  have hs := sortedDates_ne_nil timeValue batch hne
  obtain ⟨first, hfirst⟩ : ∃ first, (sortedDates timeValue batch).head? = some first := by
    cases h : sortedDates timeValue batch with
    | nil => exact absurd h hs
    | cons a l => exact ⟨a, rfl⟩
  obtain ⟨last, hlast⟩ : ∃ last, (sortedDates timeValue batch).getLast? = some last := by
    cases h : (sortedDates timeValue batch).getLast? with
    | none => exact absurd (List.getLast?_eq_none_iff.1 h) hs
    | some a => exact ⟨a, rfl⟩
  obtain ⟨existing, hsel, hcov⟩ := hstore first.date last.date
  have hnil : transactionsToAdd numStr existing batch = [] := by
    unfold transactionsToAdd
    apply addLoop_eq_nil
    intro k
    rw [count_dbCounts]
    exact hcov k
  refine ⟨first.date, last.date, existing, hsel, hnil, ?_⟩
  unfold handleBulkImport
  rw [if_neg hlen]
  simp only [hfirst, hlast, hsel, hnil, List.length_nil, if_true]

theorem handleBulkImport_all_present_witness :
    [cafe] ≠ [] ∧
    (∀ lo hi, ∃ existing, exampleStore.select "u1".toList lo hi = .ok existing ∧
      ∀ k, keyCount renderWhole [cafe] k ≤ keyCount renderWhole existing k) ∧
    ∃ lo hi existing, exampleStore.select "u1".toList lo hi = .ok existing ∧
      transactionsToAdd renderWhole existing [cafe] = [] ∧
      handleBulkImport renderWhole (fun _ => none) exampleStore "u1".toList [cafe] =
        (.resolved, [.select "u1".toList lo hi, .alertNoNew]) :=
  have hstore : ∀ lo hi, ∃ existing, exampleStore.select "u1".toList lo hi = .ok existing ∧
      ∀ k, keyCount renderWhole [cafe] k ≤ keyCount renderWhole existing k :=
    fun _ _ => ⟨[cafe, taxi], rfl, fun k =>
      ((List.sublist_append_left [cafe] [taxi]).map (key renderWhole)).count_le k⟩
  ⟨by decide, hstore,
    handleBulkImport_all_present renderWhole (fun _ => none) exampleStore "u1".toList [cafe]
      (by decide) hstore⟩

/-! ## Parser: auxiliary facts -/

theorem matchLoop_nil (skip : Nat) : matchLoop [] skip = [] := by
  cases skip <;> rfl
theorem matchLoop_skip (c : Char) (t : Str) (skip : Nat) :
    matchLoop (c :: t) (skip + 1) = matchLoop t skip := rfl
theorem matchLoop_zero (c : Char) (t : Str) :
    matchLoop (c :: t) 0 =
      match matchAt (c :: t) with
      | some m => (processMatch m).toList ++ matchLoop t (m.length - 1)
      | none => matchLoop t 0 := rfl

/-- A property of every object pushed by one pass of the loop body holds for
every element of `transactions`. -/
theorem forall_mem_matchLoop (P : Transaction → Prop)
    (h : ∀ m t, processMatch m = some t → P t) :
    ∀ (s : Str) (skip : Nat), ∀ t ∈ matchLoop s skip, P t := by
  intro s
  induction s with
  | nil => intro skip t ht; rw [matchLoop_nil] at ht; simp at ht
  | cons c rest ih =>
    intro skip t ht
    cases skip with
    | succ n => rw [matchLoop_skip] at ht; exact ih n t ht
    | zero =>
      rw [matchLoop_zero] at ht
      cases hm : matchAt (c :: rest) with
      | none => rw [hm] at ht; exact ih 0 t ht
      | some m =>
        rw [hm] at ht
        rcases List.mem_append.1 ht with h1 | h2
        · exact h m t (by simpa [Option.mem_toList] using h1)
        · exact ih _ t h2

theorem processMatch_amount (m : RegexMatch) (t : Transaction)
    (h : processMatch m = some t) :
    t.amount.geZero = true ∧ (t.type = .income → t.amount.gtZero = true) := by
  unfold processMatch at h
  simp only at h
  split at h
  · exact absurd h (by simp)
  · split at h
    · exact absurd h (by simp)
    · rename_i hnan
      simp only [Option.some.injEq] at h
      subst h
      simp only
      generalize parseFloat (normalizedAmountStr m.group3) = a at hnan ⊢
      cases a with
      | nan => simp [isNaN] at hnan
      | inf neg => cases neg <;> simp [JSNum.abs, JSNum.geZero, JSNum.gtZero]
      | fin q =>
        simp only [JSNum.abs, JSNum.geZero, JSNum.gtZero, decide_eq_true_eq]
        constructor
        · split
          · rename_i hq; linarith
          · rename_i hq; linarith
        · intro hty
          split at hty
          · rename_i hq
            have : ¬ q < 0 := by linarith
            rw [if_neg this]; exact hq
          · exact absurd hty (by simp)

theorem isDigit_not_ws {c : Char} (h : isDigit c = true) : isWhiteSpace c = false := by
  simp only [isDigit, isWhiteSpace, Bool.and_eq_true, decide_eq_true_eq, Bool.or_eq_false_iff,
    Bool.and_eq_false_iff, decide_eq_false_iff_not, beq_eq_false_iff_ne] at h ⊢
  omega

theorem isDigit_ne {c d : Char} (h : isDigit c = true) (hd : isDigit d = false) : c ≠ d := by
  intro e; rw [e, hd] at h; exact absurd h (by simp)

theorem ws_not_digit {c : Char} (h : isWhiteSpace c = true) : isDigit c = false := by
  cases hd : isDigit c with
  | false => rfl
  | true => rw [isDigit_not_ws hd] at h; exact absurd h (by simp)

theorem replaceFirst_append (a b : Char) : ∀ (x y : Str), a ∉ x →
    replaceFirst a b (x ++ a :: y) = x ++ b :: y := by
  intro x
  induction x with
  | nil => intro y _; simp [replaceFirst]
  | cons c x ih =>
    intro y h
    have hc : c ≠ a := fun e => h (e ▸ List.mem_cons_self _ _)
    have hx : a ∉ x := fun hm => h (List.mem_cons_of_mem _ hm)
    simp [replaceFirst, hc, ih y hx]

theorem replaceFirst_of_not_mem (a b : Char) : ∀ (x : Str), a ∉ x → replaceFirst a b x = x := by
  intro x
  induction x with
  | nil => intro _; rfl
  | cons c x ih =>
    intro h
    have hc : c ≠ a := fun e => h (e ▸ List.mem_cons_self _ _)
    have hx : a ∉ x := fun hm => h (List.mem_cons_of_mem _ hm)
    simp [replaceFirst, hc, ih hx]

theorem takeWhile_digits_append (ds : Str) (c : Char) (r : Str)
    (hds : ∀ d ∈ ds, isDigit d = true) (hc : isDigit c = false) :
    (ds ++ c :: r).takeWhile isDigit = ds ∧ (ds ++ c :: r).dropWhile isDigit = c :: r := by
  induction ds with
  | nil => simp [List.takeWhile, List.dropWhile, hc]
  | cons d ds ih =>
    have hd := hds d (List.mem_cons_self _ _)
    have ih' := ih (fun x hx => hds x (List.mem_cons_of_mem _ hx))
    simp [List.takeWhile, List.dropWhile, hd, ih'.1, ih'.2]

theorem takeWhile_digits_all (ds : Str) (hds : ∀ d ∈ ds, isDigit d = true) :
    ds.takeWhile isDigit = ds ∧ ds.dropWhile isDigit = [] := by
  induction ds with
  | nil => simp
  | cons d ds ih =>
    have hd := hds d (List.mem_cons_self _ _)
    have ih' := ih (fun x hx => hds x (List.mem_cons_of_mem _ hx))
    simp [List.takeWhile, List.dropWhile, hd, ih'.1, ih'.2]

theorem bitLengthAux_spec : ∀ (fuel n : Nat), n ≤ fuel →
    n < 2 ^ bitLengthAux fuel n ∧ (n ≠ 0 → 2 ^ bitLengthAux fuel n ≤ 2 * n) := by
  intro fuel
  induction fuel with
  | zero =>
    intro n hn
    have : n = 0 := by omega
    subst this
    simp [bitLengthAux]
  | succ f ih =>
    intro n hn
    by_cases h0 : n = 0
    · subst h0
      simp [bitLengthAux]
    · have hstep : bitLengthAux (f + 1) n = bitLengthAux f (n / 2) + 1 := by
        simp [bitLengthAux, h0]
      rw [hstep, pow_succ]
      obtain ⟨h1, h2⟩ := ih (n / 2) (by omega)
      refine ⟨by omega, fun _ => ?_⟩
      by_cases h : n / 2 = 0
      · have hb : bitLengthAux f (n / 2) = 0 := by
          rw [h]; cases f <;> simp [bitLengthAux]
        rw [hb]; omega
      · have := h2 h
        omega

theorem lt_pow_bitLength (n : Nat) : n < 2 ^ bitLength n :=
  (bitLengthAux_spec n n (Nat.le_refl n)).1

theorem pow_bitLength_le (n : Nat) (h : n ≠ 0) : 2 ^ bitLength n ≤ 2 * n :=
  (bitLengthAux_spec n n (Nat.le_refl n)).2 h

theorem bitLength_le_of_lt_pow (n k : Nat) (h0 : n ≠ 0) (h : n < 2 ^ k) : bitLength n ≤ k := by
  by_contra hc
  have h1 : 2 ^ (k + 1) ≤ 2 ^ bitLength n := Nat.pow_le_pow_right (by decide) (by omega)
  have h2 := pow_bitLength_le n h0
  rw [pow_succ] at h1
  omega

theorem le_roundHalfEven (n d : Nat) : n / d ≤ roundHalfEven n d := by
  unfold roundHalfEven
  split_ifs <;> omega

theorem roundHalfEven_one (n : Nat) : roundHalfEven n 1 = n := by
  unfold roundHalfEven
  simp [Nat.mod_one]

theorem ulpExponent_cases (n d : Nat) :
    ulpExponent n d = -1074 ∨
      (-1074 < ulpExponent n d ∧
        ulpExponent n d ≤ (bitLength n : Int) - (bitLength d : Int) - 52 ∧
        (bitLength n : Int) - (bitLength d : Int) - 53 ≤ ulpExponent n d) := by
  unfold ulpExponent
  simp only
  split_ifs <;> omega

theorem isNaN_toNumber (q : ℚ) : isNaN (toNumber q) = false := by
  unfold toNumber
  simp only
  split_ifs <;> rfl

theorem scaled_ge_one (n d : Nat) (hn : n ≠ 0) (h : d ≤ n * 2 ^ 1074) :
    d * 2 ^ (ulpExponent n d).toNat ≤ n * 2 ^ (-ulpExponent n d).toNat := by
  have hn1 := pow_bitLength_le n hn
  have hd1 := lt_pow_bitLength d
  rcases ulpExponent_cases n d with he | ⟨hlo, hhi, _⟩
  · rw [he]
    have a0 : (-1074 : Int).toNat = 0 := by decide
    have a1 : (- -1074 : Int).toNat = 1074 := by decide
    rw [a0, a1, pow_zero, Nat.mul_one]
    exact h
  · generalize ulpExponent n d = e at hlo hhi ⊢
    by_cases hpos : 0 ≤ e
    · obtain ⟨k, rfl⟩ := Int.eq_ofNat_of_zero_le hpos
      have h0 : (-(k : Int)).toNat = 0 := by omega
      rw [Int.toNat_ofNat, h0, pow_zero, Nat.mul_one]
      have hk : bitLength d + k + 52 ≤ bitLength n := by omega
      have h1 : 2 ^ (bitLength d + k + 52) ≤ 2 ^ bitLength n :=
        Nat.pow_le_pow_right (by decide) hk
      have h2 : d * 2 ^ k < 2 ^ bitLength d * 2 ^ k :=
        Nat.mul_lt_mul_of_pos_right hd1 (Nat.two_pow_pos k)
      have h3 : 2 ^ (bitLength d + k + 52) = 2 ^ bitLength d * 2 ^ k * 2 ^ 52 := by
        rw [pow_add, pow_add]
      have h4 : 2 ^ bitLength d * 2 ^ k * 2 ≤ 2 ^ bitLength d * 2 ^ k * 2 ^ 52 :=
        Nat.mul_le_mul_left _ (by decide)
      omega
    · obtain ⟨j, hj⟩ : ∃ j : Nat, e = -(j : Int) := ⟨(-e).toNat, by omega⟩
      subst hj
      have h0 : (-(j : Int)).toNat = 0 := by omega
      have h1 : (- -(j : Int)).toNat = j := by omega
      rw [h0, h1, pow_zero, Nat.mul_one]
      have hk : bitLength d + 52 ≤ bitLength n + j := by omega
      have h2 : 2 ^ (bitLength d + 52) ≤ 2 ^ (bitLength n + j) :=
        Nat.pow_le_pow_right (by decide) hk
      rw [pow_add, pow_add] at h2
      have h3 : 2 ^ bitLength n * 2 ^ j ≤ 2 * n * 2 ^ j := Nat.mul_le_mul_right _ hn1
      have h4 : 2 ^ bitLength d * 2 ≤ 2 ^ bitLength d * 2 ^ 52 :=
        Nat.mul_le_mul_left _ (by decide)
      have h5 : 2 * n * 2 ^ j = 2 * (n * 2 ^ j) := by ring
      omega

theorem roundHalfEven_pos (n d : Nat) (hd : 0 < d) (h : d ≤ n) : 0 < roundHalfEven n d :=
  Nat.lt_of_lt_of_le (Nat.div_pos h hd) (le_roundHalfEven n d)

theorem mkRat_pow_pos (x : Int) (a b : Nat) :
    (0 < mkRat (x * 2 ^ a) (2 ^ b) ↔ 0 < x) ∧ (mkRat (x * 2 ^ a) (2 ^ b) < 0 ↔ x < 0) := by
  rw [Rat.mkRat_eq_div]
  have ha : (0 : ℚ) < 2 ^ a := by positivity
  have hb : (0 : ℚ) < 2 ^ b := by positivity
  push_cast
  constructor
  · rw [div_pos_iff_of_pos_right hb, mul_pos_iff_of_pos_right ha]
    exact Int.cast_pos
  · rw [div_neg_iff]
    constructor
    · rintro (⟨_, h⟩ | ⟨h, _⟩)
      · exact absurd h (not_lt.2 hb.le)
      · have : (x : ℚ) < 0 := by
          by_contra hc
          have := mul_nonneg (not_lt.1 hc) ha.le
          linarith
        exact_mod_cast this
    · intro h
      right
      refine ⟨?_, hb⟩
      have : (x : ℚ) < 0 := by exact_mod_cast h
      exact mul_neg_of_neg_of_pos this ha

theorem toNumber_gtZero (q : ℚ) (h : q = 0 ∨ q.den ≤ q.num.natAbs * 2 ^ 1074) :
    (toNumber q).gtZero = decide (0 < q) := by
  by_cases h0 : q = 0
  · subst h0
    decide
  · have hbound : q.den ≤ q.num.natAbs * 2 ^ 1074 := by
      rcases h with h | h
      · exact absurd h h0
      · exact h
    have hn : q.num.natAbs ≠ 0 := by
      intro e
      exact h0 (Rat.zero_of_num_zero (Int.natAbs_eq_zero.1 e))
    have hm : 0 < roundHalfEven
        (q.num.natAbs * 2 ^ (-ulpExponent q.num.natAbs q.den).toNat)
        (q.den * 2 ^ (ulpExponent q.num.natAbs q.den).toNat) :=
      roundHalfEven_pos _ _ (Nat.mul_pos q.den_pos (Nat.two_pow_pos _))
        (scaled_ge_one _ _ hn hbound)
    unfold toNumber
    rw [if_neg h0]
    simp only
    generalize roundHalfEven _ _ = m at hm ⊢
    generalize ulpExponent q.num.natAbs q.den = e
    by_cases hq : q < 0
    · have hnot : ¬ 0 < q := not_lt.2 hq.le
      split_ifs
      · simp [JSNum.gtZero, hq, hnot]
      · simp only [JSNum.gtZero]
        apply decide_eq_decide.2
        rw [(mkRat_pow_pos _ _ _).1]
        constructor
        · intro h'; omega
        · intro h'; exact absurd h' hnot
    · have hpos : 0 < q := lt_of_le_of_ne (not_lt.1 hq) (Ne.symm h0)
      split_ifs
      · simp [JSNum.gtZero, hq, hpos]
      · simp only [JSNum.gtZero]
        apply decide_eq_decide.2
        rw [(mkRat_pow_pos _ _ _).1]
        constructor
        · intro _; exact hpos
        · intro _; omega

theorem toNumber_abs (q : ℚ) : (toNumber q).abs = toNumber |q| := by
  by_cases h0 : q = 0
  · subst h0
    decide
  · by_cases hq : q < 0
    · have habs : |q| = -q := abs_of_neg hq
      have hpos : ¬ (-q < 0) := by
        intro h; linarith
      have hne : -q ≠ 0 := by
        intro h; apply h0; linarith
      rw [habs]
      unfold toNumber
      rw [if_neg h0, if_neg hne]
      simp only [Rat.neg_num, Int.natAbs_neg, Rat.neg_den]
      generalize roundHalfEven _ _ = m
      generalize ulpExponent q.num.natAbs q.den = e
      split_ifs
      · simp [JSNum.abs, hpos]
      · simp only [JSNum.abs, if_pos hq, if_neg hpos]
        congr 1
        by_cases hm : (m : Int) = 0
        · rw [hm]; simp
        · have hlt : mkRat (-(m : Int) * 2 ^ e.toNat) (2 ^ (-e).toNat) < 0 := by
            rw [(mkRat_pow_pos _ _ _).2]
            omega
          rw [if_pos hlt, Rat.mkRat_eq_div, Rat.mkRat_eq_div]
          push_cast
          ring
    · have habs : |q| = q := abs_of_nonneg (not_lt.1 hq)
      rw [habs]
      unfold toNumber
      rw [if_neg h0]
      simp only
      generalize roundHalfEven _ _ = m
      generalize ulpExponent q.num.natAbs q.den = e
      split_ifs
      · simp [JSNum.abs, hq]
      · simp only [JSNum.abs, if_neg hq]
        congr 1
        have hge : ¬ mkRat ((m : Int) * 2 ^ e.toNat) (2 ^ (-e).toNat) < 0 := by
          rw [(mkRat_pow_pos _ _ _).2]
          omega
        rw [if_neg hge]

theorem bitLength_one : bitLength 1 = 1 := by decide

theorem toNumber_int (z : Int) (h : z.natAbs < 2 ^ 53) : toNumber (z : ℚ) = .fin (z : ℚ) := by
  by_cases h0 : z = 0
  · subst h0
    decide
  · have hq0 : (z : ℚ) ≠ 0 := by exact_mod_cast h0
    have hn : z.natAbs ≠ 0 := fun e => h0 (Int.natAbs_eq_zero.1 e)
    have hbl : bitLength z.natAbs ≤ 53 := bitLength_le_of_lt_pow _ _ hn h
    have he : ulpExponent z.natAbs 1 ≤ 0 := by
      rcases ulpExponent_cases z.natAbs 1 with h1 | ⟨_, h1, _⟩
      · rw [h1]; decide
      · rw [bitLength_one] at h1
        omega
    unfold toNumber
    rw [if_neg hq0]
    simp only [Rat.num_intCast, Rat.den_intCast]
    generalize ulpExponent z.natAbs 1 = e at he
    obtain ⟨j, hj⟩ : ∃ j : Nat, e = -(j : Int) := ⟨(-e).toNat, by omega⟩
    subst hj
    have a0 : (-(j : Int)).toNat = 0 := by omega
    have a1 : (- -(j : Int)).toNat = j := by omega
    rw [a0, a1, pow_zero, Nat.mul_one, roundHalfEven_one]
    have hover : ¬ (971 < -(j : Int) ∨ (-(j : Int) = 971 ∧ z.natAbs * 2 ^ j = 2 ^ 53)) := by
      omega
    rw [if_neg hover]
    congr 1
    rw [Rat.mkRat_eq_div]
    have hj0 : ((2 : ℚ) ^ j) ≠ 0 := by positivity
    by_cases hz : (z : ℚ) < 0
    · have hz' : z < 0 := by exact_mod_cast hz
      rw [if_pos hz]
      push_cast
      rw [abs_of_neg hz]
      field_simp
    · have hz' : 0 ≤ z := by
        have : (0 : ℚ) ≤ z := not_lt.1 hz
        exact_mod_cast this
      rw [if_neg hz]
      push_cast
      rw [abs_of_nonneg (not_lt.1 hz)]
      field_simp

theorem zpow_two_split (e : Int) :
    (2 : ℚ) ^ e = (2 : ℚ) ^ e.toNat / (2 : ℚ) ^ (-e).toNat := by
  by_cases h : 0 ≤ e
  · obtain ⟨k, rfl⟩ := Int.eq_ofNat_of_zero_le h
    have h0 : (-(k : Int)).toNat = 0 := by omega
    rw [Int.toNat_ofNat, h0, pow_zero, div_one, zpow_natCast]
  · obtain ⟨j, hj⟩ : ∃ j : Nat, e = -(j : Int) := ⟨(-e).toNat, by omega⟩
    subst hj
    have h0 : (-(j : Int)).toNat = 0 := by omega
    have h1 : (- -(j : Int)).toNat = j := by omega
    rw [h0, h1, pow_zero, zpow_neg, zpow_natCast, one_div]

theorem mkRat_scaled (x : Int) (e : Int) :
    mkRat (x * 2 ^ e.toNat) (2 ^ (-e).toNat) = (x : ℚ) * (2 : ℚ) ^ e := by
  rw [Rat.mkRat_eq_div, zpow_two_split e]
  push_cast
  ring

theorem roundHalfEven_near (n d : Nat) (hd : 0 < d) :
    2 * (roundHalfEven n d * d) ≤ 2 * n + d ∧ 2 * n ≤ 2 * (roundHalfEven n d * d) + d ∧
      ((2 * (roundHalfEven n d * d) = 2 * n + d ∨ 2 * n = 2 * (roundHalfEven n d * d) + d) →
        roundHalfEven n d % 2 = 0) := by
  have hdm := Nat.div_add_mod n d
  have hmod := Nat.mod_lt n hd
  have hmul : d * (n / d) = n / d * d := Nat.mul_comm _ _
  have hsucc : (n / d + 1) * d = n / d * d + d := by ring
  unfold roundHalfEven
  split_ifs with h1 h2 h3
  · refine ⟨by omega, by omega, ?_⟩
    intro h; omega
  · rw [hsucc]
    refine ⟨by omega, by omega, ?_⟩
    intro h; omega
  · refine ⟨by omega, by omega, fun _ => h3⟩
  · rw [hsucc]
    refine ⟨by omega, by omega, fun _ => by omega⟩

theorem roundHalfEven_le (n d k : Nat) (h : n < k * d) : roundHalfEven n d ≤ k := by
  have hd : 0 < d := by
    rcases Nat.eq_zero_or_pos d with e | e
    · rw [e] at h; simp at h
    · exact e
  have hfloor : n / d < k := (Nat.div_lt_iff_lt_mul hd).2 h
  unfold roundHalfEven
  split_ifs <;> omega

theorem roundHalfEven_ge (n d k : Nat) (hd : 0 < d) (h : k * d ≤ n) :
    k ≤ roundHalfEven n d :=
  Nat.le_trans ((Nat.le_div_iff_mul_le hd).2 h) (le_roundHalfEven n d)

theorem ulpExponent_binade (n d : Nat) (hn : n ≠ 0) (hd : d ≠ 0) :
    -1074 ≤ ulpExponent n d ∧
    (n : ℚ) / d < 2 ^ 53 * (2 : ℚ) ^ ulpExponent n d ∧
    (2 ^ 52 * (2 : ℚ) ^ ulpExponent n d ≤ (n : ℚ) / d ∨ ulpExponent n d = -1074) := by
  have hn1 : ((2 : ℚ) ^ bitLength n) ≤ 2 * (n : ℚ) := by exact_mod_cast pow_bitLength_le n hn
  have hn2 : (n : ℚ) < (2 : ℚ) ^ bitLength n := by exact_mod_cast lt_pow_bitLength n
  have hd1 : ((2 : ℚ) ^ bitLength d) ≤ 2 * (d : ℚ) := by exact_mod_cast pow_bitLength_le d hd
  have hd2 : (d : ℚ) < (2 : ℚ) ^ bitLength d := by exact_mod_cast lt_pow_bitLength d
  have hdpos : (0 : ℚ) < d := by exact_mod_cast Nat.pos_of_ne_zero hd
  have hnpos : (0 : ℚ) < n := by exact_mod_cast Nat.pos_of_ne_zero hn
  have hBn : (0 : ℚ) < (2 : ℚ) ^ bitLength n := by positivity
  have hBd : (0 : ℚ) < (2 : ℚ) ^ bitLength d := by positivity
  have he1 : (2 : ℚ) ^ ((bitLength n : Int) - (bitLength d : Int) - 53) =
      (2 : ℚ) ^ bitLength n / (2 : ℚ) ^ bitLength d / 2 ^ 53 := by
    rw [zpow_sub₀ (by norm_num), zpow_sub₀ (by norm_num), zpow_natCast, zpow_natCast]
    norm_num
  have hstep : ∀ e : Int, (2 : ℚ) ^ (e + 1) = 2 * (2 : ℚ) ^ e := by
    intro e
    rw [zpow_add_one₀ (by norm_num)]
    ring
  -- the two bounds at the first candidate exponent
  have hlow : 2 ^ 52 * (2 : ℚ) ^ ((bitLength n : Int) - (bitLength d : Int) - 53) <
      (n : ℚ) / d := by
    rw [he1, lt_div_iff₀ hdpos]
    have : 2 ^ 52 * ((2 : ℚ) ^ bitLength n / (2 : ℚ) ^ bitLength d / 2 ^ 53) * d =
        (2 : ℚ) ^ bitLength n / 2 * (d / (2 : ℚ) ^ bitLength d) := by
      field_simp
      ring
    rw [this]
    have h1 : (d : ℚ) / (2 : ℚ) ^ bitLength d < 1 := (div_lt_one hBd).2 hd2
    have h2 : (2 : ℚ) ^ bitLength n / 2 ≤ n := by linarith
    calc (2 : ℚ) ^ bitLength n / 2 * (d / (2 : ℚ) ^ bitLength d)
        < (2 : ℚ) ^ bitLength n / 2 * 1 := by
          apply mul_lt_mul_of_pos_left h1
          positivity
      _ ≤ n := by linarith
  have hhigh : (n : ℚ) / d <
      2 ^ 53 * (2 * (2 : ℚ) ^ ((bitLength n : Int) - (bitLength d : Int) - 53)) := by
    rw [he1, div_lt_iff₀ hdpos]
    have : 2 ^ 53 * (2 * ((2 : ℚ) ^ bitLength n / (2 : ℚ) ^ bitLength d / 2 ^ 53)) * d =
        (2 : ℚ) ^ bitLength n * (2 * d / (2 : ℚ) ^ bitLength d) := by
      field_simp
      ring
    rw [this]
    have h1 : 1 ≤ 2 * (d : ℚ) / (2 : ℚ) ^ bitLength d := (one_le_div hBd).2 hd1
    calc (n : ℚ) < (2 : ℚ) ^ bitLength n := hn2
      _ = (2 : ℚ) ^ bitLength n * 1 := (mul_one _).symm
      _ ≤ (2 : ℚ) ^ bitLength n * (2 * d / (2 : ℚ) ^ bitLength d) :=
          mul_le_mul_of_nonneg_left h1 hBn.le
  -- the test of the definition, read in the rationals
  have htest : ∀ e : Int, (2 ^ 53 * (d * 2 ^ e.toNat) ≤ n * 2 ^ (-e).toNat) ↔
      2 ^ 53 * (2 : ℚ) ^ e ≤ (n : ℚ) / d := by
    intro e
    have ha : (0 : ℚ) < (2 : ℚ) ^ (-e).toNat := by positivity
    rw [zpow_two_split e, le_div_iff₀ hdpos]
    have : 2 ^ 53 * ((2 : ℚ) ^ e.toNat / (2 : ℚ) ^ (-e).toNat) * d =
        (2 ^ 53 * (d * (2 : ℚ) ^ e.toNat)) / (2 : ℚ) ^ (-e).toNat := by
      field_simp
      ring
    rw [this, div_le_iff₀ ha]
    constructor
    · intro h; exact_mod_cast h
    · intro h; exact_mod_cast h
  have hcand : ∃ e0 : Int, ulpExponent n d = max e0 (-1074) ∧
      (n : ℚ) / d < 2 ^ 53 * (2 : ℚ) ^ e0 ∧ 2 ^ 52 * (2 : ℚ) ^ e0 ≤ (n : ℚ) / d := by
    unfold ulpExponent
    simp only
    by_cases hC : 2 ^ 53 * (d * 2 ^ ((bitLength n : Int) - (bitLength d : Int) - 53).toNat) ≤
        n * 2 ^ (-((bitLength n : Int) - (bitLength d : Int) - 53)).toNat
    · rw [if_pos hC]
      refine ⟨_, rfl, ?_, ?_⟩
      · rw [hstep]; exact hhigh
      · rw [hstep]
        have := (htest _).1 hC
        linarith
    · rw [if_neg hC]
      refine ⟨_, rfl, ?_, hlow.le⟩
      exact not_le.1 (fun h => hC ((htest _).2 h))
  obtain ⟨e0, he, hup, hlo⟩ := hcand
  rw [he]
  refine ⟨le_max_right _ _, ?_, ?_⟩
  · have hmono : (2 : ℚ) ^ e0 ≤ (2 : ℚ) ^ max e0 (-1074) :=
      zpow_le_zpow_right₀ (by norm_num) (le_max_left _ _)
    calc (n : ℚ) / d < 2 ^ 53 * (2 : ℚ) ^ e0 := hup
      _ ≤ 2 ^ 53 * (2 : ℚ) ^ max e0 (-1074) := by
          apply mul_le_mul_of_nonneg_left hmono
          positivity
  · by_cases h : -1074 ≤ e0
    · left
      rw [max_eq_left h]
      exact hlo
    · right
      exact max_eq_right (by omega)

theorem abs_eq_natAbs_div (q : ℚ) : |q| = (q.num.natAbs : ℚ) / (q.den : ℚ) := by
  have hden : (0 : ℚ) < q.den := by exact_mod_cast q.den_pos
  have h1 : ((q.num.natAbs : Nat) : ℚ) = |(q.num : ℚ)| := by
    rw [Nat.cast_natAbs, Int.cast_abs]
  rw [h1]
  conv_lhs => rw [← Rat.num_div_den q]
  rw [abs_div, abs_of_pos hden]

/-- The defining property of `toNumber`: its value is `m * 2 ^ e` with a
significand `m ≤ 2 ^ 53` at the exponent `e ≥ -1074` of the doubles around `q`
(`2 ^ 52 ≤ m` unless `e = -1074`), within half a unit `2 ^ e` of `q`, with `m`
even when `q` is half-way; it is an infinity exactly when `m * 2 ^ e` reaches
`2 ^ 1024`. -/
theorem toNumber_nearest (q : ℚ) (h0 : q ≠ 0) :
    ∃ (m : Nat) (e : Int), -1074 ≤ e ∧ m ≤ 2 ^ 53 ∧ (2 ^ 52 ≤ m ∨ e = -1074) ∧
      2 * |(|q| - (m : ℚ) * (2 : ℚ) ^ e)| ≤ (2 : ℚ) ^ e ∧
      (2 * |(|q| - (m : ℚ) * (2 : ℚ) ^ e)| = (2 : ℚ) ^ e → m % 2 = 0) ∧
      toNumber q =
        if 971 < e ∨ (e = 971 ∧ m = 2 ^ 53) then .inf (decide (q < 0))
        else .fin ((if q < 0 then -1 else 1) * (m : ℚ) * (2 : ℚ) ^ e) := by
  have hn : q.num.natAbs ≠ 0 := by
    intro e
    exact h0 (Rat.zero_of_num_zero (Int.natAbs_eq_zero.1 e))
  have hd : q.den ≠ 0 := q.den_nz
  obtain ⟨hmin, hup, hlo⟩ := ulpExponent_binade q.num.natAbs q.den hn hd
  rw [← abs_eq_natAbs_div q] at hup hlo
  have hval : toNumber q =
      if 971 < ulpExponent q.num.natAbs q.den ∨ (ulpExponent q.num.natAbs q.den = 971 ∧
          roundHalfEven (q.num.natAbs * 2 ^ (-ulpExponent q.num.natAbs q.den).toNat)
            (q.den * 2 ^ (ulpExponent q.num.natAbs q.den).toNat) = 2 ^ 53) then
        .inf (decide (q < 0))
      else .fin ((if q < 0 then -1 else 1) *
        (roundHalfEven (q.num.natAbs * 2 ^ (-ulpExponent q.num.natAbs q.den).toNat)
          (q.den * 2 ^ (ulpExponent q.num.natAbs q.den).toNat) : ℚ) *
        (2 : ℚ) ^ ulpExponent q.num.natAbs q.den) := by
    unfold toNumber
    rw [if_neg h0]
    simp only
    by_cases hov : 971 < ulpExponent q.num.natAbs q.den ∨
        (ulpExponent q.num.natAbs q.den = 971 ∧
          roundHalfEven (q.num.natAbs * 2 ^ (-ulpExponent q.num.natAbs q.den).toNat)
            (q.den * 2 ^ (ulpExponent q.num.natAbs q.den).toNat) = 2 ^ 53)
    · rw [if_pos hov, if_pos hov]
    · rw [if_neg hov, if_neg hov, mkRat_scaled]
      congr 1
      by_cases hq : q < 0
      · rw [if_pos hq, if_pos hq]; push_cast; ring
      · rw [if_neg hq, if_neg hq]; push_cast; ring
  have habs := abs_eq_natAbs_div q
  generalize ulpExponent q.num.natAbs q.den = e at hmin hup hlo hval
  generalize hN : q.num.natAbs * 2 ^ (-e).toNat = N at hval
  generalize hD : q.den * 2 ^ e.toNat = D at hval
  have hDpos : 0 < D := by
    rw [← hD]
    exact Nat.mul_pos q.den_pos (Nat.two_pow_pos _)
  have hDq : (0 : ℚ) < D := by exact_mod_cast hDpos
  have hEpos : (0 : ℚ) < (2 : ℚ) ^ e := by positivity
  -- the scaled magnitude is `N / D`
  have hscaled : |q| = (N : ℚ) / D * (2 : ℚ) ^ e := by
    have ha : (0 : ℚ) < (2 : ℚ) ^ e.toNat := by positivity
    have hb : (0 : ℚ) < (2 : ℚ) ^ (-e).toNat := by positivity
    have hdq : (0 : ℚ) < q.den := by exact_mod_cast q.den_pos
    rw [habs, ← hN, ← hD, zpow_two_split e]
    push_cast
    field_simp
    ring
  have hND : (N : ℚ) = |q| / (2 : ℚ) ^ e * D := by
    rw [hscaled]
    field_simp
    ring
  refine ⟨roundHalfEven N D, e, hmin, ?_, ?_, ?_, ?_, hval⟩
  · apply roundHalfEven_le
    have : (N : ℚ) < ((2 ^ 53 * D : Nat) : ℚ) := by
      rw [hND]
      push_cast
      apply mul_lt_mul_of_pos_right _ hDq
      rw [div_lt_iff₀ hEpos]
      exact hup
    exact_mod_cast this
  · rcases hlo with h | h
    · left
      apply roundHalfEven_ge N D _ hDpos
      have : ((2 ^ 52 * D : Nat) : ℚ) ≤ (N : ℚ) := by
        rw [hND]
        push_cast
        apply mul_le_mul_of_nonneg_right _ hDq.le
        rw [le_div_iff₀ hEpos]
        exact h
      exact_mod_cast this
    · exact Or.inr h
  · obtain ⟨h1, h2, _⟩ := roundHalfEven_near N D hDpos
    have h1q : 2 * ((roundHalfEven N D : ℚ) * D) ≤ 2 * N + D := by exact_mod_cast h1
    have h2q : 2 * (N : ℚ) ≤ 2 * ((roundHalfEven N D : ℚ) * D) + D := by exact_mod_cast h2
    have herr : |q| - (roundHalfEven N D : ℚ) * (2 : ℚ) ^ e =
        ((N : ℚ) - (roundHalfEven N D : ℚ) * D) / D * (2 : ℚ) ^ e := by
      rw [hscaled]
      field_simp
      ring
    rw [herr, abs_mul, abs_div, abs_of_pos hEpos, abs_of_pos hDq]
    have hnum : 2 * |(N : ℚ) - (roundHalfEven N D : ℚ) * D| ≤ D := by
      have := abs_le.2 (⟨by linarith, by linarith⟩ :
        -((D : ℚ) / 2) ≤ (N : ℚ) - (roundHalfEven N D : ℚ) * D ∧
          (N : ℚ) - (roundHalfEven N D : ℚ) * D ≤ (D : ℚ) / 2)
      linarith
    have hfrac : 2 * (|(N : ℚ) - (roundHalfEven N D : ℚ) * D| / D) ≤ 1 := by
      rw [← mul_div_assoc, div_le_one hDq]
      exact hnum
    calc 2 * (|(N : ℚ) - (roundHalfEven N D : ℚ) * D| / D * (2 : ℚ) ^ e)
        = 2 * (|(N : ℚ) - (roundHalfEven N D : ℚ) * D| / D) * (2 : ℚ) ^ e := by ring
      _ ≤ 1 * (2 : ℚ) ^ e := mul_le_mul_of_nonneg_right hfrac hEpos.le
      _ = (2 : ℚ) ^ e := one_mul _
  · intro htie
    obtain ⟨_, _, heven⟩ := roundHalfEven_near N D hDpos
    apply heven
    have herr : |q| - (roundHalfEven N D : ℚ) * (2 : ℚ) ^ e =
        ((N : ℚ) - (roundHalfEven N D : ℚ) * D) / D * (2 : ℚ) ^ e := by
      rw [hscaled]
      field_simp
      ring
    rw [herr, abs_mul, abs_div, abs_of_pos hEpos, abs_of_pos hDq] at htie
    have hnum : 2 * |(N : ℚ) - (roundHalfEven N D : ℚ) * D| = D := by
      have h3 : 2 * (|(N : ℚ) - (roundHalfEven N D : ℚ) * D| / D) * (2 : ℚ) ^ e =
          1 * (2 : ℚ) ^ e := by
        calc 2 * (|(N : ℚ) - (roundHalfEven N D : ℚ) * D| / D) * (2 : ℚ) ^ e
            = 2 * (|(N : ℚ) - (roundHalfEven N D : ℚ) * D| / D * (2 : ℚ) ^ e) := by ring
          _ = (2 : ℚ) ^ e := htie
          _ = 1 * (2 : ℚ) ^ e := (one_mul _).symm
      have h4 := mul_right_cancel₀ hEpos.ne' h3
      field_simp at h4
      linarith
    rcases abs_cases ((N : ℚ) - (roundHalfEven N D : ℚ) * D) with ⟨hc, _⟩ | ⟨hc, _⟩
    · right
      rw [hc] at hnum
      have : (2 * N : ℚ) = 2 * ((roundHalfEven N D : ℚ) * D) + D := by linarith
      exact_mod_cast this
    · left
      rw [hc] at hnum
      have : 2 * ((roundHalfEven N D : ℚ) * D) = (2 * N : ℚ) + D := by linarith
      exact_mod_cast this

theorem amount_in_range (s : ℚ) (hs : s = 1 ∨ s = -1) (N : Nat) :
    s * (N : ℚ) / 100 = 0 ∨
      (s * (N : ℚ) / 100).den ≤ (s * (N : ℚ) / 100).num.natAbs * 2 ^ 1074 := by
  by_cases h0 : s * (N : ℚ) / 100 = 0
  · exact Or.inl h0
  · right
    obtain ⟨z, hz⟩ : ∃ z : Int, s * (N : ℚ) / 100 = Rat.divInt z 100 := by
      rcases hs with e | e
      · exact ⟨(N : Int), by rw [e, Rat.divInt_eq_div]; push_cast; ring⟩
      · exact ⟨-(N : Int), by rw [e, Rat.divInt_eq_div]; push_cast; ring⟩
    rw [hz] at h0 ⊢
    have hdvd := Rat.den_dvd z 100
    have hle : ((Rat.divInt z 100).den : Int) ≤ 100 :=
      Int.le_of_dvd (by decide) hdvd
    have hnum : (Rat.divInt z 100).num.natAbs ≠ 0 := by
      intro e
      exact h0 (Rat.zero_of_num_zero (Int.natAbs_eq_zero.1 e))
    have hpow : 2 ^ 7 ≤ 2 ^ 1074 := by
      apply Nat.pow_le_pow_right
      · omega
      · omega
    have hmul : 1 * 2 ^ 1074 ≤ (Rat.divInt z 100).num.natAbs * 2 ^ 1074 :=
      Nat.mul_le_mul_right _ (Nat.pos_of_ne_zero hnum)
    have hden : (Rat.divInt z 100).den ≤ 100 := by omega
    exact Nat.le_trans (Nat.le_trans (Nat.le_trans hden (by decide)) hpow)
      (Nat.le_trans (Nat.le_of_eq (Nat.one_mul _).symm) hmul)

theorem scale10_neg_two (m : Int) : scale10 m (-2) = (m : ℚ) / 100 := by
  unfold scale10
  have h1 : (-2 : Int).toNat = 0 := by decide
  have h2 : (-(-2 : Int)).toNat = 2 := by decide
  rw [h1, h2, Rat.mkRat_eq_div]
  norm_num

theorem parseUnsigned_decimal (neg : Bool) (ds : Str) (c1 c2 : Char)
    (hds : ∀ d ∈ ds, isDigit d = true) (h1 : isDigit c1 = true) (h2 : isDigit c2 = true) :
    parseUnsigned neg (ds ++ '.' :: [c1, c2]) =
      toNumber ((if neg then -(digitsValue (ds ++ [c1, c2]) : Int)
        else (digitsValue (ds ++ [c1, c2]) : Int) : Int) / 100) := by
  have hdot : isDigit '.' = false := by decide
  have hI : isDigit 'I' = false := by decide
  obtain ⟨ht, hd⟩ := takeWhile_digits_append ds '.' [c1, c2] hds hdot
  have hfrac := takeWhile_digits_all [c1, c2] (by
    intro d hd; simp at hd; rcases hd with rfl | rfl <;> assumption)
  have hinf : "Infinity".toList.isPrefixOf (ds ++ '.' :: [c1, c2]) = false := by
    cases ds with
    | nil => simp [List.isPrefixOf]
    | cons d ds =>
      have hd := hds d (List.mem_cons_self _ _)
      have : ('I' == d) = false := by
        simpa using (isDigit_ne hd hI).symm
      simp [List.isPrefixOf, this]
  unfold parseUnsigned
  rw [hinf]
  simp only [Bool.false_eq_true, if_false, ht, hd, fractionPart, if_true, hfrac.1, hfrac.2]
  simp [exponentPart, scale10_neg_two]

theorem filter_amount (sign body : Str) (c1 c2 : Char)
    (hsign : sign = [] ∨ sign = ['+'] ∨ sign = ['-'] ∨ sign = ['−'])
    (hbody : ∀ c ∈ body, isDigit c = true ∨ isWhiteSpace c = true)
    (h1 : isDigit c1 = true) (h2 : isDigit c2 = true) :
    (sign ++ body ++ [',', c1, c2]).filter (fun c => !isWhiteSpace c) =
      sign ++ body.filter isDigit ++ [',', c1, c2] := by
  have hs : sign.filter (fun c => !isWhiteSpace c) = sign := by
    rcases hsign with h | h | h | h <;> subst h <;> decide
  have hb : body.filter (fun c => !isWhiteSpace c) = body.filter isDigit := by
    apply List.filter_congr
    intro c hc
    rcases hbody c hc with h | h
    · rw [h, isDigit_not_ws h]; rfl
    · rw [h, ws_not_digit h]; rfl
  have hcomma : isWhiteSpace ',' = false := by decide
  rw [List.filter_append, List.filter_append, hs, hb]
  simp [List.filter, hcomma, isDigit_not_ws h1, isDigit_not_ws h2]

theorem normalizedAmountStr_amount (sign body : Str) (c1 c2 : Char)
    (hsign : sign = [] ∨ sign = ['+'] ∨ sign = ['-'] ∨ sign = ['−'])
    (hbody : ∀ c ∈ body, isDigit c = true ∨ isWhiteSpace c = true)
    (h1 : isDigit c1 = true) (h2 : isDigit c2 = true) :
    normalizedAmountStr (sign ++ body ++ [',', c1, c2]) =
      (if sign = ['−'] then ['-'] else sign) ++ body.filter isDigit ++ '.' :: [c1, c2] := by
  have hds : ∀ d ∈ body.filter isDigit, isDigit d = true := fun d hd => (List.mem_filter.1 hd).2
  have hcomma : isDigit ',' = false := by decide
  have hminus : isDigit '−' = false := by decide
  have hc1 : ',' ∉ sign ++ body.filter isDigit := by
    intro hm
    rcases List.mem_append.1 hm with h | h
    · rcases hsign with e | e | e | e <;> subst e <;> revert h <;> decide
    · rw [hds _ h] at hcomma; exact absurd hcomma (by simp)
  have hm2 : '−' ∉ body.filter isDigit ++ '.' :: [c1, c2] := by
    intro hm
    rcases List.mem_append.1 hm with h | h
    · rw [hds _ h] at hminus; exact absurd hminus (by simp)
    · simp only [List.mem_cons, List.mem_singleton, List.not_mem_nil, or_false] at h
      rcases h with h | h | h
      · revert h; decide
      · rw [← h, hminus] at h1; exact absurd h1 (by simp)
      · rw [← h, hminus] at h2; exact absurd h2 (by simp)
  unfold normalizedAmountStr
  rw [filter_amount sign body c1 c2 hsign hbody h1 h2]
  have e1 : sign ++ body.filter isDigit ++ [',', c1, c2] =
      (sign ++ body.filter isDigit) ++ ',' :: [c1, c2] := by simp
  rw [e1, replaceFirst_append ',' '.' _ _ hc1]
  rcases hsign with e | e | e | e <;> subst e
  · rw [if_neg (by decide)]
    exact replaceFirst_of_not_mem _ _ _ (by simpa using hm2)
  · rw [if_neg (by decide)]
    apply replaceFirst_of_not_mem
    intro hm
    simp only [List.cons_append, List.nil_append, List.mem_cons] at hm
    rcases hm with h | h
    · revert h; decide
    · exact hm2 (by simpa using h)
  · rw [if_neg (by decide)]
    apply replaceFirst_of_not_mem
    intro hm
    simp only [List.cons_append, List.nil_append, List.mem_cons] at hm
    rcases hm with h | h
    · revert h; decide
    · exact hm2 (by simpa using h)
  · rw [if_pos rfl]
    simp [replaceFirst]

theorem parseFloat_cons (c : Char) (t : Str) (hw : isWhiteSpace c = false) :
    parseFloat (c :: t) =
      if c = '-' then parseUnsigned true t
      else if c = '+' then parseUnsigned false t
      else parseUnsigned false (c :: t) := by
  simp [parseFloat, trimStart, List.dropWhile, hw]

theorem parseFloat_amount (sign body : Str) (c1 c2 : Char)
    (hsign : sign = [] ∨ sign = ['+'] ∨ sign = ['-'] ∨ sign = ['−'])
    (hbody : ∀ c ∈ body, isDigit c = true ∨ isWhiteSpace c = true)
    (h1 : isDigit c1 = true) (h2 : isDigit c2 = true) :
    parseFloat (normalizedAmountStr (sign ++ body ++ [',', c1, c2])) =
      toNumber ((if sign = ['-'] ∨ sign = ['−'] then -1 else 1) *
        (digitsValue (body.filter isDigit ++ [c1, c2]) : ℚ) / 100) := by
  have hds : ∀ d ∈ body.filter isDigit, isDigit d = true := fun d hd => (List.mem_filter.1 hd).2
  have hP := fun neg => parseUnsigned_decimal neg (body.filter isDigit) c1 c2 hds h1 h2
  rw [normalizedAmountStr_amount sign body c1 c2 hsign hbody h1 h2]
  rcases hsign with e | e | e | e <;> subst e
  · rw [if_neg (by decide), if_neg (by decide)]
    have hhead : ∃ c t, body.filter isDigit ++ '.' :: [c1, c2] = c :: t ∧
        isWhiteSpace c = false ∧ c ≠ '-' ∧ c ≠ '+' := by
      cases hb : body.filter isDigit with
      | nil => exact ⟨'.', [c1, c2], rfl, by decide, by decide, by decide⟩
      | cons d ds =>
        have hd : isDigit d = true := hds d (by rw [hb]; exact List.mem_cons_self _ _)
        exact ⟨d, ds ++ '.' :: [c1, c2], rfl, isDigit_not_ws hd,
          isDigit_ne hd (by decide), isDigit_ne hd (by decide)⟩
    obtain ⟨c, t, hct, hw, hm, hp⟩ := hhead
    have := hP false
    rw [List.nil_append]
    rw [hct] at this ⊢
    rw [parseFloat_cons c t hw, if_neg hm, if_neg hp, this]
    simp
  · rw [if_neg (by decide), if_neg (by decide)]
    show parseFloat ('+' :: (body.filter isDigit ++ '.' :: [c1, c2])) = _
    rw [parseFloat_cons _ _ (by decide), if_neg (by decide), if_pos rfl, hP false]
    simp
  · rw [if_neg (by decide), if_pos (Or.inl rfl)]
    show parseFloat ('-' :: (body.filter isDigit ++ '.' :: [c1, c2])) = _
    rw [parseFloat_cons _ _ (by decide), if_pos rfl, hP true]
    simp
  · rw [if_pos rfl, if_pos (Or.inr rfl)]
    show parseFloat ('-' :: (body.filter isDigit ++ '.' :: [c1, c2])) = _
    rw [parseFloat_cons _ _ (by decide), if_pos rfl, hP true]
    simp

theorem processMatch_of_amount (m : RegexMatch) (v : ℚ)
    (hO : includes (trim m.group1) "Остаток".toList = false)
    (hV : includes (trim m.group1) "Всего".toList = false)
    (hv : parseFloat (normalizedAmountStr m.group3) = .fin v) :
    processMatch m = some
      { date := formattedDate m.group2
        description :=
          if (cleanDescription (trim m.group1)).isEmpty then "Транзакция Kaspi".toList
          else cleanDescription (trim m.group1)
        amount := .fin |v|
        type := if 0 < v then .income else .expense
        category := categorize (cleanDescription (trim m.group1))
          (if 0 < v then .income else .expense) } := by
  have habs : (if v < 0 then -v else v) = |v| := by
    split
    · rename_i h; rw [abs_of_neg h]
    · rename_i h; rw [abs_of_nonneg (not_lt.1 h)]
  unfold processMatch
  simp only [hO, hV, hv, isNaN, JSNum.gtZero, JSNum.abs, habs, Bool.or_self, Bool.false_eq_true,
    if_false, decide_eq_true_eq]

theorem processMatch_of_number (m : RegexMatch) (q : ℚ)
    (hO : includes (trim m.group1) "Остаток".toList = false)
    (hV : includes (trim m.group1) "Всего".toList = false)
    (hv : parseFloat (normalizedAmountStr m.group3) = toNumber q)
    (hq : q = 0 ∨ q.den ≤ q.num.natAbs * 2 ^ 1074) :
    processMatch m = some
      { date := formattedDate m.group2
        description :=
          if (cleanDescription (trim m.group1)).isEmpty then "Транзакция Kaspi".toList
          else cleanDescription (trim m.group1)
        amount := toNumber |q|
        type := if 0 < q then .income else .expense
        category := categorize (cleanDescription (trim m.group1))
          (if 0 < q then .income else .expense) } := by
  unfold processMatch
  simp only [hO, hV, hv, isNaN_toNumber, toNumber_gtZero q hq, toNumber_abs, Bool.or_self,
    Bool.false_eq_true, if_false, decide_eq_true_eq]

theorem collapse_cons_not_ws (f : Bool) (c : Char) (t : Str) (h : isWhiteSpace c = false) :
    collapseWhiteSpace f (c :: t) = c :: collapseWhiteSpace false t := by
  simp [collapseWhiteSpace, h]

theorem collapse_cons_ws (f : Bool) (c : Char) (t : Str) (h : isWhiteSpace c = true) :
    collapseWhiteSpace f (c :: t) =
      if f then collapseWhiteSpace true t else ' ' :: collapseWhiteSpace true t := by
  cases f <;> simp [collapseWhiteSpace, h]

theorem collapse_append (a : Str) : ∀ (f : Bool) (x : Str),
    (∃ c, a.getLast? = some c ∧ isWhiteSpace c = false) →
    collapseWhiteSpace f (a ++ x) = collapseWhiteSpace f a ++ collapseWhiteSpace false x := by
  induction a with
  | nil => intro f x h; simp at h
  | cons c a ih =>
    intro f x h
    cases a with
    | nil =>
      obtain ⟨d, hd, hw⟩ := h
      simp only [List.getLast?_singleton, Option.some.injEq] at hd
      subst hd
      simp [collapseWhiteSpace, hw]
    | cons b a =>
      have h' : ∃ d, (b :: a).getLast? = some d ∧ isWhiteSpace d = false := by
        obtain ⟨d, hd, hw⟩ := h
        exact ⟨d, by simpa [List.getLast?_cons_cons] using hd, hw⟩
      by_cases hc : isWhiteSpace c = true
      · have := ih true x h'
        rw [List.cons_append, collapse_cons_ws _ _ _ hc, collapse_cons_ws _ _ _ hc, this]
        cases f <;> simp
      · have hc' : isWhiteSpace c = false := by simpa using hc
        have := ih false x h'
        rw [List.cons_append, collapse_cons_not_ws _ _ _ hc', collapse_cons_not_ws _ _ _ hc',
          this]
        rfl

theorem collapse_true_eq (x : Str) (h : ∃ c t, x = c :: t ∧ isWhiteSpace c = false) :
    collapseWhiteSpace true x = collapseWhiteSpace false x := by
  obtain ⟨c, t, rfl, hw⟩ := h
  rw [collapse_cons_not_ws _ _ _ hw, collapse_cons_not_ws _ _ _ hw]

theorem getLast?_append_cons (a : Str) (c : Char) (b : Str) :
    (a ++ c :: b).getLast? = (c :: b).getLast? := by
  rw [List.getLast?_append]
  cases h : (c :: b).getLast? with
  | none => simp at h
  | some d => simp

theorem Tidy.join {a b : Str} (ha : Tidy a) (hb : Tidy b) : Tidy (a ++ ' ' :: b) := by
  obtain ⟨⟨c, t, rfl, hc⟩, hla, hca⟩ := ha
  obtain ⟨hhb, ⟨d, hd, hdw⟩, hcb⟩ := hb
  refine ⟨⟨c, t ++ ' ' :: b, rfl, hc⟩, ⟨d, ?_, hdw⟩, ?_⟩
  · rw [getLast?_append_cons]
    obtain ⟨e, u, rfl, _⟩ := hhb
    rw [List.getLast?_cons_cons]; exact hd
  · rw [collapse_append _ _ _ hla, hca]
    have hsp : isWhiteSpace ' ' = true := by decide
    rw [collapse_cons_ws _ _ _ hsp, collapse_true_eq b hhb, hcb]
    simp

theorem Tidy.append {a b : Str} (ha : Tidy a) (hb : Tidy b) : Tidy (a ++ b) := by
  obtain ⟨⟨c, t, rfl, hc⟩, hla, hca⟩ := ha
  obtain ⟨hhb, ⟨d, hd, hdw⟩, hcb⟩ := hb
  refine ⟨⟨c, t ++ b, rfl, hc⟩, ⟨d, ?_, hdw⟩, ?_⟩
  · obtain ⟨e, u, rfl, _⟩ := hhb
    rw [getLast?_append_cons]; exact hd
  · rw [collapse_append _ _ _ hla, hca, hcb]

theorem Tidy.of_no_ws (s : Str) (hne : s ≠ []) (h : ∀ c ∈ s, isWhiteSpace c = false) : Tidy s := by
  refine ⟨?_, ?_, ?_⟩
  · cases s with
    | nil => exact absurd rfl hne
    | cons c t => exact ⟨c, t, rfl, h c (List.mem_cons_self _ _)⟩
  · cases hl : s.getLast? with
    | none => exact absurd (List.getLast?_eq_none_iff.1 hl) hne
    | some d => exact ⟨d, rfl, h d (List.mem_of_getLast?_eq_some hl)⟩
  · clear hne
    induction s with
    | nil => rfl
    | cons c t ih =>
      rw [collapse_cons_not_ws _ _ _ (h c (List.mem_cons_self _ _)),
        ih (fun x hx => h x (List.mem_cons_of_mem _ hx))]

theorem trim_eq_of_tidy {s : Str} (h : Tidy s) : trim s = s := by
  obtain ⟨⟨c, t, rfl, hc⟩, ⟨d, hd, hdw⟩, _⟩ := h
  have h1 : trimStart (c :: t) = c :: t := by simp [trimStart, List.dropWhile, hc]
  unfold trim
  rw [h1]
  unfold trimEnd
  have hr : ∃ u, (c :: t).reverse = d :: u := by
    have : (c :: t).getLast? = (c :: t).reverse.head? := List.getLast?_eq_head?_reverse
    rw [hd] at this
    cases hrev : (c :: t).reverse with
    | nil => rw [hrev] at this; simp at this
    | cons e u => rw [hrev] at this; simp at this; exact ⟨u, by rw [this]⟩
  obtain ⟨u, hu⟩ := hr
  rw [hu]
  simp only [List.dropWhile, hdw]
  rw [← hu, List.reverse_reverse]

theorem cleanText_of_tidy {s : Str} (h : Tidy s) : cleanText s = s := by
  unfold cleanText
  rw [h.2.2, trim_eq_of_tidy h]
theorem length_trimEnd_le (y : Str) : (trimEnd y).length ≤ y.length := by
  unfold trimEnd
  rw [List.length_reverse]
  have : (y.reverse.dropWhile isWhiteSpace).length ≤ y.reverse.length :=
    (List.dropWhile_suffix isWhiteSpace).length_le
  rwa [List.length_reverse] at this

theorem head_of_trim_eq (c : Char) (t : Str) (h : trim (c :: t) = c :: t) :
    isWhiteSpace c = false := by
  cases hw : isWhiteSpace c with
  | false => rfl
  | true =>
    exfalso
    have h1 : (trimStart (c :: t)).length ≤ t.length := by
      simp only [trimStart, List.dropWhile, hw]
      exact (List.dropWhile_suffix isWhiteSpace).length_le
    have h2 := length_trimEnd_le (trimStart (c :: t))
    have h3 : (trim (c :: t)).length = t.length + 1 := by rw [h]; rfl
    unfold trim at h3
    omega

theorem last_of_trim_eq (s : Str) (d : Char) (h : trim s = s) (hd : s.getLast? = some d) :
    isWhiteSpace d = false := by
  have h1 : s.getLast? = ((trimStart s).reverse.dropWhile isWhiteSpace).head? := by
    conv_lhs => rw [← h]
    unfold trim trimEnd
    rw [List.getLast?_reverse]
  have h2 := List.head?_dropWhile_not isWhiteSpace (trimStart s).reverse
  rw [← h1, hd] at h2
  simpa using h2

theorem Tidy.of_trimmed (s : Str) (hne : s ≠ []) (ht : trim s = s)
    (hc : collapseWhiteSpace false s = s) : Tidy s := by
  refine ⟨?_, ?_, hc⟩
  · cases s with
    | nil => exact absurd rfl hne
    | cons c t => exact ⟨c, t, rfl, head_of_trim_eq c t ht⟩
  · cases hl : s.getLast? with
    | none => exact absurd (List.getLast?_eq_none_iff.1 hl) hne
    | some d => exact ⟨d, rfl, last_of_trim_eq s d ht hl⟩

theorem collapse_ws_is_space : ∀ (s : Str) (f : Bool) (c : Char),
    c ∈ collapseWhiteSpace f s → isWhiteSpace c = true → c = ' ' := by
  intro s
  induction s with
  | nil => intro f c h; simp [collapseWhiteSpace] at h
  | cons x t ih =>
    intro f c h hw
    by_cases hx : isWhiteSpace x = true
    · rw [collapse_cons_ws _ _ _ hx] at h
      cases f
      · simp only [Bool.false_eq_true, if_false, List.mem_cons] at h
        rcases h with h | h
        · exact h
        · exact ih true c h hw
      · simp only [if_true] at h
        exact ih true c h hw
    · have hx' : isWhiteSpace x = false := by simpa using hx
      rw [collapse_cons_not_ws _ _ _ hx'] at h
      rcases List.mem_cons.1 h with h | h
      · rw [h, hx'] at hw; exact absurd hw (by simp)
      · exact ih false c h hw

theorem isLineTerminator_ws {c : Char} (h : isLineTerminator c = true) :
    isWhiteSpace c = true := by
  simp only [isLineTerminator, isWhiteSpace, Bool.or_eq_true, beq_iff_eq, Bool.and_eq_true,
    decide_eq_true_eq] at h ⊢
  omega

theorem not_lineTerminator_of_single_spaced (s : Str)
    (hc : collapseWhiteSpace false s = s) :
    ∀ c ∈ s, (!isLineTerminator c) = true := by
  intro c hcs
  cases hl : isLineTerminator c with
  | false => rfl
  | true =>
    have hw := isLineTerminator_ws hl
    have : c = ' ' := collapse_ws_is_space s false c (by rw [hc]; exact hcs) hw
    rw [this] at hl
    exact absurd hl (by decide)

theorem matchNodes_one_cons (p : Char → Bool) (ns : List Node) (c : Char) (t : Str) :
    matchNodes (.one p :: ns) (c :: t) =
      if p c then (matchNodes ns t).map fun r => ([c] :: r.1, r.2) else none := rfl

theorem matchNodes_one_nil (p : Char → Bool) (ns : List Node) :
    matchNodes (.one p :: ns) [] = none := rfl

theorem matchNodes_opt_cons (p : Char → Bool) (ns : List Node) (c : Char) (t : Str) :
    matchNodes (.opt p :: ns) (c :: t) =
      if p c then
        match matchNodes ns t with
        | some r => some ([c] :: r.1, r.2)
        | none => (matchNodes ns (c :: t)).map fun r => ([] :: r.1, r.2)
      else (matchNodes ns (c :: t)).map fun r => ([] :: r.1, r.2) := rfl

theorem matchNodes_lazyStar (p : Char → Bool) (ns : List Node) (s : Str) :
    matchNodes (.lazyStar p :: ns) s =
      (matchLazy p (matchNodes ns) s).map fun x => (x.1 :: x.2.1, x.2.2) := rfl

theorem matchNodes_plus_cons (p : Char → Bool) (ns : List Node) (c : Char) (t : Str) :
    matchNodes (.plus p :: ns) (c :: t) =
      if p c then (matchGreedy p (matchNodes ns) t).map fun x => ((c :: x.1) :: x.2.1, x.2.2)
      else none := rfl

theorem matchNodes_one_some {p : Char → Bool} {ns : List Node} {s : Str}
    {r : List Str × Str} (h : matchNodes (.one p :: ns) s = some r) :
    ∃ c t, s = c :: t ∧ p c = true ∧ ∃ r', matchNodes ns t = some r' := by
  cases s with
  | nil => rw [matchNodes_one_nil] at h; exact absurd h (by simp)
  | cons c t =>
    rw [matchNodes_one_cons] at h
    by_cases hp : p c = true
    · rw [if_pos hp] at h
      cases hm : matchNodes ns t with
      | none => rw [hm] at h; exact absurd h (by simp)
      | some r' => exact ⟨c, t, rfl, hp, r', hm⟩
    · rw [if_neg hp] at h; exact absurd h (by simp)

theorem matchGreedy_run {R : Type} (p : Char → Bool) (k : Str → Option R) (x : Str) (r : R)
    (hx : ∀ c t, x = c :: t → p c = false) (hk : k x = some r) :
    ∀ run : Str, (∀ c ∈ run, p c = true) → matchGreedy p k (run ++ x) = some (run, r) := by
  intro run
  induction run with
  | nil =>
    intro _
    cases x with
    | nil => simp [matchGreedy, hk]
    | cons c t => simp [matchGreedy, hx c t rfl, hk]
  | cons c run ih =>
    intro h
    have hc := h c (List.mem_cons_self _ _)
    have := ih (fun d hd => h d (List.mem_cons_of_mem _ hd))
    simp [matchGreedy, hc, this]

theorem matchLazy_of_some {R : Type} (p : Char → Bool) (k : Str → Option R) (x : Str) (r : R)
    (hk : k x = some r) : matchLazy p k x = some ([], r) := by
  cases x with
  | nil => simp [matchLazy, hk]
  | cons c t => simp [matchLazy, hk]

theorem matchLazy_skip {R : Type} (p : Char → Bool) (k : Str → Option R) (x : Str) (r : R)
    (hk : k x = some r) :
    ∀ pre : Str, (∀ c ∈ pre, p c = true) →
      (∀ u v, pre = u ++ v → v ≠ [] → k (v ++ x) = none) →
      matchLazy p k (pre ++ x) = some (pre, r) := by
  intro pre
  induction pre with
  | nil => intro _ _; exact matchLazy_of_some p k x r hk
  | cons c pre ih =>
    intro hp hfail
    have h0 : k (c :: (pre ++ x)) = none := hfail [] (c :: pre) rfl (by simp)
    have hc := hp c (List.mem_cons_self _ _)
    have := ih (fun d hd => hp d (List.mem_cons_of_mem _ hd))
      (fun u v huv hv => hfail (c :: u) v (by rw [huv]; rfl) hv)
    simp [matchLazy, h0, hc, this]

theorem matchLoop_skip_append (x : Str) : ∀ rest : Str,
    matchLoop (x ++ rest) x.length = matchLoop rest 0 := by
  induction x with
  | nil => intro rest; rfl
  | cons c x ih => intro rest; exact ih rest

theorem dateAndAmountNodes_some {u : Str} {r : List Str × Str}
    (h : matchNodes dateAndAmountNodes u = some r) :
    ∃ w v, u = w :: v ∧ startsWithDate v = true := by
  unfold dateAndAmountNodes at h
  obtain ⟨w, t0, rfl, _, r0, h0⟩ := matchNodes_one_some h
  obtain ⟨a, t1, rfl, ha, r1, h1⟩ := matchNodes_one_some h0
  obtain ⟨b, t2, rfl, hb, r2, h2⟩ := matchNodes_one_some h1
  obtain ⟨p, t3, rfl, hp, r3, h3⟩ := matchNodes_one_some h2
  obtain ⟨c, t4, rfl, hc, r4, h4⟩ := matchNodes_one_some h3
  obtain ⟨d, t5, rfl, hd, r5, h5⟩ := matchNodes_one_some h4
  obtain ⟨q, t6, rfl, hq, r6, h6⟩ := matchNodes_one_some h5
  obtain ⟨e, t7, rfl, he, r7, h7⟩ := matchNodes_one_some h6
  obtain ⟨f, t8, rfl, hf, _, _⟩ := matchNodes_one_some h7
  refine ⟨w, _, rfl, ?_⟩
  have hp' : (p == '.') = true := hp
  have hq' : (q == '.') = true := hq
  simp only [startsWithDate, ha, hb, hc, hd, he, hf, hp', hq', Bool.and_self]

theorem startsWithDate_of_append_space (a R : Str)
    (h : startsWithDate (a ++ ' ' :: R) = true) : startsWithDate a = true := by
  have hsp : isDigit ' ' = false := by decide
  have hdot : (' ' == '.') = false := by decide
  rcases a with _ | ⟨a1, _ | ⟨a2, _ | ⟨a3, _ | ⟨a4, _ | ⟨a5, _ | ⟨a6, _ | ⟨a7, _ | ⟨a8, a⟩⟩⟩⟩⟩⟩⟩⟩
  all_goals try (simpa [startsWithDate] using h)
  all_goals
    exfalso
    simp only [List.cons_append, List.nil_append] at h
    rcases R with _ | ⟨b1, _ | ⟨b2, _ | ⟨b3, _ | ⟨b4, _ | ⟨b5, _ | ⟨b6, _ | ⟨b7, R⟩⟩⟩⟩⟩⟩⟩ <;>
      simp [startsWithDate, hsp, hdot] at h

theorem amountTail_match (c1 c2 : Char) (rest : Str)
    (h1 : isDigit c1 = true) (h2 : isDigit c2 = true) :
    matchNodes [.one (· == ','), .one isDigit, .one isDigit, .opt isWhiteSpace,
        .one isCurrencyMark] (',' :: c1 :: c2 :: ' ' :: '₸' :: rest) =
      some ([[','], [c1], [c2], [' '], ['₸']], rest) := by
  have hsp : isWhiteSpace ' ' = true := by decide
  have hcur : isCurrencyMark '₸' = true := by decide
  have hnil : matchNodes [] rest = some ([], rest) := rfl
  simp [matchNodes_one_cons, matchNodes_opt_cons, h1, h2, hsp, hcur, hnil]

theorem amountNodes_match (sign : Char) (body : Str) (c1 c2 : Char) (rest : Str)
    (hs : isSignClass sign = true)
    (hb : ∀ c ∈ body, isDigit c = true ∨ c = ' ')
    (hl : ∃ c, body.getLast? = some c ∧ isDigit c = true)
    (h1 : isDigit c1 = true) (h2 : isDigit c2 = true) :
    ∃ a2 a3, a2 ++ a3 = body ∧
      matchNodes amountNodes (sign :: (body ++ ',' :: c1 :: c2 :: ' ' :: '₸' :: rest)) =
        some ([[sign], a2, a3, [','], [c1], [c2], [' '], ['₸']], rest) := by
  have htail := amountTail_match c1 c2 rest h1 h2
  have hcomma : ∀ c t, ',' :: c1 :: c2 :: ' ' :: '₸' :: rest = c :: t →
      isDigitOrSpace c = false := by
    intro c t e
    simp only [List.cons.injEq] at e
    rw [← e.1]; decide
  have hp : ∀ c ∈ body, isDigitOrSpace c = true := by
    intro c hc
    rcases hb c hc with h | h
    · simp [isDigitOrSpace, h]
    · subst h; decide
  -- the greedy run over a non-empty text of digits and spaces
  have hplus : ∀ run : Str, run ≠ [] → (∀ c ∈ run, isDigitOrSpace c = true) →
      matchNodes (.plus isDigitOrSpace :: [.one (· == ','), .one isDigit, .one isDigit,
          .opt isWhiteSpace, .one isCurrencyMark])
        (run ++ ',' :: c1 :: c2 :: ' ' :: '₸' :: rest) =
        some ([run, [','], [c1], [c2], [' '], ['₸']], rest) := by
    intro run hne hrun
    cases run with
    | nil => exact absurd rfl hne
    | cons b run =>
      rw [List.cons_append, matchNodes_plus_cons, if_pos (hrun b (List.mem_cons_self _ _)),
        matchGreedy_run isDigitOrSpace _ _ _ hcomma htail run
          (fun c hc => hrun c (List.mem_cons_of_mem _ hc))]
      rfl
  obtain ⟨d, hd, hdd⟩ := hl
  cases body with
  | nil => simp at hd
  | cons b body' =>
    by_cases hbw : isWhiteSpace b = true
    · -- the optional white space takes the first character
      have hne : body' ≠ [] := by
        intro e
        subst e
        simp only [List.getLast?_singleton, Option.some.injEq] at hd
        subst hd
        rw [isDigit_not_ws hdd] at hbw
        exact absurd hbw (by simp)
      have hrun := hplus body' hne (fun c hc => hp c (List.mem_cons_of_mem _ hc))
      refine ⟨[b], body', rfl, ?_⟩
      unfold amountNodes
      rw [matchNodes_opt_cons, if_pos hs, List.cons_append, matchNodes_opt_cons, if_pos hbw,
        hrun]
    · have hbw' : isWhiteSpace b = false := by simpa using hbw
      have hrun := hplus (b :: body') (by simp) hp
      refine ⟨[], b :: body', rfl, ?_⟩
      unfold amountNodes
      rw [matchNodes_opt_cons, if_pos hs, List.cons_append, matchNodes_opt_cons, if_neg hbw]
      rw [List.cons_append] at hrun
      rw [hrun]
      rfl

theorem Line.text_append (l : Line) (rest : Str) :
    l.text ++ rest = l.description ++ l.afterDescription rest := by
  simp [Line.text, Line.dateText, Line.amountText, Line.afterDescription]

theorem Line.afterDescription_length (l : Line) (rest : Str) :
    (l.afterDescription rest).length = l.body.length + 16 + rest.length := by
  simp [Line.afterDescription]
  omega

theorem dateAndAmountNodes_match (l : Line) (hl : l.WellFormed) (rest : Str) :
    ∃ a2 a3, a2 ++ a3 = l.body ∧
      matchNodes dateAndAmountNodes (l.afterDescription rest) =
        some ([[' '], [l.d1], [l.d2], ['.'], [l.m1], [l.m2], ['.'], [l.y1], [l.y2], [' '],
          [if l.negative then '-' else '+'], a2, a3, [','], [l.c1], [l.c2], [' '], ['₸']],
          rest) := by
  obtain ⟨hd1, hd2, hm1, hm2, hy1, hy2⟩ := hl.date_digits
  have hs : isSignClass (if l.negative then '-' else '+') = true := by
    cases l.negative <;> decide
  obtain ⟨a2, a3, hbody, hm⟩ := amountNodes_match (if l.negative then '-' else '+') l.body
    l.c1 l.c2 rest hs hl.body_chars hl.body_ends_with_digit hl.decimals_digits.1
    hl.decimals_digits.2
  refine ⟨a2, a3, hbody, ?_⟩
  have hsp : isWhiteSpace ' ' = true := by decide
  have hdot : ('.' == '.') = true := by decide
  unfold dateAndAmountNodes Line.afterDescription
  simp only [matchNodes_one_cons, hsp, hd1, hd2, hm1, hm2, hy1, hy2, hdot, if_true, hm,
    Option.map_some']

theorem dateAndAmountNodes_fail (l : Line) (desc : Str) (rest : Str)
    (hno : containsDate desc = false) (c : Char) (v : Str) (hv : v <:+ desc) :
    matchNodes dateAndAmountNodes (c :: v ++ l.afterDescription rest) = none := by
  cases h : matchNodes dateAndAmountNodes (c :: v ++ l.afterDescription rest) with
  | none => rfl
  | some r =>
    exfalso
    obtain ⟨w, x, hwx, hdate⟩ := dateAndAmountNodes_some h
    simp only [List.cons_append, List.cons.injEq] at hwx
    rw [← hwx.2] at hdate
    have hv' : startsWithDate v = true := by
      unfold Line.afterDescription at hdate
      exact startsWithDate_of_append_space v _ hdate
    have : containsDate desc = true := by
      unfold containsDate
      rw [List.any_eq_true]
      exact ⟨v, (List.mem_tails v desc).2 hv, hv'⟩
    rw [hno] at this
    exact absurd this (by simp)

theorem matchAt_line (l : Line) (hl : l.WellFormed) (pre rest : Str)
    (hpre : pre = l.description ∨ pre = ' ' :: l.description) :
    matchAt (pre ++ l.afterDescription rest) =
      some { group1 := pre, group2 := l.dateText, group3 := l.amountText,
             length := pre.length + (l.body.length + 16) } := by
  obtain ⟨a2, a3, hbody, hm⟩ := dateAndAmountNodes_match l hl rest
  have hdot : ∀ c ∈ pre, (!isLineTerminator c) = true := by
    intro c hc
    rcases hpre with e | e
    · rw [e] at hc
      exact not_lineTerminator_of_single_spaced _ hl.desc_single_spaced c hc
    · rw [e] at hc
      rcases List.mem_cons.1 hc with h | h
      · rw [h]; decide
      · exact not_lineTerminator_of_single_spaced _ hl.desc_single_spaced c h
  have hfail : ∀ u v, pre = u ++ v → v ≠ [] →
      matchNodes dateAndAmountNodes (v ++ l.afterDescription rest) = none := by
    intro u v huv hv
    cases v with
    | nil => exact absurd rfl hv
    | cons c v' =>
      apply dateAndAmountNodes_fail l l.description rest hl.desc_no_date c v'
      rcases hpre with e | e
      · exact ⟨u ++ [c], by rw [← e, huv]; simp⟩
      · cases u with
        | nil =>
          simp only [List.nil_append] at huv
          rw [e] at huv
          simp only [List.cons.injEq] at huv
          rw [huv.2]
        | cons x u' =>
          rw [e] at huv
          simp only [List.cons_append, List.cons.injEq] at huv
          exact ⟨u' ++ [c], by rw [huv.2]; simp⟩
  have hlazy := matchLazy_skip (fun c => !isLineTerminator c) (matchNodes dateAndAmountNodes)
    (l.afterDescription rest) _ hm pre hdot hfail
  unfold matchAt transactionRegex
  rw [matchNodes_lazyStar, hlazy]
  simp only [Option.map_some']
  have hlen : (pre ++ l.afterDescription rest).length - rest.length =
      pre.length + (l.body.length + 16) := by
    rw [List.length_append, Line.afterDescription_length]
    omega
  rw [hlen]
  simp only [Line.dateText, Line.amountText, RegexMatch.mk.injEq, Option.some.injEq,
    List.cons_append, List.nil_append, List.singleton_append, true_and, and_true]
  rw [← hbody]
  simp

theorem lastIndexOfFrom_none (c : Char) : ∀ (s : Str) (i : Nat), c ∉ s →
    lastIndexOfFrom c i s = none := by
  intro s
  induction s with
  | nil => intro i _; rfl
  | cons x t ih =>
    intro i h
    have hx : x ≠ c := fun e => h (e ▸ List.mem_cons_self _ _)
    have ht : c ∉ t := fun hm => h (List.mem_cons_of_mem _ hm)
    simp [lastIndexOfFrom, ih (i + 1) ht, hx]

theorem cleanDescription_of_no_mark (s : Str) (h : '₸' ∉ s) : cleanDescription s = s := by
  unfold cleanDescription lastIndexOf
  rw [lastIndexOfFrom_none _ _ _ h]

theorem trim_space_cons (s : Str) : trim (' ' :: s) = trim s := by
  have hsp : isWhiteSpace ' ' = true := by decide
  simp [trim, trimStart, List.dropWhile, hsp]

theorem formattedDate_dateText (l : Line) (hl : l.WellFormed) :
    formattedDate l.dateText = ['2', '0', l.y1, l.y2, '-', l.m1, l.m2, '-', l.d1, l.d2] := by
  obtain ⟨hd1, hd2, hm1, hm2, hy1, hy2⟩ := hl.date_digits
  have hdot : isDigit '.' = false := by decide
  have e1 := isDigit_ne hd1 hdot
  have e2 := isDigit_ne hd2 hdot
  have e3 := isDigit_ne hm1 hdot
  have e4 := isDigit_ne hm2 hdot
  have e5 := isDigit_ne hy1 hdot
  have e6 := isDigit_ne hy2 hdot
  simp [formattedDate, Line.dateText, split, e1, e2, e3, e4, e5, e6]

theorem signed_value_facts (neg : Bool) (N : Nat) (hN : N ≠ 0) :
    |(if [if neg then '-' else '+'] = ['-'] ∨ [if neg then '-' else '+'] = ['−'] then (-1 : ℚ)
        else 1) * (N : ℚ) / 100| = (N : ℚ) / 100 ∧
    ((if (0 : ℚ) < (if [if neg then '-' else '+'] = ['-'] ∨
        [if neg then '-' else '+'] = ['−'] then (-1 : ℚ) else 1) * (N : ℚ) / 100
      then TxnType.income else TxnType.expense) =
      if neg then TxnType.expense else TxnType.income) := by
  have hpos : (0 : ℚ) < (N : ℚ) / 100 := by
    have : (0 : ℚ) < (N : ℚ) := by exact_mod_cast Nat.pos_of_ne_zero hN
    positivity
  cases neg
  · have e : (if [if false = true then '-' else '+'] = ['-'] ∨
        [if false = true then '-' else '+'] = ['−'] then (-1 : ℚ) else 1) = 1 :=
      if_neg (by decide)
    rw [e, one_mul, abs_of_pos hpos, if_pos hpos]
    exact ⟨rfl, rfl⟩
  · have e : (if [if true = true then '-' else '+'] = ['-'] ∨
        [if true = true then '-' else '+'] = ['−'] then (-1 : ℚ) else 1) = -1 :=
      if_pos (Or.inl rfl)
    have hneg : (-1 : ℚ) * (N : ℚ) / 100 < 0 := by linarith
    have hnot : ¬ (0 : ℚ) < (-1 : ℚ) * (N : ℚ) / 100 := not_lt.2 hneg.le
    rw [e, abs_of_neg hneg, if_neg hnot]
    refine ⟨by ring, rfl⟩

theorem processMatch_line (l : Line) (hl : l.WellFormed) (pre : Str) (n : Nat)
    (hpre : pre = l.description ∨ pre = ' ' :: l.description) :
    processMatch { group1 := pre, group2 := l.dateText, group3 := l.amountText, length := n } =
      some l.transaction := by
  have htrim : trim pre = l.description := by
    rcases hpre with e | e
    · rw [e, hl.desc_trimmed]
    · rw [e, trim_space_cons, hl.desc_trimmed]
  have hbody : ∀ c ∈ l.body, isDigit c = true ∨ isWhiteSpace c = true := by
    intro c hc
    rcases hl.body_chars c hc with h | h
    · exact Or.inl h
    · right; rw [h]; decide
  have hamt : l.amountText = [if l.negative then '-' else '+'] ++ l.body ++ [',', l.c1, l.c2] := by
    simp [Line.amountText]
  have hsign : [if l.negative then '-' else '+'] = [] ∨
      [if l.negative then '-' else '+'] = ['+'] ∨
      [if l.negative then '-' else '+'] = ['-'] ∨
      [if l.negative then '-' else '+'] = ['−'] := by
    cases l.negative <;> simp
  have hv := parseFloat_amount _ l.body l.c1 l.c2 hsign hbody hl.decimals_digits.1
    hl.decimals_digits.2
  rw [← hamt] at hv
  have hpm := processMatch_of_number
    { group1 := pre, group2 := l.dateText, group3 := l.amountText, length := n } _
    (by simp only [htrim]; exact hl.desc_no_balance)
    (by simp only [htrim]; exact hl.desc_no_total) hv
    (amount_in_range _ (by cases l.negative <;> simp) _)
  have hne : l.description.isEmpty = false := by
    cases hdesc : l.description with
    | nil => exact absurd hdesc hl.desc_nonempty
    | cons c t => rfl
  obtain ⟨habs, htype⟩ := signed_value_facts l.negative _ hl.value_nonzero
  rw [hpm]
  unfold Line.transaction Line.writtenAmount
  simp only [htrim, cleanDescription_of_no_mark _ hl.desc_no_mark,
    formattedDate_dateText l hl, habs, htype, hne, Bool.false_eq_true, if_false]

theorem Line.afterDescription_append (l : Line) (rest : Str) :
    l.afterDescription rest = l.afterDescription [] ++ rest := by
  simp [Line.afterDescription]

theorem matchLoop_line (l : Line) (hl : l.WellFormed) (pre rest : Str)
    (hpre : pre = l.description ∨ pre = ' ' :: l.description) :
    matchLoop (pre ++ l.afterDescription rest) 0 = l.transaction :: matchLoop rest 0 := by
  have hm := matchAt_line l hl pre rest hpre
  obtain ⟨c, t, hct⟩ : ∃ c t, pre = c :: t := by
    rcases hpre with e | e
    · cases hd : l.description with
      | nil => exact absurd hd hl.desc_nonempty
      | cons c t => exact ⟨c, t, by rw [e, hd]⟩
    · exact ⟨' ', l.description, e⟩
  have hsplit : pre ++ l.afterDescription rest = c :: ((t ++ l.afterDescription []) ++ rest) := by
    rw [hct, l.afterDescription_append rest]
    simp
  have hlen : pre.length + (l.body.length + 16) - 1 = (t ++ l.afterDescription []).length := by
    rw [hct, List.length_append, Line.afterDescription_length]
    simp
    omega
  rw [hsplit] at hm ⊢
  rw [matchLoop_zero, hm]
  simp only
  rw [processMatch_line l hl pre _ hpre, hlen, matchLoop_skip_append]
  rfl

theorem statementText_singleton (l : Line) : statementText [l] = l.text := by
  simp [statementText, List.intercalate]

theorem statementText_cons_cons (l l' : Line) (ls : List Line) :
    statementText (l :: l' :: ls) = l.text ++ ' ' :: statementText (l' :: ls) := by
  simp [statementText, List.intercalate]

theorem matchLoop_statementText (ls : List Line) :
    ∀ l : Line, (∀ x ∈ l :: ls, x.WellFormed) →
      matchLoop (statementText (l :: ls)) 0 = (l :: ls).map Line.transaction ∧
      matchLoop (' ' :: statementText (l :: ls)) 0 = (l :: ls).map Line.transaction := by
  induction ls with
  | nil =>
    intro l h
    have hl := h l (List.mem_cons_self _ _)
    have e : l.text = l.description ++ l.afterDescription [] := by
      rw [← Line.text_append, List.append_nil]
    rw [statementText_singleton, e]
    constructor
    · rw [matchLoop_line l hl _ [] (Or.inl rfl)]; rfl
    · rw [← List.cons_append, matchLoop_line l hl _ [] (Or.inr rfl)]; rfl
  | cons l' ls ih =>
    intro l h
    have hl := h l (List.mem_cons_self _ _)
    have ih' := (ih l' (fun x hx => h x (List.mem_cons_of_mem _ hx))).2
    rw [statementText_cons_cons, Line.text_append]
    constructor
    · rw [matchLoop_line l hl _ _ (Or.inl rfl), ih']; rfl
    · rw [← List.cons_append, matchLoop_line l hl _ _ (Or.inr rfl), ih']; rfl

theorem Line.tidy_text (l : Line) (hl : l.WellFormed) : Tidy l.text := by
  obtain ⟨hd1, hd2, hm1, hm2, hy1, hy2⟩ := hl.date_digits
  obtain ⟨hc1, hc2⟩ := hl.decimals_digits
  have hdesc : Tidy l.description :=
    Tidy.of_trimmed _ hl.desc_nonempty hl.desc_trimmed hl.desc_single_spaced
  have hdate : Tidy l.dateText := by
    apply Tidy.of_no_ws _ (by simp [Line.dateText])
    intro c hc
    simp only [Line.dateText, List.mem_cons, List.mem_singleton, List.not_mem_nil,
      or_false] at hc
    rcases hc with h | h | h | h | h | h | h | h <;> subst h <;>
      first | exact isDigit_not_ws (by assumption) | decide
  have hsign : isWhiteSpace (if l.negative then '-' else '+') = false := by
    cases l.negative <;> decide
  have hsb : Tidy ((if l.negative then '-' else '+') :: l.body) := by
    obtain ⟨d, hd, hdd⟩ := hl.body_ends_with_digit
    refine ⟨⟨_, _, rfl, hsign⟩, ⟨d, ?_, isDigit_not_ws hdd⟩, ?_⟩
    · cases hb : l.body with
      | nil => rw [hb] at hd; simp at hd
      | cons b t => rw [List.getLast?_cons_cons, ← hb]; exact hd
    · rw [collapse_cons_not_ws _ _ _ hsign, hl.body_single_spaced]
  have hdec : Tidy [',', l.c1, l.c2] := by
    apply Tidy.of_no_ws _ (by simp)
    intro c hc
    simp only [List.mem_cons, List.mem_singleton, List.not_mem_nil, or_false] at hc
    rcases hc with h | h | h <;> subst h <;>
      first | exact isDigit_not_ws (by assumption) | decide
  have hamt : Tidy l.amountText := by
    have := Tidy.append hsb hdec
    simpa [Line.amountText] using this
  have hmark : Tidy ['₸'] := Tidy.of_no_ws _ (by simp) (by
    intro c hc
    simp only [List.mem_singleton] at hc
    subst hc; decide)
  have := Tidy.join hdesc (Tidy.join hdate (Tidy.join hamt hmark))
  simpa [Line.text] using this

theorem tidy_statementText (ls : List Line) :
    ∀ l : Line, (∀ x ∈ l :: ls, x.WellFormed) → Tidy (statementText (l :: ls)) := by
  induction ls with
  | nil =>
    intro l h
    rw [statementText_singleton]
    exact l.tidy_text (h l (List.mem_cons_self _ _))
  | cons l' ls ih =>
    intro l h
    rw [statementText_cons_cons]
    exact Tidy.join (l.tidy_text (h l (List.mem_cons_self _ _)))
      (ih l' (fun x hx => h x (List.mem_cons_of_mem _ hx)))

theorem matchNodes_one_inv {p : Char → Bool} {ns : List Node} {s : Str}
    {r : List Str × Str} (h : matchNodes (.one p :: ns) s = some r) :
    ∃ c t r', s = c :: t ∧ p c = true ∧ matchNodes ns t = some r' ∧ r = ([c] :: r'.1, r'.2) := by
  cases s with
  | nil => rw [matchNodes_one_nil] at h; exact absurd h (by simp)
  | cons c t =>
    rw [matchNodes_one_cons] at h
    by_cases hp : p c = true
    · rw [if_pos hp] at h
      cases hm : matchNodes ns t with
      | none => rw [hm] at h; exact absurd h (by simp)
      | some r' =>
        rw [hm] at h
        simp only [Option.map_some', Option.some.injEq] at h
        exact ⟨c, t, r', rfl, hp, hm, h.symm⟩
    · rw [if_neg hp] at h; exact absurd h (by simp)

theorem matchLazy_inv {R : Type} (p : Char → Bool) (k : Str → Option R) :
    ∀ (s : Str) (x : Str × R), matchLazy p k s = some x →
      ∃ s', s = x.1 ++ s' ∧ k s' = some x.2 := by
  intro s
  induction s with
  | nil =>
    intro x h
    simp only [matchLazy] at h
    cases hk : k [] with
    | none => rw [hk] at h; exact absurd h (by simp)
    | some r =>
      rw [hk] at h
      simp only [Option.map_some', Option.some.injEq] at h
      subst h
      exact ⟨[], rfl, hk⟩
  | cons c t ih =>
    intro x h
    simp only [matchLazy] at h
    cases hk : k (c :: t) with
    | some r =>
      rw [hk] at h
      simp only [Option.some.injEq] at h
      subst h
      exact ⟨c :: t, rfl, hk⟩
    | none =>
      rw [hk] at h
      simp only at h
      by_cases hp : p c = true
      · rw [if_pos hp] at h
        cases hm : matchLazy p k t with
        | none => rw [hm] at h; exact absurd h (by simp)
        | some y =>
          rw [hm] at h
          simp only [Option.map_some', Option.some.injEq] at h
          subst h
          obtain ⟨s', hs', hk'⟩ := ih y hm
          exact ⟨s', by simp [hs'], hk'⟩
      · rw [if_neg hp] at h; exact absurd h (by simp)

theorem matchGreedy_inv {R : Type} (p : Char → Bool) (k : Str → Option R) :
    ∀ (s : Str) (x : Str × R), matchGreedy p k s = some x →
      ∃ s', s = x.1 ++ s' ∧ k s' = some x.2 := by
  intro s
  induction s with
  | nil =>
    intro x h
    simp only [matchGreedy] at h
    cases hk : k [] with
    | none => rw [hk] at h; exact absurd h (by simp)
    | some r =>
      rw [hk] at h
      simp only [Option.map_some', Option.some.injEq] at h
      subst h
      exact ⟨[], rfl, hk⟩
  | cons c t ih =>
    intro x h
    have hstop : (k (c :: t)).map (fun r => (([] : Str), r)) = some x →
        ∃ s', c :: t = x.1 ++ s' ∧ k s' = some x.2 := by
      intro h'
      cases hk : k (c :: t) with
      | none => rw [hk] at h'; exact absurd h' (by simp)
      | some r =>
        rw [hk] at h'
        simp only [Option.map_some', Option.some.injEq] at h'
        subst h'
        exact ⟨c :: t, rfl, hk⟩
    simp only [matchGreedy] at h
    by_cases hp : p c = true
    · rw [if_pos hp] at h
      cases hm : matchGreedy p k t with
      | some y =>
        rw [hm] at h
        simp only [Option.some.injEq] at h
        subst h
        obtain ⟨s', hs', hk'⟩ := ih y hm
        exact ⟨s', by simp [hs'], hk'⟩
      | none =>
        rw [hm] at h
        exact hstop h
    · rw [if_neg hp] at h
      exact hstop h

theorem matchNodes_length : ∀ (ns : List Node) (s : Str) (r : List Str × Str),
    matchNodes ns s = some r → r.1.length = ns.length := by
  intro ns
  induction ns with
  | nil =>
    intro s r h
    simp only [matchNodes, Option.some.injEq] at h
    subst h; rfl
  | cons n ns ih =>
    intro s r h
    have hcons : ∀ (seg : Str) (r' : List Str × Str) (u : Str),
        matchNodes ns u = some r' → r = (seg :: r'.1, r'.2) → r.1.length = (n :: ns).length := by
      intro seg r' u hu hr
      rw [hr]
      simp [ih u r' hu]
    have hmap : ∀ (seg : Str) (u : Str),
        (matchNodes ns u).map (fun r => (seg :: r.1, r.2)) = some r →
        r.1.length = (n :: ns).length := by
      intro seg u h'
      cases hu : matchNodes ns u with
      | none => rw [hu] at h'; exact absurd h' (by simp)
      | some r' =>
        rw [hu] at h'
        simp only [Option.map_some', Option.some.injEq] at h'
        exact hcons seg r' u hu h'.symm
    cases n with
    | one p =>
      obtain ⟨c, t, r', _, _, hr', hr⟩ := matchNodes_one_inv h
      exact hcons _ r' t hr' hr
    | opt p =>
      cases s with
      | nil => exact hmap [] [] h
      | cons c t =>
        rw [matchNodes_opt_cons] at h
        by_cases hp : p c = true
        · rw [if_pos hp] at h
          cases hm : matchNodes ns t with
          | some r' =>
            rw [hm] at h
            simp only [Option.some.injEq] at h
            exact hcons _ r' t hm h.symm
          | none =>
            rw [hm] at h
            exact hmap [] (c :: t) h
        · rw [if_neg hp] at h
          exact hmap [] (c :: t) h
    | lazyStar p =>
      rw [matchNodes_lazyStar] at h
      cases hm : matchLazy p (matchNodes ns) s with
      | none => rw [hm] at h; exact absurd h (by simp)
      | some x =>
        rw [hm] at h
        simp only [Option.map_some', Option.some.injEq] at h
        obtain ⟨s', _, hk⟩ := matchLazy_inv p _ s x hm
        exact hcons _ x.2 s' hk h.symm
    | plus p =>
      cases s with
      | nil => exact absurd h (by simp [matchNodes])
      | cons c t =>
        rw [matchNodes_plus_cons] at h
        by_cases hp : p c = true
        · rw [if_pos hp] at h
          cases hm : matchGreedy p (matchNodes ns) t with
          | none => rw [hm] at h; exact absurd h (by simp)
          | some x =>
            rw [hm] at h
            simp only [Option.map_some', Option.some.injEq] at h
            obtain ⟨s', _, hk⟩ := matchGreedy_inv p _ t x hm
            exact hcons _ x.2 s' hk h.symm
        · rw [if_neg hp] at h; exact absurd h (by simp)

theorem matchAt_inv (s : Str) (m : RegexMatch) (h : matchAt s = some m) :
    ∃ (w d1 d2 m1 m2 y1 y2 sp : Char) (u : Str),
      s = m.group1 ++ w :: (m.group2 ++ sp :: u) ∧
      isWhiteSpace w = true ∧ isWhiteSpace sp = true ∧
      isDigit d1 = true ∧ isDigit d2 = true ∧ isDigit m1 = true ∧ isDigit m2 = true ∧
      isDigit y1 = true ∧ isDigit y2 = true ∧
      m.group2 = [d1, d2, '.', m1, m2, '.', y1, y2] := by
  unfold matchAt transactionRegex at h
  rw [matchNodes_lazyStar] at h
  cases hl : matchLazy (fun c => !isLineTerminator c) (matchNodes dateAndAmountNodes) s with
  | none => rw [hl] at h; exact absurd h (by simp)
  | some x =>
    rw [hl] at h
    obtain ⟨s', hs', hk⟩ := matchLazy_inv _ _ s x hl
    unfold dateAndAmountNodes at hk
    obtain ⟨w, t0, r0, rfl, hw, h0, e0⟩ := matchNodes_one_inv hk
    obtain ⟨d1, t1, r1, rfl, hd1, h1, e1⟩ := matchNodes_one_inv h0
    obtain ⟨d2, t2, r2, rfl, hd2, h2, e2⟩ := matchNodes_one_inv h1
    obtain ⟨p1, t3, r3, rfl, hp1, h3, e3⟩ := matchNodes_one_inv h2
    obtain ⟨m1, t4, r4, rfl, hm1, h4, e4⟩ := matchNodes_one_inv h3
    obtain ⟨m2, t5, r5, rfl, hm2, h5, e5⟩ := matchNodes_one_inv h4
    obtain ⟨p2, t6, r6, rfl, hp2, h6, e6⟩ := matchNodes_one_inv h5
    obtain ⟨y1, t7, r7, rfl, hy1, h7, e7⟩ := matchNodes_one_inv h6
    obtain ⟨y2, t8, r8, rfl, hy2, h8, e8⟩ := matchNodes_one_inv h7
    obtain ⟨sp, t9, r9, rfl, hsp, h9, e9⟩ := matchNodes_one_inv h8
    have hlen := matchNodes_length _ _ _ h9
    obtain ⟨segs, rest⟩ := r9
    simp only [amountNodes, List.length_cons, List.length_nil] at hlen
    rcases segs with _ | ⟨a1, _ | ⟨a2, _ | ⟨a3, _ | ⟨a4, _ | ⟨a5, _ | ⟨a6, _ | ⟨a7, _ | ⟨a8, _ | ⟨a9, segs⟩⟩⟩⟩⟩⟩⟩⟩⟩ <;>
      simp only [List.length_cons, List.length_nil] at hlen <;> try omega
    have hp1' : p1 = '.' := by simpa using hp1
    have hp2' : p2 = '.' := by simpa using hp2
    subst hp1' hp2'
    obtain ⟨g1, x2⟩ := x
    simp only at e0 hs' h
    subst e9
    subst e8
    subst e7
    subst e6
    subst e5
    subst e4
    subst e3
    subst e2
    subst e1
    subst e0
    simp only [Option.map_some', Option.some.injEq] at h
    subst h
    refine ⟨w, d1, d2, m1, m2, y1, y2, sp, t9, ?_, hw, hsp, hd1, hd2, hm1, hm2, hy1, hy2, ?_⟩
    · simp [hs']
    · simp

theorem forall_mem_matchLoop_of_match (P : Transaction → Prop)
    (h : ∀ s m t, matchAt s = some m → processMatch m = some t → P t) :
    ∀ (s : Str) (skip : Nat), ∀ t ∈ matchLoop s skip, P t := by
  intro s
  induction s with
  | nil => intro skip t ht; rw [matchLoop_nil] at ht; simp at ht
  | cons c rest ih =>
    intro skip t ht
    cases skip with
    | succ n => rw [matchLoop_skip] at ht; exact ih n t ht
    | zero =>
      rw [matchLoop_zero] at ht
      cases hm : matchAt (c :: rest) with
      | none => rw [hm] at ht; exact ih 0 t ht
      | some m =>
        rw [hm] at ht
        rcases List.mem_append.1 ht with h1 | h2
        · exact h _ m t hm (by simpa [Option.mem_toList] using h1)
        · exact ih _ t h2

theorem formattedDate_digits (d1 d2 m1 m2 y1 y2 : Char)
    (hd1 : isDigit d1 = true) (hd2 : isDigit d2 = true) (hm1 : isDigit m1 = true)
    (hm2 : isDigit m2 = true) (hy1 : isDigit y1 = true) (hy2 : isDigit y2 = true) :
    formattedDate [d1, d2, '.', m1, m2, '.', y1, y2] =
      ['2', '0', y1, y2, '-', m1, m2, '-', d1, d2] := by
  have hdot : isDigit '.' = false := by decide
  have e1 := isDigit_ne hd1 hdot
  have e2 := isDigit_ne hd2 hdot
  have e3 := isDigit_ne hm1 hdot
  have e4 := isDigit_ne hm2 hdot
  have e5 := isDigit_ne hy1 hdot
  have e6 := isDigit_ne hy2 hdot
  simp [formattedDate, split, e1, e2, e3, e4, e5, e6]

theorem processMatch_date (m : RegexMatch) (t : Transaction)
    (h : processMatch m = some t) : t.date = formattedDate m.group2 := by
  unfold processMatch at h
  simp only at h
  split at h
  · exact absurd h (by simp)
  · split at h
    · exact absurd h (by simp)
    · simp only [Option.some.injEq] at h
      rw [← h]

theorem emitted_date_shape (s : Str) (m : RegexMatch) (t : Transaction)
    (hm : matchAt s = some m) (ht : processMatch m = some t) :
    ∃ d1 d2 m1 m2 y1 y2 : Char,
      (isDigit d1 = true ∧ isDigit d2 = true ∧ isDigit m1 = true ∧ isDigit m2 = true ∧
        isDigit y1 = true ∧ isDigit y2 = true) ∧
      m.group2 = [d1, d2, '.', m1, m2, '.', y1, y2] ∧
      t.date = ['2', '0', y1, y2, '-', m1, m2, '-', d1, d2] := by
  obtain ⟨w, d1, d2, m1, m2, y1, y2, sp, u, _, _, _, hd1, hd2, hm1, hm2, hy1, hy2, hg⟩ :=
    matchAt_inv s m hm
  refine ⟨d1, d2, m1, m2, y1, y2, ⟨hd1, hd2, hm1, hm2, hy1, hy2⟩, hg, ?_⟩
  rw [processMatch_date m t ht, hg]
  exact formattedDate_digits d1 d2 m1 m2 y1 y2 hd1 hd2 hm1 hm2 hy1 hy2

theorem processMatch_eq_none_iff (m : RegexMatch) :
    processMatch m = none ↔
      includes (trim m.group1) "Остаток".toList = true ∨
      includes (trim m.group1) "Всего".toList = true ∨
      isNaN (parseFloat (normalizedAmountStr m.group3)) = true := by
  unfold processMatch
  simp only
  cases hO : includes (trim m.group1) "Остаток".toList <;>
    cases hV : includes (trim m.group1) "Всего".toList <;>
    cases hN : isNaN (parseFloat (normalizedAmountStr m.group3)) <;> simp

theorem processMatch_description (m : RegexMatch) (t : Transaction)
    (h : processMatch m = some t) :
    t.description =
      if (cleanDescription (trim m.group1)).isEmpty then placeholderDescription
      else cleanDescription (trim m.group1) := by
  unfold processMatch at h
  simp only at h
  split at h
  · exact absurd h (by simp)
  · split at h
    · exact absurd h (by simp)
    · simp only [Option.some.injEq] at h
      rw [← h]
      rfl

theorem processMatch_category (m : RegexMatch) (t : Transaction)
    (h : processMatch m = some t) :
    t.category = categorize (cleanDescription (trim m.group1)) t.type := by
  unfold processMatch at h
  simp only at h
  split at h
  · exact absurd h (by simp)
  · split at h
    · exact absurd h (by simp)
    · simp only [Option.some.injEq] at h
      rw [← h]

theorem matchLoop_of_skipped (c : Char) (t : Str) (m : RegexMatch)
    (hm : matchAt (c :: t) = some m) (hp : processMatch m = none) :
    matchLoop (c :: t) 0 = matchLoop t (m.length - 1) := by
  rw [matchLoop_zero, hm]
  simp only [hp, Option.toList, List.nil_append]

theorem matchLoop_of_emitted (c : Char) (t : Str) (m : RegexMatch) (x : Transaction)
    (hm : matchAt (c :: t) = some m) (hp : processMatch m = some x) :
    matchLoop (c :: t) 0 = x :: matchLoop t (m.length - 1) := by
  rw [matchLoop_zero, hm]
  simp only [hp, Option.toList, List.singleton_append]

theorem parseKaspiPDF_error_iff (fullText : Str) :
    (∃ e, parseKaspiPDF fullText = .error e) ↔ transactions fullText = [] := by
  unfold parseKaspiPDF
  constructor
  · rintro ⟨e, h⟩
    split at h
    · rename_i hl; exact List.length_eq_zero.1 hl
    · exact absurd h (by simp)
  · intro h
    rw [h]
    exact ⟨_, rfl⟩

theorem lastIndexOfFrom_append (c : Char) (post : Str) (hpost : c ∉ post) :
    ∀ (pre : Str) (i : Nat),
      lastIndexOfFrom c i (pre ++ c :: post) = some (i + pre.length) := by
  intro pre
  induction pre with
  | nil =>
    intro i
    simp [lastIndexOfFrom, lastIndexOfFrom_none c post (i + 1) hpost]
  | cons x pre ih =>
    intro i
    rw [List.cons_append, lastIndexOfFrom, ih (i + 1)]
    simp only [List.length_cons, Option.some.injEq]
    omega

theorem exists_last_occurrence (c : Char) : ∀ s : Str, c ∈ s →
    ∃ pre post, s = pre ++ c :: post ∧ c ∉ post := by
  intro s
  induction s with
  | nil => intro h; simp at h
  | cons x t ih =>
    intro h
    by_cases ht : c ∈ t
    · obtain ⟨pre, post, e, hp⟩ := ih ht
      exact ⟨x :: pre, post, by rw [e]; rfl, hp⟩
    · rcases List.mem_cons.1 h with e | e
      · exact ⟨[], t, by rw [e]; rfl, ht⟩
      · exact absurd e ht

theorem cleanDescription_of_split (pre post : Str) (hpost : '₸' ∉ post) :
    cleanDescription (pre ++ '₸' :: post) = trim post := by
  unfold cleanDescription lastIndexOf
  rw [lastIndexOfFrom_append '₸' post hpost pre 0]
  simp

theorem trim_eq_of_ends (c : Char) (t : Str) (d : Char) (hc : isWhiteSpace c = false)
    (hd : (c :: t).getLast? = some d) (hdw : isWhiteSpace d = false) :
    trim (c :: t) = c :: t := by
  have h1 : trimStart (c :: t) = c :: t := by simp [trimStart, List.dropWhile, hc]
  unfold trim
  rw [h1]
  unfold trimEnd
  have hr : ∃ u, (c :: t).reverse = d :: u := by
    have : (c :: t).getLast? = (c :: t).reverse.head? := List.getLast?_eq_head?_reverse
    rw [hd] at this
    cases hrev : (c :: t).reverse with
    | nil => rw [hrev] at this; simp at this
    | cons e u => rw [hrev] at this; simp at this; exact ⟨u, by rw [this]⟩
  obtain ⟨u, hu⟩ := hr
  rw [hu]
  simp only [List.dropWhile, hdw]
  rw [← hu, List.reverse_reverse]

theorem trim_ends (s : Str) :
    (∀ c t, trim s = c :: t → isWhiteSpace c = false) ∧
    (∀ d, (trim s).getLast? = some d → isWhiteSpace d = false) := by
  have hpre : trim s <+: trimStart s := by
    unfold trim trimEnd
    have h : (trimStart s).reverse.dropWhile isWhiteSpace <:+ (trimStart s).reverse :=
      List.dropWhile_suffix isWhiteSpace
    have h2 := List.reverse_prefix.2 h
    rwa [List.reverse_reverse] at h2
  constructor
  · intro c t h
    obtain ⟨u, hu⟩ := hpre
    rw [h] at hu
    have h2 := List.head?_dropWhile_not isWhiteSpace s
    unfold trimStart at hu
    rw [← hu] at h2
    simpa using h2
  · intro d h
    unfold trim trimEnd at h
    rw [List.getLast?_reverse] at h
    have h2 := List.head?_dropWhile_not isWhiteSpace (trimStart s).reverse
    rw [h] at h2
    simpa using h2

theorem trim_trim (s : Str) : trim (trim s) = trim s := by
  obtain ⟨hh, hl⟩ := trim_ends s
  cases hz : trim s with
  | nil => rfl
  | cons c t =>
    have hc := hh c t hz
    cases hlast : (c :: t).getLast? with
    | none => simp at hlast
    | some d =>
      have hd := hl d (by rw [hz]; exact hlast)
      exact trim_eq_of_ends c t d hc hlast hd

theorem trim_cleanDescription (raw : Str) :
    trim (cleanDescription (trim raw)) = cleanDescription (trim raw) := by
  unfold cleanDescription
  split
  · exact trim_trim _
  · exact trim_trim _

theorem parseKaspiPDF_ok (fullText : Str) (l : List Transaction)
    (h : transactions fullText = l) (hne : l ≠ []) : parseKaspiPDF fullText = .ok l := by
  unfold parseKaspiPDF
  rw [h]
  have : ¬ l.length = 0 := fun e => hne (List.length_eq_zero.1 e)
  rw [if_neg this]

theorem categorize_eq_categorizeByRules (d : Str) (type : TxnType) :
    categorize d type = categorizeByRules d type := by
  unfold categorize categorizeByRules firstMatchingRule categoryRules fallbackCategory
  dsimp only
  generalize toUpperCase d = u
  simp only [List.find?_cons, List.any_cons, List.any_nil, Bool.or_false, List.find?_nil,
    Bool.or_assoc]
  generalize includes u "MAGNUM".toList = b1
  generalize (includes u "ONAY".toList || (includes u "TAXI".toList ||
    (includes u "UBER".toList || includes u "YANDEX".toList))) = g2
  generalize (includes u "CAFE".toList || (includes u "DONER".toList ||
    (includes u "RESTAURANT".toList || includes u "KFC".toList))) = g3
  generalize (includes u "PHARMACY".toList || includes u "APTEKA".toList) = g4
  generalize (includes u "PEREVOD".toList || includes u "ПЕРЕВОД".toList) = g5
  cases b1 <;> cases g2 <;> cases g3 <;> cases g4 <;> cases g5 <;> cases type <;> rfl
theorem includes_iff_substring (s pat : Str) : includes s pat = true ↔ pat <:+: s := by
  unfold includes
  rw [List.any_eq_true]
  constructor
  · rintro ⟨t, ht, hp⟩
    have h1 : pat <+: t := List.isPrefixOf_iff_prefix.1 hp
    have h2 : t <:+ s := (List.mem_tails t s).1 ht
    exact List.infix_iff_prefix_suffix.2 ⟨t, h1, h2⟩
  · intro h
    obtain ⟨t, h1, h2⟩ := List.infix_iff_prefix_suffix.1 h
    exact ⟨t, (List.mem_tails t s).2 h2, List.isPrefixOf_iff_prefix.2 h1⟩

theorem toUpperCase_append (a b : Str) :
    toUpperCase (a ++ b) = toUpperCase a ++ toUpperCase b := by
  simp [toUpperCase]

theorem categorize_mem_categoryLabels (d : Str) (type : TxnType) :
    categorize d type ∈ categoryLabels := by
  rw [categorize_eq_categorizeByRules]
  unfold categorizeByRules firstMatchingRule categoryRules fallbackCategory
  generalize toUpperCase d = u
  simp only [List.find?_cons, List.any_cons, List.any_nil, Bool.or_false, List.find?_nil]
  generalize includes u "MAGNUM".toList = b1
  generalize (includes u "ONAY".toList || (includes u "TAXI".toList ||
    (includes u "UBER".toList || includes u "YANDEX".toList))) = g2
  generalize (includes u "CAFE".toList || (includes u "DONER".toList ||
    (includes u "RESTAURANT".toList || includes u "KFC".toList))) = g3
  generalize (includes u "PHARMACY".toList || includes u "APTEKA".toList) = g4
  generalize (includes u "PEREVOD".toList || includes u "ПЕРЕВОД".toList) = g5
  cases b1 <;> cases g2 <;> cases g3 <;> cases g4 <;> cases g5 <;> cases type <;> decide

theorem firstMatchingRule_eq_none (u : Str)
    (h : ∀ rule ∈ categoryRules, ∀ keyword ∈ rule.1, includes u keyword = false) :
    firstMatchingRule u = none := by
  unfold firstMatchingRule
  rw [Option.map_eq_none', List.find?_eq_none]
  intro rule hr
  rw [Bool.not_eq_true, List.any_eq_false]
  intro keyword hk
  rw [h rule hr keyword hk]
  simp

theorem handleBulkImport_resolved (numStr : JSNum → Str) (timeValue : Str → Option Int)
    (supabase : Supabase) (userId : Str) (batch : List Transaction) :
    (handleBulkImport numStr timeValue supabase userId batch).1 = .resolved := by
  unfold handleBulkImport
  by_cases hlen : batch.length = 0
  · rw [if_pos hlen]
  · rw [if_neg hlen]
    have hne : batch ≠ [] := fun e => hlen (by rw [e]; rfl)
    have hs := sortedDates_ne_nil timeValue batch hne
    obtain ⟨first, hfirst⟩ : ∃ first, (sortedDates timeValue batch).head? = some first := by
      cases h : sortedDates timeValue batch with
      | nil => exact absurd h hs
      | cons a l => exact ⟨a, rfl⟩
    obtain ⟨last, hlast⟩ : ∃ last, (sortedDates timeValue batch).getLast? = some last := by
      cases h : (sortedDates timeValue batch).getLast? with
      | none => exact absurd (List.getLast?_eq_none_iff.1 h) hs
      | some a => exact ⟨a, rfl⟩
    simp only [hfirst, hlast]
    cases supabase.select userId first.date last.date with
    | error e => rfl
    | ok existing =>
      simp only
      split
      · rfl
      · split <;> rfl

theorem handleBulkImport_query_error (numStr : JSNum → Str) (timeValue : Str → Option Int)
    (supabase : Supabase) (userId : Str) (batch : List Transaction) (hne : batch ≠ [])
    (e : StoreError) (herr : ∀ lo hi, supabase.select userId lo hi = .error e) :
    ∃ lo hi, handleBulkImport numStr timeValue supabase userId batch =
      (.resolved, [.select userId lo hi, .consoleError e]) := by
  have hlen : ¬ batch.length = 0 := fun h => hne (List.length_eq_zero.1 h)
  have hs := sortedDates_ne_nil timeValue batch hne
  obtain ⟨first, hfirst⟩ : ∃ first, (sortedDates timeValue batch).head? = some first := by
    cases h : sortedDates timeValue batch with
    | nil => exact absurd h hs
    | cons a l => exact ⟨a, rfl⟩
  obtain ⟨last, hlast⟩ : ∃ last, (sortedDates timeValue batch).getLast? = some last := by
    cases h : (sortedDates timeValue batch).getLast? with
    | none => exact absurd (List.getLast?_eq_none_iff.1 h) hs
    | some a => exact ⟨a, rfl⟩
  refine ⟨first.date, last.date, ?_⟩
  unfold handleBulkImport
  rw [if_neg hlen]
  simp only [hfirst, hlast, herr]

theorem parseKaspiPDF_ok_ne_nil (fullText : Str) (l : List Transaction)
    (h : parseKaspiPDF fullText = .ok l) : l ≠ [] := by
  unfold parseKaspiPDF at h
  split at h
  · exact absurd h (by simp)
  · rename_i hl
    simp only [Except.ok.injEq] at h
    rw [← h]
    intro e
    exact hl (by rw [e]; rfl)

theorem parseKaspiPDF_of_nil (fullText : Str) (h : transactions fullText = []) :
    parseKaspiPDF fullText =
      .error "Could not recognize transactions. PDF format might have changed.".toList := by
  unfold parseKaspiPDF
  rw [h]
  rfl

theorem handleBulkImport_of_ne_nil (numStr : JSNum → Str) (timeValue : Str → Option Int)
    (supabase : Supabase) (userId : Str) (batch : List Transaction) (hne : batch ≠ []) :
    ∃ first last, (sortedDates timeValue batch).head? = some first ∧
      (sortedDates timeValue batch).getLast? = some last ∧
      handleBulkImport numStr timeValue supabase userId batch =
        match supabase.select userId first.date last.date with
        | .error e => (.resolved, [.select userId first.date last.date, .consoleError e])
        | .ok existing =>
          if (transactionsToAdd numStr existing batch).length = 0 then
            (.resolved, [.select userId first.date last.date, .alertNoNew])
          else
            match supabase.insert
              (transactionsData userId (transactionsToAdd numStr existing batch)) with
            | none =>
              (.resolved, [.select userId first.date last.date,
                .insert (transactionsData userId (transactionsToAdd numStr existing batch)),
                .fetchTransactions,
                .alertAdded (transactionsToAdd numStr existing batch).length])
            | some insertError =>
              (.resolved, [.select userId first.date last.date,
                .insert (transactionsData userId (transactionsToAdd numStr existing batch)),
                .consoleError insertError]) := by
  have hlen : ¬ batch.length = 0 := fun h => hne (List.length_eq_zero.1 h)
  have hs := sortedDates_ne_nil timeValue batch hne
  obtain ⟨first, hfirst⟩ : ∃ first, (sortedDates timeValue batch).head? = some first := by
    cases h : sortedDates timeValue batch with
    | nil => exact absurd h hs
    | cons a l => exact ⟨a, rfl⟩
  obtain ⟨last, hlast⟩ : ∃ last, (sortedDates timeValue batch).getLast? = some last := by
    cases h : (sortedDates timeValue batch).getLast? with
    | none => exact absurd (List.getLast?_eq_none_iff.1 h) hs
    | some a => exact ⟨a, rfl⟩
  refine ⟨first, last, hfirst, hlast, ?_⟩
  unfold handleBulkImport
  rw [if_neg hlen]
  simp only [hfirst, hlast]

theorem keptPositions_fst (numStr : JSNum → Str) (existing batch : List Transaction) :
    (keptPositions numStr existing batch).map Prod.fst =
      ((batch.map (key numStr)).enum.filter fun p =>
        decide ((existing.map (key numStr)).count p.2 ≤
          ((batch.map (key numStr)).take p.1).count p.2)).map Prod.fst := by
  unfold keptPositions keyCount
  rw [List.enum_map, List.filter_map, List.map_map]
  have hfun : (Prod.fst ∘ Prod.map id (key numStr) : Nat × Transaction → Nat) = Prod.fst := by
    funext p; rfl
  rw [hfun]
  congr 1
  apply List.filter_congr
  intro p _
  simp [Function.comp, List.map_take]

theorem key_eq_of_sameIdentityFields (numStr : JSNum → Str) (a b : Transaction)
    (h : sameIdentityFields a b) : key numStr a = key numStr b := by
  obtain ⟨h1, h2, h3⟩ := h
  unfold key
  rw [h1, h2, h3]

theorem map_key_eq_of_forall₂ (numStr : JSNum → Str) (l l' : List Transaction)
    (h : List.Forall₂ sameIdentityFields l l') :
    l.map (key numStr) = l'.map (key numStr) := by
  induction h with
  | nil => rfl
  | cons hab _ ih =>
    rw [List.map_cons, List.map_cons, ih, key_eq_of_sameIdentityFields numStr _ _ hab]

theorem insertSorted_perm (le : Transaction → Transaction → Bool) (a : Transaction) :
    ∀ l : List Transaction, (insertSorted le a l).Perm (a :: l) := by
  intro l
  induction l with
  | nil => exact List.Perm.refl _
  | cons b l ih =>
    unfold insertSorted
    split
    · exact List.Perm.refl _
    · exact ((List.Perm.cons b ih).trans (List.Perm.swap a b l))

theorem sortedDates_perm (timeValue : Str → Option Int) :
    ∀ l : List Transaction, (sortedDates timeValue l).Perm l := by
  intro l
  induction l with
  | nil => exact List.Perm.refl _
  | cons a l ih =>
    unfold sortedDates
    rw [List.foldr_cons]
    exact (insertSorted_perm _ a _).trans (List.Perm.cons a ih)

theorem insertSorted_pairwise (le : Transaction → Transaction → Bool)
    (f : Transaction → Nat) (a : Transaction) :
    ∀ l : List Transaction,
      (∀ x ∈ a :: l, ∀ y ∈ a :: l, le x y = decide (f x ≤ f y)) →
      l.Pairwise (fun x y => f x ≤ f y) →
      (insertSorted le a l).Pairwise (fun x y => f x ≤ f y) := by
  intro l
  induction l with
  | nil => intro _ _; simp [insertSorted]
  | cons b l ih =>
    intro hle hp
    have hab := hle a (List.mem_cons_self _ _) b
      (List.mem_cons_of_mem _ (List.mem_cons_self _ _))
    obtain ⟨hb, hl⟩ := List.pairwise_cons.1 hp
    unfold insertSorted
    by_cases h : le a b = true
    · rw [if_pos h]
      rw [hab, decide_eq_true_eq] at h
      refine List.pairwise_cons.2 ⟨?_, hp⟩
      intro y hy
      rcases List.mem_cons.1 hy with e | hy
      · rw [e]; exact h
      · exact Nat.le_trans h (hb y hy)
    · rw [if_neg h]
      rw [hab, decide_eq_true_eq] at h
      refine List.pairwise_cons.2 ⟨?_, ?_⟩
      · intro y hy
        rcases List.mem_cons.1 ((insertSorted_perm le a l).mem_iff.1 hy) with e | hy
        · rw [e]; omega
        · exact hb y hy
      · apply ih _ hl
        intro x hx y hy
        apply hle
        · rcases List.mem_cons.1 hx with e | hx
          · rw [e]; exact List.mem_cons_self _ _
          · exact List.mem_cons_of_mem _ (List.mem_cons_of_mem _ hx)
        · rcases List.mem_cons.1 hy with e | hy
          · rw [e]; exact List.mem_cons_self _ _
          · exact List.mem_cons_of_mem _ (List.mem_cons_of_mem _ hy)

theorem sortedDates_pairwise (timeValue : Str → Option Int) (f : Transaction → Nat) :
    ∀ l : List Transaction,
      (∀ x ∈ l, ∀ y ∈ l, dateNotAfter timeValue x y = decide (f x ≤ f y)) →
      (sortedDates timeValue l).Pairwise (fun x y => f x ≤ f y) := by
  intro l
  induction l with
  | nil => intro _; exact List.Pairwise.nil
  | cons a l ih =>
    intro hle
    unfold sortedDates
    rw [List.foldr_cons]
    have hmem : ∀ x, x ∈ a :: List.foldr (insertSorted (dateNotAfter timeValue)) [] l →
        x ∈ a :: l := by
      intro x hx
      rcases List.mem_cons.1 hx with e | hx
      · rw [e]; exact List.mem_cons_self _ _
      · exact List.mem_cons_of_mem _ ((sortedDates_perm timeValue l).mem_iff.1 hx)
    apply insertSorted_pairwise
    · intro x hx y hy
      exact hle x (hmem x hx) y (hmem y hy)
    · exact ih (fun x hx y hy =>
        hle x (List.mem_cons_of_mem _ hx) y (List.mem_cons_of_mem _ hy))

theorem pairwise_head_le (f : Transaction → Nat) (l : List Transaction)
    (hp : l.Pairwise (fun x y => f x ≤ f y)) (a : Transaction) (h : l.head? = some a) :
    ∀ y ∈ l, f a ≤ f y := by
  cases l with
  | nil => simp at h
  | cons b t =>
    simp only [List.head?_cons, Option.some.injEq] at h
    subst h
    intro y hy
    rcases List.mem_cons.1 hy with e | hy
    · rw [e]
    · exact (List.pairwise_cons.1 hp).1 y hy

theorem pairwise_le_last (f : Transaction → Nat) (l : List Transaction)
    (hp : l.Pairwise (fun x y => f x ≤ f y)) (z : Transaction) (h : l.getLast? = some z) :
    ∀ y ∈ l, f y ≤ f z := by
  obtain ⟨ys, hys⟩ := List.getLast?_eq_some_iff.1 h
  subst hys
  intro y hy
  rcases List.mem_append.1 hy with hy | hy
  · exact (List.pairwise_append.1 hp).2.2 y hy z (List.mem_singleton_self z)
  · rw [List.mem_singleton.1 hy]

theorem dateNotAfter_of_parses (timeValue : Str → Option Int)
    (htime : ParsesCalendarDays timeValue) (a b : Transaction)
    (ha : isCalendarDate a.date = true) (hb : isCalendarDate b.date = true) :
    dateNotAfter timeValue a b = decide (dateOrdinal a.date ≤ dateOrdinal b.date) := by
  obtain ⟨x, y, hx, hy, hxy⟩ := htime a.date b.date ha hb
  unfold dateNotAfter
  rw [hx, hy]
  simp only
  apply decide_eq_decide.2
  rw [← hxy]
  omega

theorem isCalendarDate_no_bar (s : Str) (h : isCalendarDate s = true) : '|' ∉ s := by
  unfold isCalendarDate at h
  split at h
  · rename_i a b c d h1 m1 m2 h2 d1 d2
    simp only [Bool.and_eq_true, beq_iff_eq] at h
    obtain ⟨⟨⟨⟨⟨⟨⟨⟨⟨⟨⟨⟨⟨ha, hb⟩, hc⟩, hd⟩, hh1⟩, hm1⟩, hm2⟩, hh2⟩, hd1⟩, hd2⟩, _⟩, _⟩, _⟩, _⟩ := h
    have nd : ∀ c : Char, isDigit c = true → '|' ≠ c := by
      intro c hc e
      rw [← e] at hc
      exact absurd hc (by decide)
    simp only [List.mem_cons, List.not_mem_nil, or_false, not_or]
    subst hh1 hh2
    exact ⟨nd _ ha, nd _ hb, nd _ hc, nd _ hd, by decide, nd _ hm1, nd _ hm2, by decide,
      nd _ hd1, nd _ hd2⟩
  · exact absurd h (by simp)

theorem key_date_eq (numStr : JSNum → Str) (t u : Transaction)
    (ht : '|' ∉ t.date) (hu : '|' ∉ u.date) (h : key numStr t = key numStr u) :
    t.date = u.date := by
  unfold key at h
  exact (append_sep_inj '|' _ _ _ _ ht hu h).1

theorem upperChar_ascii_small (c : Char) (h1 : 0x61 ≤ c.toNat) (h2 : c.toNat ≤ 0x7A) :
    upperChar c = [Char.ofNat (c.toNat - 0x20)] := by
  unfold upperChar
  exact if_pos ⟨h1, h2⟩

theorem upperChar_cyrillic_small (c : Char) (h1 : 0x430 ≤ c.toNat) (h2 : c.toNat ≤ 0x44F) :
    upperChar c = [Char.ofNat (c.toNat - 0x20)] := by
  unfold upperChar
  show (if _ then _ else _) = _
  rw [if_neg (by omega), if_pos ⟨h1, h2⟩]

theorem upperChar_cyrillic_extension (c : Char) (h1 : 0x450 ≤ c.toNat)
    (h2 : c.toNat ≤ 0x45F) : upperChar c = [Char.ofNat (c.toNat - 0x50)] := by
  unfold upperChar
  show (if _ then _ else _) = _
  rw [if_neg (by omega), if_neg (by omega), if_pos ⟨h1, h2⟩]

theorem upperChar_capital (c : Char)
    (h : c.toNat < 0x61 ∨ (0x400 ≤ c.toNat ∧ c.toNat < 0x430)) : upperChar c = [c] := by
  unfold upperChar
  show (if _ then _ else _) = _
  repeat (rw [if_neg (by omega)])

theorem upperChar_of_isSmallOf (l u : Char) (h : isSmallOf l u = true) :
    upperChar l = [u] ∧ upperChar u = [u] := by
  unfold isSmallOf at h
  simp only [Bool.or_eq_true, Bool.and_eq_true, decide_eq_true_eq, beq_iff_eq] at h
  have hu : Char.ofNat u.toNat = u := Char.ofNat_toNat u
  refine ⟨?_, upperChar_capital u (by omega)⟩
  rcases h with (⟨⟨h1, h2⟩, h3⟩ | ⟨⟨h1, h2⟩, h3⟩) | ⟨h1, h2⟩
  · rw [upperChar_ascii_small l (by omega) (by omega)]
    have e : l.toNat - 0x20 = u.toNat := by omega
    rw [e, hu]
  · rw [upperChar_cyrillic_small l (by omega) (by omega)]
    have e : l.toNat - 0x20 = u.toNat := by omega
    rw [e, hu]
  · rw [upperChar_cyrillic_extension l (by omega) (by omega)]
    have e : l.toNat - 0x50 = u.toNat := by omega
    rw [e, hu]

theorem upperChar_of_sameLetter (c d : Char) (h : sameLetter c d = true) :
    upperChar c = upperChar d := by
  unfold sameLetter at h
  simp only [Bool.or_eq_true, beq_iff_eq] at h
  rcases h with (h | h) | h
  · rw [h]
  · rw [(upperChar_of_isSmallOf c d h).1, (upperChar_of_isSmallOf c d h).2]
  · rw [(upperChar_of_isSmallOf d c h).1, (upperChar_of_isSmallOf d c h).2]

theorem toUpperCase_of_differOnlyInCase (s t : Str) (h : DifferOnlyInCase s t) :
    toUpperCase s = toUpperCase t := by
  unfold DifferOnlyInCase at h
  unfold toUpperCase
  induction h with
  | nil => rfl
  | cons hcd _ ih =>
    rw [List.map_cons, List.map_cons, List.flatten_cons, List.flatten_cons, ih,
      upperChar_of_sameLetter _ _ hcd]

theorem matchNodes_consumed : ∀ (ns : List Node) (s : Str) (r : List Str × Str),
    matchNodes ns s = some r →
      ∃ n, s.length = n + r.2.length ∧ minTotal ns ≤ n := by
  intro ns
  induction ns with
  | nil =>
    intro s r h
    simp only [matchNodes, Option.some.injEq] at h
    subst h
    exact ⟨0, by simp, by simp [minTotal]⟩
  | cons n ns ih =>
    intro s r h
    have hcons : ∀ (seg : Str) (r' : List Str × Str) (u : Str),
        matchNodes ns u = some r' → r = (seg :: r'.1, r'.2) →
        s.length = seg.length + u.length → n.minLength ≤ seg.length →
        ∃ k, s.length = k + r.2.length ∧ minTotal (n :: ns) ≤ k := by
      intro seg r' u hu hr hs hmin
      obtain ⟨k, hk, hk'⟩ := ih u r' hu
      refine ⟨seg.length + k, ?_, ?_⟩
      · rw [hr, hs, hk]; simp only; omega
      · unfold minTotal at hk' ⊢
        rw [List.map_cons, List.sum_cons]
        omega
    have hmap : ∀ (seg : Str) (u : Str),
        (matchNodes ns u).map (fun r => (seg :: r.1, r.2)) = some r →
        s.length = seg.length + u.length → n.minLength ≤ seg.length →
        ∃ k, s.length = k + r.2.length ∧ minTotal (n :: ns) ≤ k := by
      intro seg u h' hs hmin
      cases hu : matchNodes ns u with
      | none => rw [hu] at h'; exact absurd h' (by simp)
      | some r' =>
        rw [hu] at h'
        simp only [Option.map_some', Option.some.injEq] at h'
        exact hcons seg r' u hu h'.symm hs hmin
    cases n with
    | one p =>
      obtain ⟨c, t, r', hs, _, hr', hr⟩ := matchNodes_one_inv h
      exact hcons _ r' t hr' hr (by rw [hs]; simp; omega) (by simp [Node.minLength])
    | opt p =>
      cases s with
      | nil => exact hmap [] [] h (by simp) (by simp [Node.minLength])
      | cons c t =>
        rw [matchNodes_opt_cons] at h
        by_cases hp : p c = true
        · rw [if_pos hp] at h
          cases hm : matchNodes ns t with
          | some r' =>
            rw [hm] at h
            simp only [Option.some.injEq] at h
            exact hcons _ r' t hm h.symm (by simp; omega) (by simp [Node.minLength])
          | none =>
            rw [hm] at h
            exact hmap [] (c :: t) h (by simp) (by simp [Node.minLength])
        · rw [if_neg hp] at h
          exact hmap [] (c :: t) h (by simp) (by simp [Node.minLength])
    | lazyStar p =>
      rw [matchNodes_lazyStar] at h
      cases hm : matchLazy p (matchNodes ns) s with
      | none => rw [hm] at h; exact absurd h (by simp)
      | some x =>
        rw [hm] at h
        simp only [Option.map_some', Option.some.injEq] at h
        obtain ⟨s', hs, hk⟩ := matchLazy_inv p _ s x hm
        exact hcons _ x.2 s' hk h.symm (by rw [hs, List.length_append])
          (by simp [Node.minLength])
    | plus p =>
      cases s with
      | nil => exact absurd h (by simp [matchNodes])
      | cons c t =>
        rw [matchNodes_plus_cons] at h
        by_cases hp : p c = true
        · rw [if_pos hp] at h
          cases hm : matchGreedy p (matchNodes ns) t with
          | none => rw [hm] at h; exact absurd h (by simp)
          | some x =>
            rw [hm] at h
            simp only [Option.map_some', Option.some.injEq] at h
            obtain ⟨s', hs, hk⟩ := matchGreedy_inv p _ t x hm
            exact hcons _ x.2 s' hk h.symm
              (by rw [hs]; simp only [List.length_cons, List.length_append]; omega)
              (by simp [Node.minLength])
        · rw [if_neg hp] at h; exact absurd h (by simp)

theorem minTotal_transactionRegex : minTotal transactionRegex = 15 := by decide

theorem matchAt_length (s : Str) (m : RegexMatch) (h : matchAt s = some m) :
    15 ≤ m.length ∧ m.length ≤ s.length := by
  unfold matchAt at h
  split at h
  · rename_i heq
    obtain ⟨n, hn, hmin⟩ := matchNodes_consumed _ _ _ heq
    rw [minTotal_transactionRegex] at hmin
    simp only [Option.some.injEq] at h
    rw [← h]
    simp only at hn ⊢
    omega
  · exact absurd h (by simp)

theorem matchLoop_count : ∀ (s : Str) (skip : Nat),
    15 * (matchLoop s skip).length ≤ s.length - skip := by
  intro s
  induction s with
  | nil => intro skip; rw [matchLoop_nil]; simp
  | cons c t ih =>
    intro skip
    cases skip with
    | succ k =>
      rw [matchLoop_skip]
      have := ih k
      simp only [List.length_cons]
      omega
    | zero =>
      rw [matchLoop_zero]
      cases hm : matchAt (c :: t) with
      | none =>
        simp only
        have := ih 0
        simp only [List.length_cons]
        omega
      | some m =>
        simp only
        obtain ⟨h15, hle⟩ := matchAt_length _ _ hm
        have := ih (m.length - 1)
        have hp : (processMatch m).toList.length ≤ 1 := by
          cases processMatch m <;> simp
        simp only [List.length_cons] at hle ⊢
        rw [List.length_append]
        omega

theorem collapseWhiteSpace_length : ∀ (s : Str) (f : Bool),
    (collapseWhiteSpace f s).length ≤ s.length := by
  intro s
  induction s with
  | nil => intro f; simp [collapseWhiteSpace]
  | cons c t ih =>
    intro f
    by_cases h : isWhiteSpace c = true
    · rw [collapse_cons_ws f c t h]
      have := ih true
      cases f <;> simp <;> omega
    · rw [collapse_cons_not_ws f c t (by simpa using h)]
      have := ih false
      simp; omega

theorem trim_length (s : Str) : (trim s).length ≤ s.length := by
  unfold trim trimEnd trimStart
  rw [List.length_reverse]
  have h1 : ((List.dropWhile isWhiteSpace s).reverse.dropWhile isWhiteSpace).length ≤
      (List.dropWhile isWhiteSpace s).reverse.length :=
    (List.dropWhile_suffix isWhiteSpace).length_le
  have h2 : (List.dropWhile isWhiteSpace s).length ≤ s.length :=
    (List.dropWhile_suffix isWhiteSpace).length_le
  rw [List.length_reverse] at h1
  omega

theorem cleanText_length (fullText : Str) : (cleanText fullText).length ≤ fullText.length :=
  Nat.le_trans (trim_length _) (collapseWhiteSpace_length fullText false)

theorem mem_of_mem_trim (c : Char) (s : Str) (h : c ∈ trim s) : c ∈ s := by
  unfold trim trimEnd trimStart at h
  rw [List.mem_reverse] at h
  have h1 := (List.dropWhile_suffix isWhiteSpace).mem h
  rw [List.mem_reverse] at h1
  exact (List.dropWhile_suffix isWhiteSpace).mem h1

theorem cleanDescription_no_mark (s : Str) : '₸' ∉ cleanDescription s := by
  by_cases h : '₸' ∈ s
  · obtain ⟨pre, post, hs, hpost⟩ := exists_last_occurrence '₸' s h
    rw [hs, cleanDescription_of_split pre post hpost]
    exact fun hm => hpost (mem_of_mem_trim _ _ hm)
  · rw [cleanDescription_of_no_mark s h]
    exact h

theorem matchAt_date_after_space (s : Str) (m : RegexMatch) (h : matchAt s = some m) :
    ∃ (w : Char) (u : Str), s = m.group1 ++ w :: (m.group2 ++ u) ∧
      isWhiteSpace w = true ∧ startsWithDate (m.group2 ++ u) = true := by
  obtain ⟨w, d1, d2, m1, m2, y1, y2, sp, u, hs, hw, _, h1, h2, h3, h4, h5, h6, hg⟩ :=
    matchAt_inv s m h
  refine ⟨w, sp :: u, hs, hw, ?_⟩
  rw [hg]
  simp [startsWithDate, h1, h2, h3, h4, h5, h6]

theorem matchLoop_origin : ∀ (s : Str) (skip : Nat), ∀ t ∈ matchLoop s skip,
    ∃ (pre : Str) (m : RegexMatch) (w : Char) (u : Str),
      s = pre ++ (m.group1 ++ w :: (m.group2 ++ u)) ∧ isWhiteSpace w = true ∧
        startsWithDate (m.group2 ++ u) = true ∧ processMatch m = some t := by
  intro s
  induction s with
  | nil => intro skip t ht; rw [matchLoop_nil] at ht; simp at ht
  | cons c rest ih =>
    have hlift : ∀ (k : Nat) (t : Transaction), t ∈ matchLoop rest k →
        ∃ (pre : Str) (m : RegexMatch) (w : Char) (u : Str),
          c :: rest = pre ++ (m.group1 ++ w :: (m.group2 ++ u)) ∧ isWhiteSpace w = true ∧
            startsWithDate (m.group2 ++ u) = true ∧ processMatch m = some t := by
      intro k t ht
      obtain ⟨pre, m, w, u, hs, hw, hd, hp⟩ := ih k t ht
      exact ⟨c :: pre, m, w, u, by rw [hs]; rfl, hw, hd, hp⟩
    intro skip t ht
    cases skip with
    | succ k =>
      rw [matchLoop_skip] at ht
      exact hlift k t ht
    | zero =>
      rw [matchLoop_zero] at ht
      cases hm : matchAt (c :: rest) with
      | none =>
        rw [hm] at ht
        exact hlift 0 t ht
      | some m =>
        rw [hm] at ht
        simp only at ht
        rcases List.mem_append.1 ht with h | h
        · obtain ⟨w, u, hs, hw, hd⟩ := matchAt_date_after_space _ m hm
          refine ⟨[], m, w, u, hs, hw, hd, ?_⟩
          cases hp : processMatch m with
          | none => rw [hp] at h; simp at h
          | some t' =>
            rw [hp] at h
            simp only [Option.toList, List.mem_singleton] at h
            rw [h]
        · exact hlift _ t h

theorem dateAfterSpace_of_split (pre : Str) (w : Char) (v : Str)
    (hw : isWhiteSpace w = true) (hd : startsWithDate v = true) :
    dateAfterSpace (pre ++ w :: v) = true := by
  unfold dateAfterSpace
  rw [List.any_eq_true]
  refine ⟨w :: v, (List.mem_tails _ _).2 (List.suffix_append _ _), ?_⟩
  simp [hw, hd]

theorem cleanText_head (fullText : Str) (c : Char) (r : Str)
    (h : cleanText fullText = c :: r) : isWhiteSpace c = false := by
  unfold cleanText at h
  exact (trim_ends _).1 c r h

/-! ## Parser: the claims -/

/-- C10, as the code has it. Every transaction emitted by the parser has an amount
that is a number not below zero, and an amount above zero when its type is
`income`; the sign is carried by `type` only. -/
theorem transactions_amount_nonneg (fullText : Str) :
    ∀ t ∈ transactions fullText,
      t.amount.geZero = true ∧ (t.type = .income → t.amount.gtZero = true) :=
  forall_mem_matchLoop _ processMatch_amount _ _

/-- C10, counterexample. The text `Shop 05.01.24 0,00 ₸` yields one transaction,
an expense of amount zero: not every emitted amount is above zero. -/
theorem transactions_amount_zero :
    transactions "Shop 05.01.24 0,00 ₸".toList =
      [{ date := "2024-01-05".toList, description := "Shop".toList, amount := .fin 0,
         type := .expense, category := "Покупки".toList }] ∧
    ¬ ∀ fullText : Str, ∀ t ∈ transactions fullText, t.amount.gtZero = true := by
  have h : transactions "Shop 05.01.24 0,00 ₸".toList =
      [{ date := "2024-01-05".toList, description := "Shop".toList, amount := .fin 0,
         type := .expense, category := "Покупки".toList }] := by decide
  refine ⟨h, fun hall => ?_⟩
  have := hall "Shop 05.01.24 0,00 ₸".toList _ (by rw [h]; exact List.mem_singleton.2 rfl)
  revert this
  decide

theorem transactions_amount_nonneg_witness :
    ({ date := "2024-01-05".toList, description := "Shop".toList, amount := .fin 0,
       type := .expense, category := "Покупки".toList } : Transaction) ∈
      transactions "Shop 05.01.24 0,00 ₸".toList ∧
    (JSNum.fin 0).geZero = true ∧ (TxnType.expense = .income → (JSNum.fin 0).gtZero = true) :=
  ⟨by decide,
    transactions_amount_nonneg "Shop 05.01.24 0,00 ₸".toList
      { date := "2024-01-05".toList, description := "Shop".toList, amount := .fin 0,
        type := .expense, category := "Покупки".toList } (by decide)⟩

/-- C9, as the code has it. Sign-to-kind and magnitude: for an amount capture made
of an optional sign `+`, `-` or `−`, then digits and white space, a comma and two
digits, the parsed value is the double nearest to the number written by the digits
with the comma as decimal point, negated after `-` or `−` (a double `k * 2 ^ e`
within half a unit `2 ^ e` of it, an infinity beyond the doubles), and it is that
number itself when the number is whole and below `2 ^ 53` in magnitude; a match with this
capture that is not a summary line emits a transaction whose amount is the absolute
value and whose type is `income` when the value is above zero and `expense`
otherwise.  `-1 500,00` gives an expense of 1500 and `+2 000,00` an income of
2000. -/
theorem amount_sign_and_magnitude (sign body : Str) (c1 c2 : Char)
    (hsign : sign = [] ∨ sign = ['+'] ∨ sign = ['-'] ∨ sign = ['−'])
    (hbody : ∀ c ∈ body, isDigit c = true ∨ isWhiteSpace c = true)
    (h1 : isDigit c1 = true) (h2 : isDigit c2 = true) :
    (parseFloat (normalizedAmountStr (sign ++ body ++ [',', c1, c2])) =
      toNumber (signedValue sign body c1 c2) ∧
    (∀ z : Int, signedValue sign body c1 c2 = (z : ℚ) → z.natAbs < 2 ^ 53 →
      parseFloat (normalizedAmountStr (sign ++ body ++ [',', c1, c2])) =
        .fin (signedValue sign body c1 c2)) ∧
    (signedValue sign body c1 c2 ≠ 0 →
      ∃ (k : Nat) (e : Int), -1074 ≤ e ∧ k ≤ 2 ^ 53 ∧ (2 ^ 52 ≤ k ∨ e = -1074) ∧
        2 * |(|signedValue sign body c1 c2| - (k : ℚ) * (2 : ℚ) ^ e)| ≤ (2 : ℚ) ^ e ∧
        parseFloat (normalizedAmountStr (sign ++ body ++ [',', c1, c2])) =
          if 971 < e ∨ (e = 971 ∧ k = 2 ^ 53) then
            .inf (decide (signedValue sign body c1 c2 < 0))
          else .fin ((if signedValue sign body c1 c2 < 0 then -1 else 1) * (k : ℚ) *
            (2 : ℚ) ^ e)) ∧
    ∀ m : RegexMatch, m.group3 = sign ++ body ++ [',', c1, c2] →
      includes (trim m.group1) "Остаток".toList = false →
      includes (trim m.group1) "Всего".toList = false →
      ∃ t, processMatch m = some t ∧
        t.amount = toNumber |signedValue sign body c1 c2| ∧
        t.amount = (toNumber (signedValue sign body c1 c2)).abs ∧
        t.type = if 0 < signedValue sign body c1 c2 then .income else .expense) ∧
    transactions "Shop 05.01.24 -1 500,00 ₸".toList =
      [{ date := "2024-01-05".toList, description := "Shop".toList, amount := .fin 1500,
         type := .expense, category := "Покупки".toList }] ∧
    transactions "Shop 05.01.24 +2 000,00 ₸".toList =
      [{ date := "2024-01-05".toList, description := "Shop".toList, amount := .fin 2000,
         type := .income, category := "Пополнение".toList }] := by
  have hv : parseFloat (normalizedAmountStr (sign ++ body ++ [',', c1, c2])) =
      toNumber (signedValue sign body c1 c2) := parseFloat_amount sign body c1 c2 hsign hbody h1 h2
  have hrange : signedValue sign body c1 c2 = 0 ∨
      (signedValue sign body c1 c2).den ≤
        (signedValue sign body c1 c2).num.natAbs * 2 ^ 1074 :=
    amount_in_range _ (by split <;> simp) _
  refine ⟨⟨hv, ?_, ?_, ?_⟩, by decide, by decide⟩
  · intro z hz hlt
    rw [hv, hz]
    exact toNumber_int z hlt
  · intro hne
    obtain ⟨k, e, h1, h2, h3, h4, _, h6⟩ := toNumber_nearest _ hne
    exact ⟨k, e, h1, h2, h3, h4, by rw [hv]; exact h6⟩
  · intro m hm hO hV
    rw [← hm] at hv
    exact ⟨_, processMatch_of_number m _ hO hV hv hrange, rfl, (toNumber_abs _).symm, rfl⟩

theorem amount_sign_and_magnitude_witness :
    (['-'] = [] ∨ ['-'] = ['+'] ∨ ['-'] = ['-'] ∨ ['-'] = ['−']) ∧
    (∀ c ∈ "1 500".toList, isDigit c = true ∨ isWhiteSpace c = true) ∧
    isDigit '0' = true ∧
    signedValue ['-'] "1 500".toList '0' '0' = ((-1500 : Int) : ℚ) ∧
    (-1500 : Int).natAbs < 2 ^ 53 ∧
    parseFloat (normalizedAmountStr (['-'] ++ "1 500".toList ++ [',', '0', '0'])) =
      .fin (signedValue ['-'] "1 500".toList '0' '0') :=
  have hval : signedValue ['-'] "1 500".toList '0' '0' = ((-1500 : Int) : ℚ) := by
    have h : digitsValue ("1 500".toList.filter isDigit ++ ['0', '0']) = 150000 := by decide
    unfold signedValue
    rw [h]
    norm_num
  ⟨by decide, by decide, by decide, hval, by decide,
    (amount_sign_and_magnitude ['-'] "1 500".toList '0' '0' (by decide) (by decide)
      (by decide) (by decide)).1.2.1 (-1500) hval (by decide)⟩

/-- C9, counterexample. The capture `- 9007199254740993,00` writes the number
`-(2 ^ 53 + 1)`, and the parsed value is `-9007199254740992`: the text
`Shop 05.01.24 - 9007199254740993,00 ₸` yields an expense of 9007199254740992.  So
the parsed value is not always the number written by the digits. -/
theorem parsed_value_is_rounded :
    signedValue ['-'] " 9007199254740993".toList '0' '0' = -9007199254740993 ∧
    parseFloat (normalizedAmountStr "- 9007199254740993,00".toList) =
      .fin (-9007199254740992) ∧
    transactions "Shop 05.01.24 - 9007199254740993,00 ₸".toList =
      [{ date := "2024-01-05".toList, description := "Shop".toList,
         amount := .fin 9007199254740992, type := .expense,
         category := "Покупки".toList }] ∧
    ¬ ∀ (sign body : Str) (c1 c2 : Char),
      (sign = [] ∨ sign = ['+'] ∨ sign = ['-'] ∨ sign = ['−']) →
      (∀ c ∈ body, isDigit c = true ∨ isWhiteSpace c = true) →
      isDigit c1 = true → isDigit c2 = true →
      parseFloat (normalizedAmountStr (sign ++ body ++ [',', c1, c2])) =
        .fin (signedValue sign body c1 c2) := by
  have hval : signedValue ['-'] " 9007199254740993".toList '0' '0' = -9007199254740993 := by
    have h : digitsValue (" 9007199254740993".toList.filter isDigit ++ ['0', '0']) =
        900719925474099300 := by decide
    unfold signedValue
    rw [h]
    norm_num
  have hparse : parseFloat (normalizedAmountStr "- 9007199254740993,00".toList) =
      .fin (-9007199254740992) := by decide
  refine ⟨hval, hparse, by decide, fun hall => ?_⟩
  have h := hall ['-'] " 9007199254740993".toList '0' '0' (by decide) (by decide) (by decide)
    (by decide)
  rw [hval] at h
  have h' : parseFloat (normalizedAmountStr "- 9007199254740993,00".toList) =
      .fin (-9007199254740993) := h
  rw [hparse] at h'
  injection h' with h'
  norm_num at h'

set_option maxRecDepth 100000 in
set_option exponentiation.threshold 2000 in
/-- The amount `-999...9,00` with 309 nines is parsed as `-Infinity`, and a record
with it is emitted with the amount `Infinity`. -/
theorem parsed_value_overflows :
    parseFloat (normalizedAmountStr ('-' :: List.replicate 309 '9' ++ ",00".toList)) =
      .inf true ∧
    (transactions ("Shop 05.01.24 -".toList ++ List.replicate 309 '9' ++
        ",00 ₸".toList)).map Transaction.amount = [.inf false] := by
  decide

/-- C8, as the code has it. Extraction round trip on the target layout: for a
non-empty list of well-formed records, the text
`desc_1 date_1 amount_1 ₸ desc_2 date_2 amount_2 ₸ ...` is parsed into exactly one
transaction per record, in order, with the record's description, the date
`20YY-MM-DD`, the type given by the sign, and as amount the double nearest to the
written amount, which is the written amount itself when that is a whole number
below `2 ^ 53`; `parseKaspiPDF` resolves with that list. -/
theorem statementText_round_trip (lines : List Line) (hne : lines ≠ [])
    (hwf : ∀ l ∈ lines, l.WellFormed) :
    transactions (statementText lines) = lines.map Line.transaction ∧
    parseKaspiPDF (statementText lines) = .ok (lines.map Line.transaction) ∧
    ∀ l ∈ lines, ∀ z : Int, l.writtenAmount = (z : ℚ) → z.natAbs < 2 ^ 53 →
      l.transaction.amount = .fin l.writtenAmount := by
  cases lines with
  | nil => exact absurd rfl hne
  | cons l ls =>
    have h1 : transactions (statementText (l :: ls)) = (l :: ls).map Line.transaction := by
      unfold transactions
      rw [cleanText_of_tidy (tidy_statementText ls l hwf)]
      exact (matchLoop_statementText ls l hwf).1
    refine ⟨h1, ?_, ?_⟩
    · unfold parseKaspiPDF
      rw [h1]
      simp
    · intro r _ z hz hlt
      show toNumber r.writtenAmount = .fin r.writtenAmount
      rw [hz]
      exact toNumber_int z hlt

theorem shopLine_wellFormed : shopLine.WellFormed :=
  ⟨by decide, by decide, by decide, by decide, by decide, by decide, by decide, by decide,
    by decide, by decide, ⟨'0', by decide, by decide⟩, by decide, by decide⟩

theorem magnumLine_wellFormed : magnumLine.WellFormed :=
  ⟨by decide, by decide, by decide, by decide, by decide, by decide, by decide, by decide,
    by decide, by decide, ⟨'0', by decide, by decide⟩, by decide, by decide⟩

theorem largeLine_wellFormed : largeLine.WellFormed :=
  ⟨by decide, by decide, by decide, by decide, by decide, by decide, by decide, by decide,
    by decide, by decide, ⟨'3', by decide, by decide⟩, by decide, by decide⟩

theorem statementText_round_trip_witness :
    [shopLine, magnumLine] ≠ [] ∧
    (∀ l ∈ [shopLine, magnumLine], l.WellFormed) ∧
    statementText [shopLine, magnumLine] =
      "Shop 05.01.24 -1 500,00 ₸ Magnum City 06.01.24 + 2 000,50 ₸".toList ∧
    transactions (statementText [shopLine, magnumLine]) =
      [shopLine, magnumLine].map Line.transaction ∧
    parseKaspiPDF (statementText [shopLine, magnumLine]) =
      .ok ([shopLine, magnumLine].map Line.transaction) ∧
    ∀ l ∈ [shopLine, magnumLine], ∀ z : Int, l.writtenAmount = (z : ℚ) →
      z.natAbs < 2 ^ 53 → l.transaction.amount = .fin l.writtenAmount :=
  have hwf : ∀ l ∈ [shopLine, magnumLine], l.WellFormed := by
    intro l hl
    simp only [List.mem_cons, List.mem_singleton, List.not_mem_nil, or_false] at hl
    rcases hl with h | h
    · rw [h]; exact shopLine_wellFormed
    · rw [h]; exact magnumLine_wellFormed
  ⟨by decide, hwf, by decide,
    statementText_round_trip [shopLine, magnumLine] (by decide) hwf⟩

theorem statementText_round_trip_example :
    transactions (statementText [shopLine, magnumLine]) =
      [{ date := "2024-01-05".toList, description := "Shop".toList, amount := .fin 1500,
         type := .expense, category := "Покупки".toList },
       { date := "2024-01-06".toList, description := "Magnum City".toList,
         amount := .fin (mkRat 4001 2), type := .income,
         category := "Продукты".toList }] := by
  decide

/-- C8, counterexample. The well-formed record
`Shop 05.01.24 +9 007 199 254 740 993,00 ₸` writes the amount `2 ^ 53 + 1`, and the
transaction parsed from its text has the amount 9007199254740992: the emitted
amount is not always the written one. -/
theorem statementText_amount_is_rounded :
    largeLine.WellFormed ∧
    statementText [largeLine] = "Shop 05.01.24 +9 007 199 254 740 993,00 ₸".toList ∧
    largeLine.writtenAmount = 9007199254740993 ∧
    (transactions (statementText [largeLine])).map Transaction.amount =
      [.fin 9007199254740992] ∧
    ¬ ∀ lines : List Line, lines ≠ [] → (∀ l ∈ lines, l.WellFormed) →
      (transactions (statementText lines)).map Transaction.amount =
        lines.map fun l => JSNum.fin l.writtenAmount := by
  have hval : largeLine.writtenAmount = 9007199254740993 := by
    have h : digitsValue (largeLine.body.filter isDigit ++ [largeLine.c1, largeLine.c2]) =
        900719925474099300 := by decide
    unfold Line.writtenAmount
    rw [h]
    norm_num
  have hamt : (transactions (statementText [largeLine])).map Transaction.amount =
      [.fin 9007199254740992] := by decide
  refine ⟨largeLine_wellFormed, by decide, hval, hamt, fun hall => ?_⟩
  have h := hall [largeLine] (by decide) (by
    intro l hl
    rw [List.mem_singleton.1 hl]
    exact largeLine_wellFormed)
  rw [hamt] at h
  simp only [List.map_cons, List.map_nil, List.cons.injEq, and_true, JSNum.fin.injEq] at h
  rw [hval] at h
  norm_num at h

/-- C11. Date expansion: a date text `DD.MM.YY` of three two-digit groups is turned
into `20YY-MM-DD`; every match of the pattern has such a date text in its second
group, and the transaction emitted for it carries the expanded date.  `05.01.24`
gives `2024-01-05`. -/
theorem date_expansion :
    (∀ d1 d2 m1 m2 y1 y2 : Char, isDigit d1 = true → isDigit d2 = true →
      isDigit m1 = true → isDigit m2 = true → isDigit y1 = true → isDigit y2 = true →
      formattedDate [d1, d2, '.', m1, m2, '.', y1, y2] =
        ['2', '0', y1, y2, '-', m1, m2, '-', d1, d2]) ∧
    (∀ (s : Str) (m : RegexMatch) (t : Transaction),
      matchAt s = some m → processMatch m = some t →
      ∃ d1 d2 m1 m2 y1 y2 : Char,
        (isDigit d1 = true ∧ isDigit d2 = true ∧ isDigit m1 = true ∧ isDigit m2 = true ∧
          isDigit y1 = true ∧ isDigit y2 = true) ∧
        m.group2 = [d1, d2, '.', m1, m2, '.', y1, y2] ∧
        t.date = ['2', '0', y1, y2, '-', m1, m2, '-', d1, d2]) ∧
    formattedDate "05.01.24".toList = "2024-01-05".toList ∧
    (transactions "Shop 05.01.24 - 500,00 ₸".toList).map Transaction.date =
      ["2024-01-05".toList] :=
  ⟨formattedDate_digits, emitted_date_shape, by decide, by decide⟩

/-- C12, as the code has it. Every transaction emitted by the parser has a date of
the form `20YY-MM-DD`: the text `20`, two digits, `-`, two digits, `-`, two
digits, taken as they stand from the matched date text. -/
theorem transactions_date_shape (fullText : Str) :
    ∀ t ∈ transactions fullText,
      ∃ d1 d2 m1 m2 y1 y2 : Char,
        (isDigit d1 = true ∧ isDigit d2 = true ∧ isDigit m1 = true ∧ isDigit m2 = true ∧
          isDigit y1 = true ∧ isDigit y2 = true) ∧
        t.date = ['2', '0', y1, y2, '-', m1, m2, '-', d1, d2] := by
  apply forall_mem_matchLoop_of_match
  intro s m t hm ht
  obtain ⟨d1, d2, m1, m2, y1, y2, hd, _, hdate⟩ := emitted_date_shape s m t hm ht
  exact ⟨d1, d2, m1, m2, y1, y2, hd, hdate⟩

theorem transactions_date_shape_witness :
    ({ date := "2024-99-99".toList, description := "Shop".toList, amount := .fin 1,
       type := .expense, category := "Покупки".toList } : Transaction) ∈
      transactions "Shop 99.99.24 - 1,00 ₸".toList ∧
    ∃ d1 d2 m1 m2 y1 y2 : Char,
      (isDigit d1 = true ∧ isDigit d2 = true ∧ isDigit m1 = true ∧ isDigit m2 = true ∧
        isDigit y1 = true ∧ isDigit y2 = true) ∧
      "2024-99-99".toList = ['2', '0', y1, y2, '-', m1, m2, '-', d1, d2] :=
  ⟨by decide,
    transactions_date_shape "Shop 99.99.24 - 1,00 ₸".toList
      { date := "2024-99-99".toList, description := "Shop".toList, amount := .fin 1,
        type := .expense, category := "Покупки".toList } (by decide)⟩

/-- C12, counterexample. The text `Shop 99.99.24 - 1,00 ₸` yields a transaction
dated `2024-99-99`, which is not a calendar day. -/
theorem transactions_date_invalid :
    (transactions "Shop 99.99.24 - 1,00 ₸".toList).map Transaction.date =
      ["2024-99-99".toList] ∧
    isCalendarDate "2024-99-99".toList = false ∧
    ¬ ∀ fullText : Str, ∀ t ∈ transactions fullText, isCalendarDate t.date = true := by
  have h : (transactions "Shop 99.99.24 - 1,00 ₸".toList).map Transaction.date =
      ["2024-99-99".toList] := by decide
  refine ⟨h, by decide, fun hall => ?_⟩
  have hmem : "2024-99-99".toList ∈
      (transactions "Shop 99.99.24 - 1,00 ₸".toList).map Transaction.date := by
    rw [h]; exact List.mem_singleton.2 rfl
  obtain ⟨t, ht, hd⟩ := List.mem_map.1 hmem
  have := hall _ t ht
  rw [hd] at this
  revert this
  decide

/-- C13. Unparseable amounts are dropped silently: a match whose normalised amount
text does not parse to a number pushes nothing, and the loop goes on after it with
the rest of the text; the promise is rejected only when no transaction at all was
pushed.  The sign class admits a letter and an en dash, whose captures do not
parse; the records around them are still emitted. -/
theorem unparseable_amount_dropped :
    (∀ m : RegexMatch, isNaN (parseFloat (normalizedAmountStr m.group3)) = true →
      processMatch m = none) ∧
    (∀ (c : Char) (t : Str) (m : RegexMatch), matchAt (c :: t) = some m →
      isNaN (parseFloat (normalizedAmountStr m.group3)) = true →
      matchLoop (c :: t) 0 = matchLoop t (m.length - 1)) ∧
    (∀ fullText : Str,
      (∃ e, parseKaspiPDF fullText = .error e) ↔ transactions fullText = []) ∧
    (isSignClass 'x' = true ∧ isSignClass '–' = true ∧
      isNaN (parseFloat (normalizedAmountStr "x5,00".toList)) = true ∧
      isNaN (parseFloat (normalizedAmountStr "–5,00".toList)) = true) ∧
    parseKaspiPDF
        "a 05.01.24 - 1,00 ₸ b 05.01.24 x5,00 ₸ c 05.01.24 –5,00 ₸ d 06.01.24 + 2,00 ₸".toList =
      .ok [{ date := "2024-01-05".toList, description := "a".toList, amount := .fin 1,
             type := .expense, category := "Покупки".toList },
           { date := "2024-01-06".toList, description := "d".toList, amount := .fin 2,
             type := .income, category := "Пополнение".toList }] := by
  refine ⟨?_, ?_, parseKaspiPDF_error_iff, by decide,
    parseKaspiPDF_ok _ _ (by decide) (by decide)⟩
  · intro m h
    exact (processMatch_eq_none_iff m).2 (Or.inr (Or.inr h))
  · intro c t m hm h
    exact matchLoop_of_skipped c t m hm ((processMatch_eq_none_iff m).2 (Or.inr (Or.inr h)))

/-- C14. Summary lines are skipped: a match whose trimmed description capture
contains `Остаток` or `Всего` pushes nothing, whatever its date and amount, and the
loop goes on after it; a match whose capture contains neither and whose amount is
a number does push a transaction. -/
theorem summary_lines_skipped :
    (∀ m : RegexMatch,
      includes (trim m.group1) "Остаток".toList = true ∨
        includes (trim m.group1) "Всего".toList = true →
      processMatch m = none) ∧
    (∀ (c : Char) (t : Str) (m : RegexMatch), matchAt (c :: t) = some m →
      includes (trim m.group1) "Остаток".toList = true ∨
        includes (trim m.group1) "Всего".toList = true →
      matchLoop (c :: t) 0 = matchLoop t (m.length - 1)) ∧
    (∀ m : RegexMatch,
      includes (trim m.group1) "Остаток".toList = false →
      includes (trim m.group1) "Всего".toList = false →
      isNaN (parseFloat (normalizedAmountStr m.group3)) = false →
      ∃ x, processMatch m = some x) ∧
    (∀ (c : Char) (t : Str) (m : RegexMatch), matchAt (c :: t) = some m →
      includes (trim m.group1) "Остаток".toList = false →
      includes (trim m.group1) "Всего".toList = false →
      isNaN (parseFloat (normalizedAmountStr m.group3)) = false →
      ∃ x, processMatch m = some x ∧ matchLoop (c :: t) 0 = x :: matchLoop t (m.length - 1)) ∧
    transactions
        "Остаток на 01.01.24 + 9 000,00 ₸ Shop 05.01.24 - 5,00 ₸ Всего 31.01.24 - 5,00 ₸".toList =
      [{ date := "2024-01-05".toList, description := "Shop".toList, amount := .fin 5,
         type := .expense, category := "Покупки".toList }] := by
  have hskip : ∀ m : RegexMatch,
      includes (trim m.group1) "Остаток".toList = true ∨
        includes (trim m.group1) "Всего".toList = true →
      processMatch m = none := by
    intro m h
    apply (processMatch_eq_none_iff m).2
    rcases h with h | h
    · exact Or.inl h
    · exact Or.inr (Or.inl h)
  have hemit : ∀ m : RegexMatch,
      includes (trim m.group1) "Остаток".toList = false →
      includes (trim m.group1) "Всего".toList = false →
      isNaN (parseFloat (normalizedAmountStr m.group3)) = false →
      ∃ x, processMatch m = some x := by
    intro m hO hV hN
    cases hp : processMatch m with
    | some x => exact ⟨x, rfl⟩
    | none =>
      exfalso
      rcases (processMatch_eq_none_iff m).1 hp with h | h | h
      · rw [hO] at h; exact absurd h (by simp)
      · rw [hV] at h; exact absurd h (by simp)
      · rw [hN] at h; exact absurd h (by simp)
  refine ⟨hskip, ?_, hemit, ?_, by decide⟩
  · intro c t m hm h
    exact matchLoop_of_skipped c t m hm (hskip m h)
  · intro c t m hm hO hV hN
    obtain ⟨x, hx⟩ := hemit m hO hV hN
    exact ⟨x, hx, matchLoop_of_emitted c t m x hm hx⟩

/-- C15. Last-marker split: the cleaned description of a trimmed description
capture is the capture itself when it has no `₸`, and otherwise the trimmed text
after its last `₸`; the description of an emitted transaction is taken from it. -/
theorem cleanDescription_last_marker :
    (∀ raw : Str, '₸' ∉ raw → cleanDescription raw = raw) ∧
    (∀ raw : Str, '₸' ∈ raw →
      ∃ before after, raw = before ++ '₸' :: after ∧ '₸' ∉ after ∧
        cleanDescription raw = trim after) ∧
    (∀ before after : Str, '₸' ∉ after →
      cleanDescription (before ++ '₸' :: after) = trim after) ∧
    (∀ (m : RegexMatch) (t : Transaction), processMatch m = some t →
      ¬ (cleanDescription (trim m.group1)).isEmpty = true →
      t.description = cleanDescription (trim m.group1)) ∧
    (transactions "1 000,00 ₸ Kaspi ₸ Magnum 05.01.24 - 5,00 ₸".toList).map
        Transaction.description = ["Magnum".toList] := by
  refine ⟨cleanDescription_of_no_mark, ?_, cleanDescription_of_split, ?_, by decide⟩
  · intro raw h
    obtain ⟨before, after, e, hafter⟩ := exists_last_occurrence '₸' raw h
    exact ⟨before, after, e, hafter, by rw [e]; exact cleanDescription_of_split _ _ hafter⟩
  · intro m t h hne
    rw [processMatch_description m t h, if_neg hne]

/-- C16, as the code has it. The description of an emitted transaction is the
cleaned description when that is not empty and the placeholder `Транзакция Kaspi`
when it is empty (the cleaned description is already trimmed); so it is the
placeholder exactly when the cleaned description is empty or is itself that
text. -/
theorem description_placeholder (m : RegexMatch) (t : Transaction)
    (h : processMatch m = some t) :
    (cleanDescription (trim m.group1) ≠ [] →
      t.description = cleanDescription (trim m.group1)) ∧
    (cleanDescription (trim m.group1) = [] → t.description = placeholderDescription) ∧
    trim (cleanDescription (trim m.group1)) = cleanDescription (trim m.group1) ∧
    (t.description = placeholderDescription ↔
      cleanDescription (trim m.group1) = [] ∨
        cleanDescription (trim m.group1) = placeholderDescription) := by
  have hd := processMatch_description m t h
  cases hc : cleanDescription (trim m.group1) with
  | nil =>
    rw [hc] at hd
    have hd' : t.description = placeholderDescription := hd
    refine ⟨fun hne => absurd rfl hne, fun _ => hd', ?_, ?_⟩
    · rw [← hc]; exact trim_cleanDescription _
    · exact ⟨fun _ => Or.inl rfl, fun _ => hd'⟩
  | cons c u =>
    rw [hc] at hd
    have hd' : t.description = c :: u := hd
    refine ⟨fun _ => hd', fun e => absurd e (by simp), ?_, ?_⟩
    · rw [← hc]; exact trim_cleanDescription _
    · rw [hd']
      constructor
      · intro e; exact Or.inr e
      · intro e
        rcases e with e | e
        · exact absurd e (by simp)
        · exact e

theorem description_placeholder_witness :
    processMatch { group1 := " Kaspi Gold 1 000,00 ₸ ".toList, group2 := "06.01.24".toList,
                   group3 := "- 6,00".toList, length := 40 } =
      some { date := "2024-01-06".toList, description := placeholderDescription,
             amount := .fin 6, type := .expense, category := "Покупки".toList } ∧
    cleanDescription (trim " Kaspi Gold 1 000,00 ₸ ".toList) = [] ∧
    (placeholderDescription = placeholderDescription ↔
      cleanDescription (trim " Kaspi Gold 1 000,00 ₸ ".toList) = [] ∨
        cleanDescription (trim " Kaspi Gold 1 000,00 ₸ ".toList) = placeholderDescription) :=
  ⟨by decide, by decide,
    (description_placeholder
      { group1 := " Kaspi Gold 1 000,00 ₸ ".toList, group2 := "06.01.24".toList,
        group3 := "- 6,00".toList, length := 40 }
      { date := "2024-01-06".toList, description := placeholderDescription,
        amount := .fin 6, type := .expense, category := "Покупки".toList }
      (by decide)).2.2.2⟩

/-- C16, counterexample. For the text `Транзакция Kaspi 05.01.24 - 5,00 ₸` the
cleaned description is not empty, and the emitted description is the placeholder
text all the same. -/
theorem description_placeholder_not_only_when_empty :
    (transactions "Транзакция Kaspi 05.01.24 - 5,00 ₸".toList).map Transaction.description =
      [placeholderDescription] ∧
    ¬ ∀ (s : Str) (m : RegexMatch) (t : Transaction),
      matchAt s = some m → processMatch m = some t →
      (t.description = placeholderDescription ↔ cleanDescription (trim m.group1) = []) := by
  refine ⟨by decide, fun hall => ?_⟩
  have h := hall "Транзакция Kaspi 05.01.24 - 5,00 ₸".toList
    { group1 := "Транзакция Kaspi".toList, group2 := "05.01.24".toList,
      group3 := "- 5,00".toList, length := 34 }
    { date := "2024-01-05".toList, description := placeholderDescription,
      amount := .fin 5, type := .expense, category := "Покупки".toList }
    (by decide) (by decide)
  have h2 := h.1 rfl
  revert h2
  decide

/-- C17. Classifier first-match-wins: the category computed by the code is that of
the first rule, in the fixed order, one of whose keywords is a substring of the
upper-cased description, whatever the type; when no rule matches it is the default
of the type.  A description containing `MAGNUM` anywhere gets `Продукты` whatever
else it contains; `MAGNUM CAFE #12` and `CAFE MAGNUM` both get `Продукты`. -/
theorem classifier_first_match_wins :
    (∀ (d : Str) (type : TxnType), categorize d type = categorizeByRules d type) ∧
    (∀ (d : Str) (label : Str), firstMatchingRule (toUpperCase d) = some label →
      ∀ type : TxnType, categorize d type = label) ∧
    (∀ (a b : Str) (type : TxnType),
      categorize (a ++ "MAGNUM".toList ++ b) type = "Продукты".toList) ∧
    (∀ type : TxnType,
      categorize "MAGNUM CAFE #12".toList type = "Продукты".toList ∧
      categorize "CAFE MAGNUM".toList type = "Продукты".toList) ∧
    firstMatchingRule (toUpperCase "Cafe Magnum".toList) = some "Продукты".toList ∧
    (transactions "MAGNUM CAFE #12 05.01.24 - 5,00 ₸ CAFE MAGNUM 06.01.24 + 6,00 ₸".toList).map
        Transaction.category = ["Продукты".toList, "Продукты".toList] := by
  have hlabel : ∀ (d : Str) (label : Str), firstMatchingRule (toUpperCase d) = some label →
      ∀ type : TxnType, categorize d type = label := by
    intro d label h type
    rw [categorize_eq_categorizeByRules]
    unfold categorizeByRules
    rw [h]
    rfl
  refine ⟨categorize_eq_categorizeByRules, hlabel, ?_, ?_, by decide, by decide⟩
  · intro a b type
    apply hlabel
    have hinc : includes (toUpperCase (a ++ "MAGNUM".toList ++ b)) "MAGNUM".toList = true := by
      rw [includes_iff_substring, toUpperCase_append, toUpperCase_append]
      have e : toUpperCase "MAGNUM".toList = "MAGNUM".toList := by decide
      rw [e]
      exact ⟨toUpperCase a, toUpperCase b, rfl⟩
    unfold firstMatchingRule categoryRules
    simp only [List.find?_cons, List.any_cons, List.any_nil, Bool.or_false, hinc]
    rfl
  · intro type
    cases type <;> exact ⟨by decide, by decide⟩

/-- C18. Classifier fallback and totality: when no keyword of any rule is a
substring of the upper-cased description, the category is `Пополнение` for an
income and `Покупки` for an expense; the category is always one of the seven
labels, for every description and type and so for every emitted transaction, and
`Прочее` is not among them. -/
theorem classifier_fallback_and_totality :
    (∀ (d : Str) (type : TxnType),
      (∀ rule ∈ categoryRules, ∀ keyword ∈ rule.1,
        includes (toUpperCase d) keyword = false) →
      categorize d type =
        if type = .income then "Пополнение".toList else "Покупки".toList) ∧
    (∀ (d : Str) (type : TxnType), categorize d type ∈ categoryLabels) ∧
    (∀ fullText : Str, ∀ t ∈ transactions fullText, t.category ∈ categoryLabels) ∧
    categoryLabels =
      [ "Продукты".toList, "Транспорт".toList, "Еда".toList, "Здоровье".toList,
        "Переводы".toList, "Пополнение".toList, "Покупки".toList ] ∧
    "Прочее".toList ∉ categoryLabels ∧
    (∀ rule ∈ categoryRules, ∀ keyword ∈ rule.1,
      includes (toUpperCase "Shop".toList) keyword = false) ∧
    (transactions "Shop 05.01.24 - 5,00 ₸ Salary 06.01.24 + 6,00 ₸".toList).map
        Transaction.category = ["Покупки".toList, "Пополнение".toList] := by
  refine ⟨?_, categorize_mem_categoryLabels, ?_, rfl, by decide, by decide, by decide⟩
  · intro d type h
    rw [categorize_eq_categorizeByRules]
    unfold categorizeByRules
    rw [firstMatchingRule_eq_none _ h]
    rfl
  · intro fullText
    apply forall_mem_matchLoop
    intro m t h
    rw [processMatch_category m t h]
    exact categorize_mem_categoryLabels _ _

/-- C19. Layout mismatch: `parseKaspiPDF` never resolves with an empty list; when
the text yields no transaction (no match, or every match skipped or dropped) it
rejects with the `Could not recognize transactions` error, and `handleImportClick`
then shows that message and does not call `onImport`. -/
theorem layout_mismatch_fails :
    (∀ (fullText : Str) (l : List Transaction), parseKaspiPDF fullText = .ok l → l ≠ []) ∧
    (∀ fullText : Str, transactions fullText = [] →
      parseKaspiPDF fullText =
        .error "Could not recognize transactions. PDF format might have changed.".toList ∧
      ∀ onImport : List Transaction → Completion × List Effect,
        handleImportClick (some fullText) onImport =
          [ .setIsProcessing true, .setError none,
            .setError (some
              "Could not recognize transactions. PDF format might have changed.".toList),
            .setIsProcessing false ]) ∧
    transactions "Kaspi Gold statement, no records".toList = [] ∧
    transactions "Всего 05.01.24 - 5,00 ₸ b 05.01.24 x5,00 ₸".toList = [] := by
  refine ⟨parseKaspiPDF_ok_ne_nil, ?_, by decide, by decide⟩
  intro fullText h
  refine ⟨parseKaspiPDF_of_nil fullText h, ?_⟩
  intro onImport
  unfold handleImportClick
  simp only [parseKaspiPDF_of_nil fullText h]
  rfl

/-- C20, what the code does. `handleBulkImport` resolves whatever the store
returns: when the range query fails it logs the error and returns, when the insert
fails it logs the error and returns, and `handleImportClick` then closes the
dialog as after a successful import, without showing any error. -/
theorem store_failure_not_surfaced :
    (∀ (numStr : JSNum → Str) (timeValue : Str → Option Int) (supabase : Supabase)
      (userId : Str) (batch : List Transaction),
      (handleBulkImport numStr timeValue supabase userId batch).1 = .resolved) ∧
    handleBulkImport renderWhole (fun _ => none) failingQueryStore "u1".toList [cafe] =
      (.resolved,
        [ .select "u1".toList "2024-01-05".toList "2024-01-05".toList,
          .consoleError "network down".toList ]) ∧
    handleBulkImport renderWhole (fun _ => none) failingInsertStore "u1".toList [cafe] =
      (.resolved,
        [ .select "u1".toList "2024-01-05".toList "2024-01-05".toList,
          .insert (transactionsData "u1".toList [cafe]),
          .consoleError "insert failed".toList ]) ∧
    handleImportClick (some "Cafe 05.01.24 - 100,00 ₸".toList)
        (handleBulkImport renderWhole (fun _ => none) failingQueryStore "u1".toList) =
      [ .setIsProcessing true, .setError none,
        .onImport
          [{ date := "2024-01-05".toList, description := "Cafe".toList, amount := .fin 100,
             type := .expense, category := "Еда".toList }]
          [ .select "u1".toList "2024-01-05".toList "2024-01-05".toList,
            .consoleError "network down".toList ],
        .onClose, .setIsProcessing false ] :=
  ⟨handleBulkImport_resolved, by decide, by decide, by decide⟩

/-- C21. No insert after a failed range query: whenever the range query that
`handleBulkImport` issued returned an error, the call did nothing but that query
and the logging of its error, so no insert was sent; and no call, whatever the
store answers, issues more than one range query. -/
theorem no_insert_after_failed_query (numStr : JSNum → Str)
    (timeValue : Str → Option Int) (supabase : Supabase) (userId : Str)
    (batch : List Transaction) :
    ((handleBulkImport numStr timeValue supabase userId batch).2.filter
        Effect.isSelect).length ≤ 1 ∧
    ∀ uid lo hi e,
      Effect.select uid lo hi ∈ (handleBulkImport numStr timeValue supabase userId batch).2 →
      supabase.select uid lo hi = .error e →
      handleBulkImport numStr timeValue supabase userId batch =
          (.resolved, [.select uid lo hi, .consoleError e]) ∧
        (handleBulkImport numStr timeValue supabase userId batch).2.all
          (fun x => !x.isInsert) = true := by
  by_cases hne : batch = []
  · subst hne
    have h0 : handleBulkImport numStr timeValue supabase userId [] = (.resolved, []) := rfl
    rw [h0]
    refine ⟨by simp, ?_⟩
    intro uid lo hi e hmem
    simp at hmem
  · obtain ⟨first, last, _, _, heq⟩ :=
      handleBulkImport_of_ne_nil numStr timeValue supabase userId batch hne
    rw [heq]
    cases hsel : supabase.select userId first.date last.date with
    | error e0 =>
      simp only
      refine ⟨by simp [Effect.isSelect], ?_⟩
      intro uid lo hi e hmem hq
      simp only [List.mem_cons, Effect.select.injEq, List.mem_singleton, reduceCtorEq,
        or_false, List.not_mem_nil] at hmem
      obtain ⟨h1, h2, h3⟩ := hmem
      subst h1 h2 h3
      rw [hsel] at hq
      injection hq with hq
      subst hq
      exact ⟨rfl, by simp [Effect.isInsert]⟩
    | ok existing =>
      simp only
      have hmemsel : ∀ uid lo hi e (l : List Effect),
          Effect.select uid lo hi ∈ Effect.select userId first.date last.date :: l →
          (∀ x ∈ l, x.isSelect = false) →
          supabase.select uid lo hi = .error e → False := by
        intro uid lo hi e l hmem hl hq
        rcases List.mem_cons.1 hmem with h | h
        · injection h with h1 h2 h3
          subst h1 h2 h3
          rw [hsel] at hq
          cases hq
        · have := hl _ h
          simp [Effect.isSelect] at this
      split
      · refine ⟨by simp [Effect.isSelect], ?_⟩
        intro uid lo hi e hmem hq
        exact (hmemsel uid lo hi e _ hmem (by simp [Effect.isSelect]) hq).elim
      · split
        · refine ⟨by simp [Effect.isSelect], ?_⟩
          intro uid lo hi e hmem hq
          exact (hmemsel uid lo hi e _ hmem (by simp [Effect.isSelect]) hq).elim
        · refine ⟨by simp [Effect.isSelect], ?_⟩
          intro uid lo hi e hmem hq
          exact (hmemsel uid lo hi e _ hmem (by simp [Effect.isSelect]) hq).elim

theorem no_insert_after_failed_query_witness :
    Effect.select "u1".toList "2024-01-05".toList "2024-01-05".toList ∈
        (handleBulkImport renderWhole (fun _ => some 0) failingQueryStore "u1".toList
          [cafe]).2 ∧
      failingQueryStore.select "u1".toList "2024-01-05".toList "2024-01-05".toList =
        .error "network down".toList ∧
      handleBulkImport renderWhole (fun _ => some 0) failingQueryStore "u1".toList [cafe] =
        (.resolved, [.select "u1".toList "2024-01-05".toList "2024-01-05".toList,
          .consoleError "network down".toList]) ∧
      (handleBulkImport renderWhole (fun _ => some 0) failingQueryStore "u1".toList
        [cafe]).2.all (fun x => !x.isInsert) = true :=
  ⟨by decide, rfl,
    (no_insert_after_failed_query renderWhole (fun _ => some 0) failingQueryStore
      "u1".toList [cafe]).2 _ _ _ _ (by decide) rfl⟩

/-- C22. Date window covers the batch: for a non-empty batch whose dates are
calendar days in ISO form (on which `Date` yields time values ordered as the
days), the bounds passed to the range query are dates of batch records, every
batch date lies between them, so they are the minimum and the maximum of the
batch's dates, and every stored record sharing a key with a batch record has its
date inside the queried window. -/
theorem date_window_covers_batch (numStr : JSNum → Str) (timeValue : Str → Option Int)
    (supabase : Supabase) (userId : Str) (batch : List Transaction) (hne : batch ≠ [])
    (hvalid : ∀ t ∈ batch, isCalendarDate t.date = true)
    (htime : ParsesCalendarDays timeValue) :
    ∃ minDate maxDate rest,
      (handleBulkImport numStr timeValue supabase userId batch).2 =
        .select userId minDate maxDate :: rest ∧
      (∀ x ∈ rest, x.isSelect = false) ∧
      (∃ a ∈ batch, a.date = minDate) ∧ (∃ b ∈ batch, b.date = maxDate) ∧
      (∀ t ∈ batch, dateOrdinal minDate ≤ dateOrdinal t.date ∧
        dateOrdinal t.date ≤ dateOrdinal maxDate) ∧
      (∀ e : Transaction, '|' ∉ e.date → ∀ r ∈ batch, key numStr e = key numStr r →
        dateOrdinal minDate ≤ dateOrdinal e.date ∧
          dateOrdinal e.date ≤ dateOrdinal maxDate) := by
  obtain ⟨first, last, hfirst, hlast, heq⟩ :=
    handleBulkImport_of_ne_nil numStr timeValue supabase userId batch hne
  have hperm := sortedDates_perm timeValue batch
  have hp : (sortedDates timeValue batch).Pairwise
      (fun x y => dateOrdinal x.date ≤ dateOrdinal y.date) :=
    sortedDates_pairwise timeValue (fun t => dateOrdinal t.date) batch
      (fun x hx y hy => dateNotAfter_of_parses timeValue htime x y (hvalid x hx) (hvalid y hy))
  have hmin := pairwise_head_le (fun t => dateOrdinal t.date) _ hp first hfirst
  have hmax := pairwise_le_last (fun t => dateOrdinal t.date) _ hp last hlast
  have hfm : first ∈ batch := hperm.mem_iff.1 (List.mem_of_mem_head? hfirst)
  have hlm : last ∈ batch := hperm.mem_iff.1 (List.mem_of_mem_getLast? hlast)
  have hwin : ∀ t ∈ batch, dateOrdinal first.date ≤ dateOrdinal t.date ∧
      dateOrdinal t.date ≤ dateOrdinal last.date :=
    fun t ht => ⟨hmin t (hperm.mem_iff.2 ht), hmax t (hperm.mem_iff.2 ht)⟩
  have hrest : ∃ rest, (handleBulkImport numStr timeValue supabase userId batch).2 =
      .select userId first.date last.date :: rest ∧ ∀ x ∈ rest, x.isSelect = false := by
    rw [heq]
    cases supabase.select userId first.date last.date with
    | error e => exact ⟨_, rfl, by simp [Effect.isSelect]⟩
    | ok existing =>
      simp only
      split
      · exact ⟨_, rfl, by simp [Effect.isSelect]⟩
      · split
        · exact ⟨_, rfl, by simp [Effect.isSelect]⟩
        · exact ⟨_, rfl, by simp [Effect.isSelect]⟩
  obtain ⟨rest, hr, hns⟩ := hrest
  refine ⟨first.date, last.date, rest, hr, hns, ⟨first, hfm, rfl⟩, ⟨last, hlm, rfl⟩, hwin, ?_⟩
  intro e he r hr hk
  rw [key_date_eq numStr e r he (isCalendarDate_no_bar _ (hvalid r hr)) hk]
  exact hwin r hr

theorem date_window_covers_batch_witness :
    [taxi, cafe, taxi] ≠ [] ∧
    (∀ t ∈ [taxi, cafe, taxi], isCalendarDate t.date = true) ∧
    ParsesCalendarDays ordinalTimeValue ∧
    ∃ minDate maxDate rest,
      (handleBulkImport renderWhole ordinalTimeValue exampleStore "u1".toList
          [taxi, cafe, taxi]).2 = .select "u1".toList minDate maxDate :: rest ∧
      (∀ x ∈ rest, x.isSelect = false) ∧
      (∃ a ∈ [taxi, cafe, taxi], a.date = minDate) ∧
      (∃ b ∈ [taxi, cafe, taxi], b.date = maxDate) ∧
      (∀ t ∈ [taxi, cafe, taxi], dateOrdinal minDate ≤ dateOrdinal t.date ∧
        dateOrdinal t.date ≤ dateOrdinal maxDate) ∧
      (∀ e : Transaction, '|' ∉ e.date → ∀ r ∈ [taxi, cafe, taxi],
        key renderWhole e = key renderWhole r →
        dateOrdinal minDate ≤ dateOrdinal e.date ∧
          dateOrdinal e.date ≤ dateOrdinal maxDate) :=
  ⟨by decide, by decide, fun _ _ _ _ => ⟨_, _, rfl, rfl, Int.ofNat_le⟩,
    date_window_covers_batch renderWhole ordinalTimeValue exampleStore "u1".toList
      [taxi, cafe, taxi] (by decide) (by decide)
      (fun _ _ _ _ => ⟨_, _, rfl, rfl, Int.ofNat_le⟩)⟩

theorem date_window_example :
    (handleBulkImport renderWhole ordinalTimeValue exampleStore "u1".toList
      [taxi, cafe, taxi]).2.head? =
      some (.select "u1".toList "2024-01-05".toList "2024-01-06".toList) := by
  decide

/-- C23. Insert payload: whenever `handleBulkImport` sends an insert, the range
query had returned rows `existing`, and the list sent has the length and the order
of `transactionsToAdd` for those rows and the batch: its element at each position
carries the user id and the type, amount, category, date and description of the
record of `transactionsToAdd` at that position; and when the insert succeeds the
call ends by reloading and reporting exactly the length of `transactionsToAdd`. -/
theorem insert_payload (numStr : JSNum → Str) (timeValue : Str → Option Int)
    (supabase : Supabase) (userId : Str) (batch : List Transaction) (rows : List Row)
    (hins : Effect.insert rows ∈ (handleBulkImport numStr timeValue supabase userId batch).2) :
    ∃ lo hi existing,
      supabase.select userId lo hi = .ok existing ∧
      rows.length = (transactionsToAdd numStr existing batch).length ∧
      (∀ (i : Nat) (txn : Transaction), (transactionsToAdd numStr existing batch)[i]? = some txn →
        rows[i]? = some
          ({ user_id := userId, type := txn.type, amount := txn.amount,
             category := txn.category, date := txn.date,
             description := txn.description } : Row)) ∧
      (∀ n, Effect.alertAdded n ∈ (handleBulkImport numStr timeValue supabase userId batch).2 →
        n = (transactionsToAdd numStr existing batch).length) ∧
      (supabase.insert rows = none →
        (handleBulkImport numStr timeValue supabase userId batch).2 =
          [.select userId lo hi, .insert rows, .fetchTransactions,
            .alertAdded (transactionsToAdd numStr existing batch).length]) := by
  by_cases hne : batch = []
  · subst hne
    have h0 : handleBulkImport numStr timeValue supabase userId [] = (.resolved, []) := rfl
    rw [h0] at hins
    simp at hins
  · obtain ⟨first, last, _, _, heq⟩ :=
      handleBulkImport_of_ne_nil numStr timeValue supabase userId batch hne
    rw [heq] at hins ⊢
    have hrows : ∀ toAdd : List Transaction,
        (transactionsData userId toAdd).length = toAdd.length ∧
        ∀ (i : Nat) (txn : Transaction), toAdd[i]? = some txn →
          (transactionsData userId toAdd)[i]? = some
            ({ user_id := userId, type := txn.type, amount := txn.amount,
               category := txn.category, date := txn.date,
               description := txn.description } : Row) := by
      intro toAdd
      refine ⟨by simp [transactionsData], ?_⟩
      intro i txn h
      simp [transactionsData, List.getElem?_map, h]
    cases hsel : supabase.select userId first.date last.date with
    | error e =>
      rw [hsel] at hins
      simp at hins
    | ok existing =>
      rw [hsel] at hins
      simp only at hins ⊢
      refine ⟨first.date, last.date, existing, hsel, ?_⟩
      split at hins
      · simp at hins
      · rename_i hlen
        rw [if_neg hlen]
        split at hins
        · rename_i hnone
          simp only [List.mem_cons, reduceCtorEq, Effect.insert.injEq, List.mem_singleton,
            false_or, or_false, List.not_mem_nil] at hins
          subst hins
          rw [hnone]
          refine ⟨(hrows _).1, (hrows _).2, ?_, fun _ => rfl⟩
          intro n hn
          simpa using hn
        · rename_i err hsome
          simp only [List.mem_cons, reduceCtorEq, Effect.insert.injEq, List.mem_singleton,
            false_or, or_false, List.not_mem_nil] at hins
          subst hins
          rw [hsome]
          refine ⟨(hrows _).1, (hrows _).2, ?_, fun h => by cases h⟩
          intro n hn
          simp at hn

theorem insert_payload_witness :
    Effect.insert (transactionsData "u1".toList [taxi, cafe]) ∈
        (handleBulkImport renderWhole ordinalTimeValue emptyStore "u1".toList
          [taxi, cafe]).2 ∧
      ∃ lo hi existing,
        emptyStore.select "u1".toList lo hi = .ok existing ∧
        (transactionsData "u1".toList [taxi, cafe]).length =
          (transactionsToAdd renderWhole existing [taxi, cafe]).length ∧
        (∀ (i : Nat) (txn : Transaction),
          (transactionsToAdd renderWhole existing [taxi, cafe])[i]? = some txn →
          (transactionsData "u1".toList [taxi, cafe])[i]? = some
            ({ user_id := "u1".toList, type := txn.type, amount := txn.amount,
               category := txn.category, date := txn.date,
               description := txn.description } : Row)) ∧
        (∀ n, Effect.alertAdded n ∈
            (handleBulkImport renderWhole ordinalTimeValue emptyStore "u1".toList
              [taxi, cafe]).2 →
          n = (transactionsToAdd renderWhole existing [taxi, cafe]).length) ∧
        (emptyStore.insert (transactionsData "u1".toList [taxi, cafe]) = none →
          (handleBulkImport renderWhole ordinalTimeValue emptyStore "u1".toList
              [taxi, cafe]).2 =
            [.select "u1".toList lo hi, .insert (transactionsData "u1".toList [taxi, cafe]),
              .fetchTransactions,
              .alertAdded (transactionsToAdd renderWhole existing [taxi, cafe]).length]) :=
  ⟨by decide,
    insert_payload renderWhole ordinalTimeValue emptyStore "u1".toList [taxi, cafe]
      (transactionsData "u1".toList [taxi, cafe]) (by decide)⟩

theorem insert_payload_example :
    handleBulkImport renderWhole ordinalTimeValue emptyStore "u1".toList [taxi, cafe] =
      (.resolved,
        [.select "u1".toList "2024-01-05".toList "2024-01-06".toList,
          .insert
            [{ user_id := "u1".toList, type := .expense, amount := .fin 250,
               category := "Транспорт".toList, date := "2024-01-06".toList,
               description := " Taxi | night".toList },
              { user_id := "u1".toList, type := .expense, amount := .fin 100,
                category := "Еда".toList, date := "2024-01-05".toList,
                description := "Cafe".toList }],
          .fetchTransactions, .alertAdded 2]) := by
  decide

/-- C24. Dedup identity ignores kind and category: when the existing records and
the batch records are replaced by records with the same dates, amounts and
descriptions, whatever their `type` and `category`, the reconciler keeps the same
batch positions; so an existing income record and a batch expense record with the
same date, amount and description are treated as duplicates. -/
theorem kept_positions_ignore_kind_and_category (numStr : JSNum → Str)
    (existing existing2 batch batch2 : List Transaction)
    (hE : List.Forall₂ sameIdentityFields existing existing2)
    (hB : List.Forall₂ sameIdentityFields batch batch2) :
    transactionsToAdd numStr existing batch =
        (keptPositions numStr existing batch).map Prod.snd ∧
      transactionsToAdd numStr existing2 batch2 =
        (keptPositions numStr existing2 batch2).map Prod.snd ∧
      (keptPositions numStr existing2 batch2).map Prod.fst =
        (keptPositions numStr existing batch).map Prod.fst ∧
      (transactionsToAdd numStr existing2 batch2).length =
        (transactionsToAdd numStr existing batch).length := by
  have hkept : ∀ E B : List Transaction, transactionsToAdd numStr E B =
      (keptPositions numStr E B).map Prod.snd := by
    intro E B
    unfold transactionsToAdd keptPositions
    rw [addLoop_eq_kept]
    congr 1
    apply List.filter_congr
    intro p _
    rw [count_dbCounts]
  have hfst : (keptPositions numStr existing2 batch2).map Prod.fst =
      (keptPositions numStr existing batch).map Prod.fst := by
    rw [keptPositions_fst, keptPositions_fst, map_key_eq_of_forall₂ numStr _ _ hE,
      map_key_eq_of_forall₂ numStr _ _ hB]
  refine ⟨hkept _ _, hkept _ _, hfst, ?_⟩
  rw [hkept, hkept]
  have h := congrArg List.length hfst
  simpa using h

theorem kept_positions_ignore_kind_and_category_witness :
    List.Forall₂ sameIdentityFields [cafe, taxi] [cafeIncome, taxi] ∧
    List.Forall₂ sameIdentityFields [taxi, cafeIncome, cafe] [taxi, cafe, cafeIncome] ∧
    transactionsToAdd renderWhole [cafe, taxi] [taxi, cafeIncome, cafe] =
        (keptPositions renderWhole [cafe, taxi] [taxi, cafeIncome, cafe]).map Prod.snd ∧
      transactionsToAdd renderWhole [cafeIncome, taxi] [taxi, cafe, cafeIncome] =
        (keptPositions renderWhole [cafeIncome, taxi] [taxi, cafe, cafeIncome]).map
          Prod.snd ∧
      (keptPositions renderWhole [cafeIncome, taxi] [taxi, cafe, cafeIncome]).map Prod.fst =
        (keptPositions renderWhole [cafe, taxi] [taxi, cafeIncome, cafe]).map Prod.fst ∧
      (transactionsToAdd renderWhole [cafeIncome, taxi] [taxi, cafe, cafeIncome]).length =
        (transactionsToAdd renderWhole [cafe, taxi] [taxi, cafeIncome, cafe]).length :=
  ⟨by decide, by decide,
    kept_positions_ignore_kind_and_category renderWhole [cafe, taxi] [cafeIncome, taxi]
      [taxi, cafeIncome, cafe] [taxi, cafe, cafeIncome] (by decide) (by decide)⟩

theorem income_and_expense_are_duplicates :
    transactionsToAdd renderWhole [cafeIncome] [cafe] = [] ∧
      transactionsToAdd renderWhole [cafe, taxi] [taxi, cafeIncome, cafe] = [cafe] := by
  decide

/-- C27. Monotonicity in the existing window: for every batch and all lists of
existing records `existing` and `more`, the records kept against
`existing ++ more` form a subsequence of the records kept against `existing`:
adding records to the window never adds a record to the result. -/
theorem transactionsToAdd_antitone (numStr : JSNum → Str)
    (batch existing more : List Transaction) :
    (transactionsToAdd numStr (existing ++ more) batch).Sublist
      (transactionsToAdd numStr existing batch) := by
  unfold transactionsToAdd
  rw [addLoop_eq_kept, addLoop_eq_kept]
  apply List.Sublist.map
  apply List.monotone_filter_right
  intro p hp
  rw [decide_eq_true_eq, count_dbCounts] at hp ⊢
  have hle : keyCount numStr existing (key numStr p.2) ≤
      keyCount numStr (existing ++ more) (key numStr p.2) := by
    unfold keyCount
    rw [List.map_append, List.count_append]
    exact Nat.le_add_right _ _
  exact Nat.le_trans hle hp

theorem transactionsToAdd_antitone_example :
    transactionsToAdd renderWhole [cafe] [cafe, taxi, cafe] = [taxi, cafe] ∧
      transactionsToAdd renderWhole ([cafe] ++ [taxi, cafe]) [cafe, taxi, cafe] = [] := by
  decide

/-- C25. Classifier case-insensitivity: two descriptions that differ only in the
case of ASCII Latin letters or of Russian Cyrillic letters receive the same
category for each kind; so `magnum`, `Magnum` and `MAGNUM` are all classified as
groceries, and a description containing `перевод` in small letters as a
transfer. -/
theorem categorize_case_insensitive (s t : Str) (type : TxnType)
    (h : DifferOnlyInCase s t) : categorize s type = categorize t type := by
  unfold categorize
  rw [toUpperCase_of_differOnlyInCase s t h]

theorem categorize_case_insensitive_witness :
    DifferOnlyInCase "Оплата magnum ёлка".toList "оплата MAGNUM Ёлка".toList ∧
      categorize "Оплата magnum ёлка".toList .expense =
        categorize "оплата MAGNUM Ёлка".toList .expense :=
  ⟨by decide,
    categorize_case_insensitive "Оплата magnum ёлка".toList "оплата MAGNUM Ёлка".toList
      .expense (by decide)⟩

theorem categorize_case_examples :
    categorize "magnum".toList .expense = "Продукты".toList ∧
      categorize "Magnum".toList .expense = "Продукты".toList ∧
      categorize "MAGNUM".toList .expense = "Продукты".toList ∧
      categorize "Magnum".toList .income = "Продукты".toList ∧
      categorize "перевод".toList .expense = "Переводы".toList ∧
      categorize "Перевод другу".toList .income = "Переводы".toList ∧
      categorize "ПЕРЕВОД".toList .expense = "Переводы".toList := by
  decide

/-- C26. Extraction is finite: the extraction is a total function of the text;
every match consumes at least 15 characters of the text it is searched in (a
white-space character, the eight characters of the date, a white-space character,
at least one digit or space, the comma, two digits and the currency marker) and
the next search starts after it, so the number of emitted Transactions is at most
the length of the normalised text, and hence of the text, divided by 15 and
rounded down. -/
theorem extraction_bounded (fullText : Str) :
    (transactions fullText).length ≤ (cleanText fullText).length / 15 ∧
      (transactions fullText).length ≤ fullText.length / 15 ∧
      ∀ (s : Str) (m : RegexMatch), matchAt s = some m →
        15 ≤ m.length ∧ m.length ≤ s.length := by
  have h := matchLoop_count (cleanText fullText) 0
  have hc := cleanText_length fullText
  have h1 : (transactions fullText).length ≤ (cleanText fullText).length / 15 := by
    unfold transactions
    rw [Nat.le_div_iff_mul_le (by decide)]
    omega
  refine ⟨h1, ?_, matchAt_length⟩
  exact Nat.le_trans h1 (Nat.div_le_div_right hc)

theorem extraction_bound_attained :
    (matchAt " 05.01.24 1,00₸".toList).map RegexMatch.length = some 15 ∧
      "a 05.01.24 1,00₸ 06.01.24 2,00₸".toList.length = 31 ∧
      (transactions "a 05.01.24 1,00₸ 06.01.24 2,00₸".toList).length = 2 := by
  decide

/-- C28. Description invariant: every emitted description is non-empty, begins
and ends with a character that is not white space (trimming it changes nothing),
and does not contain the currency marker `₸`. -/
theorem description_invariant (fullText : Str) (t : Transaction)
    (ht : t ∈ transactions fullText) :
    t.description ≠ [] ∧
      (∀ c r, t.description = c :: r → isWhiteSpace c = false) ∧
      (∀ d, t.description.getLast? = some d → isWhiteSpace d = false) ∧
      trim t.description = t.description ∧
      '₸' ∉ t.description := by
  refine forall_mem_matchLoop
    (fun t => t.description ≠ [] ∧
      (∀ c r, t.description = c :: r → isWhiteSpace c = false) ∧
      (∀ d, t.description.getLast? = some d → isWhiteSpace d = false) ∧
      trim t.description = t.description ∧ '₸' ∉ t.description) ?_ (cleanText fullText) 0 t ht
  intro m t hm
  have hd := processMatch_description m t hm
  by_cases he : (cleanDescription (trim m.group1)).isEmpty = true
  · rw [if_pos he] at hd
    rw [hd]
    refine ⟨by decide, ?_, ?_, by decide, by decide⟩
    · intro c r hc
      have h1 : placeholderDescription.head? = some c := by rw [hc]; rfl
      have h2 : c = 'Т' := by
        have h3 : placeholderDescription.head? = some 'Т' := by decide
        rw [h3] at h1
        exact (Option.some.inj h1).symm
      rw [h2]; decide
    · intro d hl
      have h3 : placeholderDescription.getLast? = some 'i' := by decide
      rw [h3] at hl
      rw [← Option.some.inj hl]; decide
  · rw [if_neg he] at hd
    rw [hd]
    have htrim := trim_cleanDescription m.group1
    obtain ⟨hh, hl⟩ := trim_ends (cleanDescription (trim m.group1))
    rw [htrim] at hh hl
    refine ⟨?_, hh, hl, htrim, cleanDescription_no_mark _⟩
    intro e
    rw [e] at he
    exact he rfl

theorem description_invariant_witness :
    ({ date := "2024-01-05".toList, description := "Magnum".toList, amount := .fin 500,
       type := .expense, category := "Продукты".toList } : Transaction) ∈
      transactions "Kaspi Gold 1 000,00 ₸  Magnum  05.01.24 - 500,00 ₸".toList ∧
    "Magnum".toList ≠ [] ∧
      (∀ c r, "Magnum".toList = c :: r → isWhiteSpace c = false) ∧
      (∀ d, "Magnum".toList.getLast? = some d → isWhiteSpace d = false) ∧
      trim "Magnum".toList = "Magnum".toList ∧
      '₸' ∉ "Magnum".toList :=
  ⟨by decide,
    description_invariant "Kaspi Gold 1 000,00 ₸  Magnum  05.01.24 - 500,00 ₸".toList
      { date := "2024-01-05".toList, description := "Magnum".toList, amount := .fin 500,
        type := .expense, category := "Продукты".toList } (by decide)⟩

/-- C29. The summary-marker test runs on the raw capture: when the trimmed first
capture contains `Остаток` or `Всего` before its last `₸`, the match is dropped,
although the description that cleaning would produce is only the text after that
`₸` and need not contain a marker.  The text
`Остаток 1 000,00 ₸ Magnum 05.01.24 - 500,00 ₸` yields no Transaction. -/
theorem summary_marker_tested_on_raw_capture (m : RegexMatch) (before after : Str)
    (hraw : trim m.group1 = before ++ '₸' :: after) (hafter : '₸' ∉ after)
    (hmark : includes before "Остаток".toList = true ∨
      includes before "Всего".toList = true) :
    processMatch m = none ∧ cleanDescription (trim m.group1) = trim after ∧
      transactions "Остаток 1 000,00 ₸ Magnum 05.01.24 - 500,00 ₸".toList = [] := by
  have hsub : ∀ pat : Str, includes before pat = true →
      includes (trim m.group1) pat = true := by
    intro pat hp
    rw [includes_iff_substring] at hp ⊢
    rw [hraw]
    exact hp.trans (List.prefix_append _ _).isInfix
  refine ⟨?_, by rw [hraw, cleanDescription_of_split before after hafter], by decide⟩
  rw [processMatch_eq_none_iff]
  rcases hmark with h | h
  · exact Or.inl (hsub _ h)
  · exact Or.inr (Or.inl (hsub _ h))

theorem summary_marker_tested_on_raw_capture_witness :
    trim (RegexMatch.mk "Остаток 1 000,00 ₸ Magnum".toList "05.01.24".toList
        "- 500,00".toList 45).group1 = "Остаток 1 000,00 ".toList ++ '₸' :: " Magnum".toList ∧
      '₸' ∉ " Magnum".toList ∧
      (includes "Остаток 1 000,00 ".toList "Остаток".toList = true ∨
        includes "Остаток 1 000,00 ".toList "Всего".toList = true) ∧
      processMatch (RegexMatch.mk "Остаток 1 000,00 ₸ Magnum".toList "05.01.24".toList
        "- 500,00".toList 45) = none ∧
      cleanDescription (trim (RegexMatch.mk "Остаток 1 000,00 ₸ Magnum".toList
        "05.01.24".toList "- 500,00".toList 45).group1) = trim " Magnum".toList ∧
      transactions "Остаток 1 000,00 ₸ Magnum 05.01.24 - 500,00 ₸".toList = [] :=
  ⟨by decide, by decide, by decide,
    summary_marker_tested_on_raw_capture
      (RegexMatch.mk "Остаток 1 000,00 ₸ Magnum".toList "05.01.24".toList
        "- 500,00".toList 45)
      "Остаток 1 000,00 ".toList " Magnum".toList (by decide) (by decide) (by decide)⟩

theorem summary_marker_example :
    matchAt "Остаток 1 000,00 ₸ Magnum 05.01.24 - 500,00 ₸".toList =
        some (RegexMatch.mk "Остаток 1 000,00 ₸ Magnum".toList "05.01.24".toList
          "- 500,00".toList 45) ∧
      cleanDescription (trim "Остаток 1 000,00 ₸ Magnum".toList) = "Magnum".toList ∧
      includes "Magnum".toList "Остаток".toList = false ∧
      includes "Magnum".toList "Всего".toList = false ∧
      transactions "Остаток 1 000,00 ₸ Magnum 05.01.24 - 500,00 ₸".toList = [] ∧
      transactions "Magnum 05.01.24 - 500,00 ₸".toList =
        [{ date := "2024-01-05".toList, description := "Magnum".toList, amount := .fin 500,
           type := .expense, category := "Продукты".toList }] := by
  decide

/-- C30. A record at the very start of the text is not extracted: the normalised
text never begins with white space, and every emitted Transaction comes from a
match whose date stands right after a white-space character of the text, so a date
that is the first token is never the date of a match; a text with no date after a
white-space character yields no Transaction and the layout-mismatch error.
`05.01.24 - 100,00 ₸` yields no Transaction, and
`05.01.24 - 100,00 ₸ Shop 06.01.24 - 200,00 ₸` exactly one: 2024-01-06, 200,
`Shop`. -/
theorem record_at_start_not_extracted :
    (∀ (fullText : Str) (c : Char) (r : Str),
      cleanText fullText = c :: r → isWhiteSpace c = false) ∧
    (∀ (fullText : Str) (t : Transaction), t ∈ transactions fullText →
      ∃ (pre : Str) (m : RegexMatch) (w : Char) (u : Str),
        cleanText fullText = pre ++ (m.group1 ++ w :: (m.group2 ++ u)) ∧
          isWhiteSpace w = true ∧ startsWithDate (m.group2 ++ u) = true ∧
          processMatch m = some t) ∧
    (∀ fullText : Str, dateAfterSpace (cleanText fullText) = false →
      transactions fullText = [] ∧
      parseKaspiPDF fullText =
        .error "Could not recognize transactions. PDF format might have changed.".toList) ∧
    (startsWithDate (cleanText "05.01.24 - 100,00 ₸".toList) = true ∧
      dateAfterSpace (cleanText "05.01.24 - 100,00 ₸".toList) = false ∧
      transactions "05.01.24 - 100,00 ₸".toList = []) ∧
    transactions "05.01.24 - 100,00 ₸ Shop 06.01.24 - 200,00 ₸".toList =
      [{ date := "2024-01-06".toList, description := "Shop".toList, amount := .fin 200,
         type := .expense, category := "Покупки".toList }] := by
  have hnone : ∀ fullText : Str, dateAfterSpace (cleanText fullText) = false →
      transactions fullText = [] := by
    intro fullText h
    cases ht : transactions fullText with
    | nil => rfl
    | cons t l =>
      exfalso
      have hmem : t ∈ transactions fullText := by rw [ht]; exact List.mem_cons_self _ _
      obtain ⟨pre, m, w, u, hs, hw, hd, _⟩ := matchLoop_origin (cleanText fullText) 0 t hmem
      have := dateAfterSpace_of_split (pre ++ m.group1) w (m.group2 ++ u) hw hd
      rw [List.append_assoc, ← hs, h] at this
      exact absurd this (by simp)
  refine ⟨cleanText_head, fun fullText t ht => matchLoop_origin (cleanText fullText) 0 t ht,
    fun fullText h => ⟨hnone fullText h, parseKaspiPDF_of_nil fullText (hnone fullText h)⟩,
    by decide, by decide⟩

end Coinkeeper
